import Mathlib

/-!
# UEViewer game file system (`Unreal/GameFileSystem.cpp`)

A shallow embedding of the file registry of `Unreal/GameFileSystem.cpp`:
the extension tables and `FindExtension`, the registrar `RegisterGameFile`,
the directory scanner `ScanGameDirectory`, `appSetRootDirectory`,
the lookup `appFindGameFile` and `appSkipRootDir`.

Conventions of the embedding.

* A C string is the list of its characters before the terminating NUL
  (`CStr`); `p[n]` for `n = strlen p` is the NUL character.
* A pointer into a string (`strrchr`, `ShortFilename`, `Extension`) is the
  suffix of the string that starts at the pointed-to character.
* A pointer into the array `GameFiles` is the index of the slot.
* The preprocessor switches are the fields of `BuildConfig`.
* The process-wide variables are the fields of `GameFS`.
-/

namespace UEViewer

/-! ## C strings -/

/-- A C string: its characters up to, and without, the terminating NUL. -/
abbrev CStr := List Char

/-- The NUL character that ends every C string. -/
def NUL : Char := Char.ofNat 0

/-- `p[n]` for `n ≤ strlen p`: the character at offset `n`, NUL at the end. -/
def charAt (p : CStr) (n : Nat) : Char := p.getD n NUL

/-- `strrchr(p, c)`: the suffix of `p` starting at the last occurrence of `c`,
or `none` (the null pointer) when `c` does not occur. -/
def strrchr : CStr → Char → Option CStr
  | [], _ => none
  | x :: xs, c =>
    match strrchr xs c with
    | some r => some r
    | none => if x = c then some (x :: xs) else none

/-- `strchr(p, c) != NULL`. -/
def strchr (p : CStr) (c : Char) : Bool := p.contains c

/-- `stricmp(a, b) == 0`: equality up to the case of ASCII letters. -/
def stricmp (a b : CStr) : Bool := a.map Char.toLower == b.map Char.toLower

/-- `strnicmp(a, b, n) == 0`: the first `n` characters (or the whole strings,
when shorter) are equal up to the case of ASCII letters. -/
def strnicmp (a b : CStr) (n : Nat) : Bool := stricmp (a.take n) (b.take n)

/-- `strcmp(a, b) == 0`. -/
def strcmp (a b : CStr) : Bool := a == b

/-- `appStrncpyz(dst, src, count)`: the copy keeps at most `count - 1`
characters of `src`. -/
def appStrncpyz (src : CStr) (count : Nat) : CStr := src.take (count - 1)

/-- The loops `for (s = buf; *s; s++) if (*s == '\\') *s = '/';`. -/
def replaceSlashes (buf : CStr) : CStr := buf.map fun c => if c = '\\' then '/' else c

/-! ## Build configuration and extension tables -/

/-- The preprocessor switches the file depends on (they are defined in headers
outside this file), and the size of the `RelativeName` array of
`CGameFileInfo`, which is declared in `GameFileSystem.h`. -/
structure BuildConfig where
  RUNE : Bool
  BATTLE_TERR : Bool
  TRIBES3 : Bool
  BIOSHOCK : Bool
  VANGUARD : Bool
  LEAD : Bool
  UNREAL3 : Bool
  UNREAL4 : Bool
  MASSEFF : Bool
  TLR : Bool
  LEGENDARY : Bool
  R6VEGAS : Bool
  TERA : Bool
  APB : Bool
  TRIBES4 : Bool
  UC2 : Bool
  LINEAGE2 : Bool
  SUPPORT_ANDROID : Bool
  WIN32 : Bool
  RelativeNameSize : Nat
  deriving DecidableEq, Repr

/-- The build with every game switch on, POSIX directory enumeration and
256-character name buffers. -/
def fullBuild : BuildConfig :=
  { RUNE := true, BATTLE_TERR := true, TRIBES3 := true, BIOSHOCK := true,
    VANGUARD := true, LEAD := true, UNREAL3 := true, UNREAL4 := true,
    MASSEFF := true, TLR := true, LEGENDARY := true, R6VEGAS := true,
    TERA := true, APB := true, TRIBES4 := true, UC2 := true, LINEAGE2 := true,
    SUPPORT_ANDROID := true, WIN32 := false, RelativeNameSize := 256 }

/-- `#define MAX_GAME_FILES 32768`. -/
def MAX_GAME_FILES : Nat := 32768

/-- `#define MAX_FOREIGN_FILES 32768`. -/
def MAX_FOREIGN_FILES : Nat := 32768

/-- The entries of a table that sit inside `#if flag ... #endif`. -/
def ifdef (flag : Bool) (xs : List String) : List CStr :=
  if flag then xs.map String.toList else []

/-- Table `PackageExtensions`. -/
def PackageExtensions (cfg : BuildConfig) : List CStr :=
  ifdef true ["u", "ut2", "utx", "uax", "usx", "ukx"]
  ++ ifdef cfg.RUNE ["ums"]
  ++ ifdef cfg.BATTLE_TERR ["bsx", "btx", "bkx", "ebsx", "ebtx", "ebkx", "ebax"]
  ++ ifdef cfg.TRIBES3 ["pkg"]
  ++ ifdef cfg.BIOSHOCK ["bsm"]
  ++ ifdef cfg.VANGUARD ["uea", "uem"]
  ++ ifdef cfg.LEAD ["ass", "umd"]
  ++ ifdef cfg.UNREAL3 ["upk", "ut3", "xxx", "umap", "udk", "map"]
  ++ ifdef cfg.UNREAL4 ["uasset"]
  ++ ifdef cfg.MASSEFF ["sfm", "pcc"]
  ++ ifdef cfg.TLR ["tlr"]
  ++ ifdef cfg.LEGENDARY ["ppk", "pda"]
  ++ ifdef cfg.R6VEGAS ["uppc", "rmpc"]
  ++ ifdef cfg.TERA ["gpk"]
  ++ ifdef cfg.APB ["apb"]
  ++ ifdef cfg.TRIBES4 ["fmap"]
  ++ ifdef true ["lm", "s8m", "ccpk"]

/-- `#define HAS_SUPORT_FILES 1`, made under `#if UNREAL3 || UC2`. -/
def HAS_SUPORT_FILES (cfg : BuildConfig) : Bool := cfg.UNREAL3 || cfg.UC2

/-- Table `KnownExtensions` (secondary, non-package files); it is compiled,
and consulted, only under `HAS_SUPORT_FILES`. -/
def KnownExtensions (cfg : BuildConfig) : List CStr :=
  ifdef cfg.UNREAL3 ["tfc", "bin"]
  ++ ifdef cfg.UC2 ["xpr"]
  ++ ifdef cfg.BIOSHOCK ["blk", "bdc"]
  ++ ifdef cfg.TRIBES4 ["rtc"]

/-- Table `SkipExtensions`. -/
def SkipExtensions : List CStr :=
  ifdef true ["tga", "dds", "bmp", "mat", "psk", "pskx", "psa", "config",
    "ogg", "wav", "fsb", "xma", "unk", "gfx", "fxa", "md5mesh", "md5anim",
    "uc", "3d"]

/-- `FindExtension(Filename, Extensions, NumExtensions)`. -/
def FindExtension (Filename : CStr) (Extensions : List CStr) : Bool :=
  match strrchr Filename '.' with
  | none => false
  | some ext => Extensions.any fun e => stricmp (ext.drop 1) e

/-! ## Data model -/

/-- Modelled from the spec: the virtual file system interface
`FVirtualFileSystem` (`attach`, `fileCount`, `fileNameAt`, `sizeOf`), whose
declaration and OBB implementation are outside this file. A mounted container
is its directory table: the reported paths, in index order, with their sizes. -/
structure FVirtualFileSystem where
  files : List (CStr × Nat)
  deriving DecidableEq, Repr

/-- `vfs->NumFiles()`. -/
def FVirtualFileSystem.NumFiles (vfs : FVirtualFileSystem) : Nat := vfs.files.length

/-- The paths `vfs->FileName(0)`, ..., `vfs->FileName(NumFiles() - 1)`. -/
def FVirtualFileSystem.FileNames (vfs : FVirtualFileSystem) : List CStr :=
  vfs.files.map Prod.fst

/-- `vfs->GetFileSize(name)`: the size recorded for the first directory slot of
that name, `0` when there is none. -/
def FVirtualFileSystem.GetFileSize (vfs : FVirtualFileSystem) (name : CStr) : Nat :=
  match vfs.files.find? fun f => f.1 == name with
  | some f => f.2
  | none => 0

/-- The fields of `CGameFileInfo` that this file reads and writes (the
struct is declared in `GameFileSystem.h`). `ShortFilename` and `Extension`
point into `RelativeName`; `Extension` may be the null pointer. -/
structure CGameFileInfo where
  RelativeName : CStr
  ShortFilename : CStr
  Extension : Option CStr
  IsPackage : Bool
  SizeInKb : Nat
  FileSystem : Option FVirtualFileSystem
  deriving DecidableEq, Repr

/-- The process-wide variables: `RootDirectory`, the used part of the array
`GameFiles` (so `GNumGameFiles` is its length), `GNumPackageFiles` and
`GNumForeignFiles`. -/
structure GameFS where
  RootDirectory : CStr
  GameFiles : List CGameFileInfo
  GNumPackageFiles : Nat
  GNumForeignFiles : Nat
  deriving DecidableEq, Repr

/-- `GNumGameFiles`. -/
def GameFS.GNumGameFiles (st : GameFS) : Nat := st.GameFiles.length

/-- The state at program start, with the given content of `RootDirectory`. -/
def GameFS.initial (root : CStr) : GameFS :=
  { RootDirectory := root, GameFiles := [], GNumPackageFiles := 0, GNumForeignFiles := 0 }

/-- What the host answers to the calls the file makes: `opendir`/`readdir`
(the names of a directory, `none` when `opendir` fails), `stat64` (`none` on
failure, else whether the path is a directory), `_findfirsti64`/`_findnexti64`
on a pattern (names with their `_A_SUBDIR` bit, `none` when nothing is found),
`fopen`/`ftell` (the size in bytes, `none` when `fopen` fails), and
`new FFileReader(path)` followed by `AttachReader` of an `FObbVFS` (the mounted
container, `none` when the attach fails). -/
structure Host where
  opendir : CStr → Option (List CStr)
  stat64 : CStr → Option Bool
  findfirst : CStr → Option (List (CStr × Bool))
  fopenSize : CStr → Option Nat
  attachObb : CStr → Option FVirtualFileSystem

/-- How a call of the registrar or of the scanner ends: it returns `res` in
state `st`; `appError` ends the process; an `assert` fails; or the fuel of the
scanner model ran out. -/
inductive Result where
  | ret (res : Bool) (st : GameFS)
  | appError
  | assertFailed
  | outOfFuel
  deriving DecidableEq, Repr

/-! ## The registrar -/

/-- Lines 247-254 of `RegisterGameFile`: `ShortFilename` of a relative name. -/
def shortFilenameOf (RelativeName : CStr) : CStr :=
  match strrchr RelativeName '/' with
  | some s => s.drop 1
  | none => RelativeName

/-- Lines 251-254 of `RegisterGameFile`: `Extension` of a short name. -/
def extensionOf (ShortFilename : CStr) : Option CStr :=
  match strrchr ShortFilename '.' with
  | some s => some (s.drop 1)
  | none => none

/-- The entry whose `RelativeName` buffer received `name`. -/
def mkInfo (cfg : BuildConfig) (name : CStr) (IsPackage : Bool) (SizeInKb : Nat)
    (parentVfs : Option FVirtualFileSystem) : CGameFileInfo :=
  let RelativeName := appStrncpyz name cfg.RelativeNameSize
  { RelativeName := RelativeName
    ShortFilename := shortFilenameOf RelativeName
    Extension := extensionOf (shortFilenameOf RelativeName)
    IsPackage := IsPackage
    SizeInKb := SizeInKb
    FileSystem := parentVfs }

/-- Lines 224-234 of `RegisterGameFile`: `SizeInKb` of a regular file. -/
def regularSizeInKb (host : Host) (FullName : CStr) : Nat :=
  match host.fopenSize FullName with
  | some bytes => (bytes + 512) / 1024
  | none => 0

/-- Lines 214-257 of `RegisterGameFile` ("create entry"). For a regular file
`s = FullName + strlen(RootDirectory) + 1` and `assert(s[-1] == '/')`; a
`FullName` shorter than `RootDirectory` (where `s[-1]` lies behind the
terminator) is counted as a failed assertion. -/
def createEntry (cfg : BuildConfig) (host : Host) (FullName : CStr)
    (parentVfs : Option FVirtualFileSystem) (IsPackage : Bool) (st : GameFS) : Result :=
  let GNumPackageFiles := if IsPackage then st.GNumPackageFiles + 1 else st.GNumPackageFiles
  match parentVfs with
  | none =>
    let SizeInKb := regularSizeInKb host FullName
    if st.RootDirectory.length ≤ FullName.length
        ∧ charAt FullName st.RootDirectory.length = '/' then
      let info := mkInfo cfg (FullName.drop (st.RootDirectory.length + 1)) IsPackage SizeInKb none
      .ret true { st with GameFiles := st.GameFiles ++ [info], GNumPackageFiles := GNumPackageFiles }
    else .assertFailed
  | some vfs =>
    let info := mkInfo cfg FullName IsPackage (vfs.GetFileSize FullName) (some vfs)
    .ret true { st with GameFiles := st.GameFiles ++ [info], GNumPackageFiles := GNumPackageFiles }

/-- Lines 192-257 of `RegisterGameFile`: classification by extension, then
entry creation. -/
def registerEntry (cfg : BuildConfig) (host : Host) (FullName : CStr)
    (parentVfs : Option FVirtualFileSystem) (st : GameFS) : Result :=
  if FindExtension FullName (PackageExtensions cfg) then
    createEntry cfg host FullName parentVfs true st
  else if HAS_SUPORT_FILES cfg && FindExtension FullName (KnownExtensions cfg) then
    createEntry cfg host FullName parentVfs false st
  else if FindExtension FullName SkipExtensions then
    .ret true st
  else if st.GNumForeignFiles + 1 ≥ MAX_FOREIGN_FILES then
    .appError
  else
    .ret true { st with GNumForeignFiles := st.GNumForeignFiles + 1 }

/-- `RegisterGameFile(FullName, vfs)` with `vfs != NULL`: the capacity guard,
no mount block, then classification. -/
def RegisterGameFileVfs (cfg : BuildConfig) (host : Host) (FullName : CStr)
    (vfs : FVirtualFileSystem) (st : GameFS) : Result :=
  if st.GameFiles.length ≥ MAX_GAME_FILES then .ret false st
  else registerEntry cfg host FullName (some vfs) st

/-- The loop of lines 180-185 over the names of a mounted container. -/
def registerVfsFiles (cfg : BuildConfig) (host : Host) (vfs : FVirtualFileSystem) :
    List CStr → GameFS → Result
  | [], st => .ret true st
  | name :: rest, st =>
    match RegisterGameFileVfs cfg host name vfs st with
    | .ret true st1 => registerVfsFiles cfg host vfs rest st1
    | .ret false st1 => .ret false st1
    | r => r

/-- `RegisterGameFile(FullName, parentVfs)`. The recursive calls of line 182
pass a non-null `parentVfs`, so they are `RegisterGameFileVfs`. -/
def RegisterGameFile (cfg : BuildConfig) (host : Host) (FullName : CStr)
    (parentVfs : Option FVirtualFileSystem) (st : GameFS) : Result :=
  match parentVfs with
  | some vfs => RegisterGameFileVfs cfg host FullName vfs st
  | none =>
    if st.GameFiles.length ≥ MAX_GAME_FILES then .ret false st
    else
      match strrchr FullName '.' with
      | some ext =>
        if cfg.SUPPORT_ANDROID && stricmp (ext.drop 1) "obb".toList then
          match host.attachObb FullName with
          | none => .ret true st
          | some vfs => registerVfsFiles cfg host vfs vfs.FileNames st
        else registerEntry cfg host FullName none st
      | none => registerEntry cfg host FullName none st

/-! ## The directory scanner -/

/-- `appSprintf(ARRAY_ARG(Path), "%s/%s", dir, name)` with `char Path[256]`. -/
def joinPath (dir name : CStr) : CStr := (dir ++ '/' :: name).take 255

/-- The `while` loop of the POSIX branch of `ScanGameDirectory` over the names
that `readdir` returns; `scan` is the recursive call. The loop does not test
`res`. -/
def posixLoop (cfg : BuildConfig) (host : Host) (scan : CStr → GameFS → Result)
    (dir : CStr) (recurse : Bool) : List CStr → Bool → GameFS → Result
  | [], res, st => .ret res st
  | name :: rest, res, st =>
    if charAt name 0 = '.' then posixLoop cfg host scan dir recurse rest res st
    else
      match host.stat64 (joinPath dir name) with
      | none => posixLoop cfg host scan dir recurse rest res st
      | some true =>
        if recurse then
          match scan (joinPath dir name) st with
          | .ret r st1 => posixLoop cfg host scan dir recurse rest r st1
          | other => other
        else posixLoop cfg host scan dir recurse rest true st
      | some false =>
        match RegisterGameFile cfg host (joinPath dir name) none st with
        | .ret r st1 => posixLoop cfg host scan dir recurse rest r st1
        | other => other

/-- The `do ... while (res && _findnexti64(...) != -1)` loop of the Win32
branch of `ScanGameDirectory`; a body is entered only with `res == true`. -/
def win32Loop (cfg : BuildConfig) (host : Host) (scan : CStr → GameFS → Result)
    (dir : CStr) (recurse : Bool) : List (CStr × Bool) → GameFS → Result
  | [], st => .ret true st
  | (name, isDir) :: rest, st =>
    if charAt name 0 = '.' then win32Loop cfg host scan dir recurse rest st
    else if isDir then
      if recurse then
        match scan (joinPath dir name) st with
        | .ret true st1 => win32Loop cfg host scan dir recurse rest st1
        | other => other
      else win32Loop cfg host scan dir recurse rest st
    else
      match RegisterGameFile cfg host (joinPath dir name) none st with
      | .ret true st1 => win32Loop cfg host scan dir recurse rest st1
      | other => other

/-- `ScanGameDirectory(dir, recurse)`; `fuel` bounds the depth of the
recursion into subdirectories. -/
def ScanGameDirectory (cfg : BuildConfig) (host : Host) :
    Nat → CStr → Bool → GameFS → Result
  | 0, _, _, _ => .outOfFuel
  | fuel + 1, dir, recurse, st =>
    if cfg.WIN32 then
      match host.findfirst ((dir ++ "/*.*".toList).take 255) with
      | none => .ret true st
      | some found =>
        win32Loop cfg host (fun d s => ScanGameDirectory cfg host fuel d recurse s)
          dir recurse found st
    else
      match host.opendir dir with
      | none => .ret true st
      | some names =>
        posixLoop cfg host (fun d s => ScanGameDirectory cfg host fuel d recurse s)
          dir recurse names true st

/-- `appSetRootDirectory(dir, recurse)`; the model keeps what the scan
returned, which the function itself drops. -/
def appSetRootDirectory (cfg : BuildConfig) (host : Host) (fuel : Nat) (dir : CStr)
    (recurse : Bool) (st : GameFS) : Result :=
  let dir1 := if charAt dir 0 = NUL then ".".toList else dir
  let RootDirectory := appStrncpyz dir1 256
  ScanGameDirectory cfg host fuel RootDirectory recurse { st with RootDirectory := RootDirectory }

/-! ## Lookup -/

/-- `const char *GStartupPackage = "startup_xxx";` (under `#if UNREAL3`). -/
def GStartupPackage : CStr := "startup_xxx".toList

/-- How `appFindGameFile` ends: it returns a pointer to the slot `i` of
`GameFiles` (`some i`) or the null pointer (`none`); the `assert` of line 464
fails; or `stricmp` is handed a null `Extension` (line 520). -/
inductive FindResult where
  | ret (info : Option Nat)
  | assertFailed
  | nullExtension
  deriving DecidableEq, Repr

/-- The `for` loop of `appFindGameFile` from slot `i` on, `files` being the
slots `i`, `i + 1`, ... and `info` the fallback remembered so far. -/
def findLoop (findStartupPackage : Bool) (buf : CStr) (Ext : Option CStr) :
    List CGameFileInfo → Nat → Option Nat → FindResult
  | [], _, info => .ret info
  | info2 :: rest, i, info =>
    if findStartupPackage then
      if !strnicmp info2.ShortFilename "startup".toList 7 then
        findLoop findStartupPackage buf Ext rest (i + 1) info
      else if charAt info2.ShortFilename 7 = '.' then .ret (some i)
      else if strnicmp (info2.ShortFilename.drop 7) "_int.".toList 5 then .ret (some i)
      else if charAt info2.ShortFilename 7 = '_' then
        findLoop findStartupPackage buf Ext rest (i + 1) (some i)
      else findLoop findStartupPackage buf Ext rest (i + 1) info
    else
      let nameLen := buf.length
      let found :=
        (strnicmp info2.ShortFilename buf nameLen && charAt info2.ShortFilename nameLen = '.')
        || (strnicmp info2.RelativeName buf nameLen && charAt info2.RelativeName nameLen = '.')
      if !found then findLoop findStartupPackage buf Ext rest (i + 1) info
      else
        match Ext with
        | some ext =>
          match info2.Extension with
          | none => .nullExtension
          | some e =>
            if !stricmp e ext then findLoop findStartupPackage buf Ext rest (i + 1) info
            else .ret (some i)
        | none =>
          if !info2.IsPackage then findLoop findStartupPackage buf Ext rest (i + 1) info
          else .ret (some i)

/-- `appFindGameFile(Filename, Ext)` over the registry `GameFiles`. -/
def appFindGameFile (cfg : BuildConfig) (GameFiles : List CGameFileInfo)
    (Filename : CStr) (Ext : Option CStr) : FindResult :=
  let buf := replaceSlashes (appStrncpyz Filename 256)
  let findStartupPackage := cfg.UNREAL3 && strcmp Filename GStartupPackage
  match Ext with
  | some ext =>
    if strchr buf '.' then .assertFailed
    else findLoop findStartupPackage buf (some ext) GameFiles 0 none
  | none =>
    match strrchr buf '.' with
    | some s =>
      findLoop findStartupPackage (buf.take (buf.length - s.length)) (some (s.drop 1))
        GameFiles 0 none
    | none => findLoop findStartupPackage buf none GameFiles 0 none

/-- The entry a lookup result points to. -/
def entryOf (GameFiles : List CGameFileInfo) : FindResult → Option CGameFileInfo
  | .ret (some i) => GameFiles.get? i
  | _ => none

/-- The `while (true)` loop of `appSkipRootDir` on the rests `str1` of
`RootDirectory` and `str2` of `Filename`: `some p` when it returns the pointer
`p` into `Filename`, `none` when it returns `Filename` itself. -/
def skipRootLoop : CStr → CStr → Option CStr
  | [], [] => none
  | [], c2 :: str2 => if (if c2 = '\\' then '/' else c2) = '/' then some str2 else none
  | _ :: _, [] => none
  | c1 :: str1, c2 :: str2 =>
    if (if c1 = '\\' then '/' else c1) ≠ (if c2 = '\\' then '/' else c2) then none
    else skipRootLoop str1 str2

/-- `appSkipRootDir(Filename)` with the given content of `RootDirectory`. -/
def appSkipRootDir (RootDirectory Filename : CStr) : CStr :=
  if RootDirectory = [] then Filename
  else
    match skipRootLoop RootDirectory Filename with
    | some p => p
    | none => Filename

/-- What `appCreateFileReader` opens: the regular file at a path, or a file of
a container by the name the container knows. -/
inductive ReaderSource where
  | file (path : CStr)
  | vfs (fs : FVirtualFileSystem) (name : CStr)
  deriving DecidableEq, Repr

/-- `appCreateFileReader(info)` with the given content of `RootDirectory`; the
path of a regular file is formatted into `char buf[256]`. -/
def appCreateFileReader (RootDirectory : CStr) (info : CGameFileInfo) : ReaderSource :=
  match info.FileSystem with
  | none => .file (joinPath RootDirectory info.RelativeName)
  | some fs => .vfs fs info.RelativeName

/-- `appEnumGameFilesWorker(Callback, Ext, Param)` over the registry. The
callback returns whether to go on and may change what `Param` points to, the
value of type `σ`; `none` stands for `stricmp` handed a null `Extension`
(line 592). -/
def appEnumGameFilesWorker {σ : Type} (Callback : CGameFileInfo → σ → Bool × σ)
    (Ext : Option CStr) : List CGameFileInfo → σ → Option σ
  | [], p => some p
  | info :: rest, p =>
    match Ext with
    | none =>
      if !info.IsPackage then appEnumGameFilesWorker Callback Ext rest p
      else
        match Callback info p with
        | (true, p1) => appEnumGameFilesWorker Callback Ext rest p1
        | (false, p1) => some p1
    | some ext =>
      match info.Extension with
      | none => none
      | some e =>
        if !stricmp e ext then appEnumGameFilesWorker Callback Ext rest p
        else
          match Callback info p with
          | (true, p1) => appEnumGameFilesWorker Callback Ext rest p1
          | (false, p1) => some p1

/-! ## Root directory detection -/

/-- Table `KnownDirs2`. -/
def KnownDirs2 (cfg : BuildConfig) : List CStr :=
  ifdef true ["Animations", "Maps", "Sounds", "StaticMeshes", "System"]
  ++ ifdef cfg.LINEAGE2 ["Systextures"]
  ++ ifdef cfg.UC2 ["XboxTextures", "XboxAnimations"]
  ++ ifdef true ["Textures"]

/-- Modelled from the spec: `appStristr(s, sub)`, declared outside this file,
is the search for `sub` in `s` that ignores case ("contains,
case-insensitively"); it returns the pointer to the first occurrence or the
null pointer. -/
def appStristr : CStr → CStr → Option CStr
  | [], sub => if sub = [] then some [] else none
  | c :: cs, sub =>
    if strnicmp (c :: cs) sub sub.length then some (c :: cs) else appStristr cs sub

/-- The local variables of `appSetRootDirectory2` that outlive its loop. -/
structure RootDetection where
  root : CStr
  detected : Nat
  pCooked : Option CStr
  deriving DecidableEq, Repr

/-- The `for (int i = 0; i < 8; i++)` loop of `appSetRootDirectory2` with `n`
rounds left; `first` is `i == 0` and `buf` is the string in `buf`. -/
def rootLoop (cfg : BuildConfig) : Nat → Bool → CStr → RootDetection → RootDetection
  | 0, _, _, d => d
  | n + 1, first, buf, d =>
    match strrchr buf '/' with
    | none => d
    | some p =>
      let s := p.drop 1
      let cut := buf.take (buf.length - p.length)
      let found := first && (KnownDirs2 cfg).any fun k => stricmp k s
      let d1 : RootDetection :=
        if found = true ∧ d.detected < 1 then { d with detected := 1, root := cut } else d
      let pCooked := appStristr s "Cooked".toList
      let d2 : RootDetection := { d1 with pCooked := pCooked }
      if pCooked.isSome || (appStristr s "Content".toList).isSome then
        if d2.detected < 2 then { d2 with detected := 2, root := buf }
        else rootLoop cfg n false buf d2
      else rootLoop cfg n false cut d2

/-- Lines 362-415 of `appSetRootDirectory2`: the detection of the root;
`none` stands for the write `*s = 0` through the null pointer that `strrchr`
returns for a name without `/`. -/
def detectRoot (cfg : BuildConfig) (filename : CStr) : Option RootDetection :=
  let buf := replaceSlashes (appStrncpyz filename 256)
  match strrchr buf '/' with
  | none => none
  | some p =>
    let dir := buf.take (buf.length - p.length)
    some (rootLoop cfg 8 true dir { root := dir, detected := 0, pCooked := none })

/-- The values of `GForcePlatform` that the file names. -/
inductive Platform where
  | PLATFORM_UNKNOWN
  | PLATFORM_PC
  | PLATFORM_XBOX360
  | PLATFORM_PS3
  | PLATFORM_IOS
  deriving DecidableEq, Repr

/-- Lines 418-427 of `appSetRootDirectory2`: the new value of `GForcePlatform`. -/
def detectPlatform (GForcePlatform : Platform) (pCooked : Option CStr) : Platform :=
  match pCooked with
  | none => GForcePlatform
  | some p =>
    if GForcePlatform = .PLATFORM_UNKNOWN then
      if strnicmp (p.drop 6) "PS3".toList 3 then .PLATFORM_PS3
      else if strnicmp (p.drop 6) "Xenon".toList 5 then .PLATFORM_XBOX360
      else if strnicmp (p.drop 6) "IPhone".toList 6 then .PLATFORM_IOS
      else GForcePlatform
    else GForcePlatform

/-- `appSetRootDirectory2(filename)`: the detection, then
`appSetRootDirectory(*root, detected)`; `none` when the detection faults. -/
def appSetRootDirectory2 (cfg : BuildConfig) (host : Host) (fuel : Nat) (filename : CStr)
    (st : GameFS) : Option Result :=
  match detectRoot cfg filename with
  | none => none
  | some d => some (appSetRootDirectory cfg host fuel d.root (decide (d.detected ≠ 0)) st)

/-! ## Scenario hosts -/

/-- A host whose file system holds the listed directories (each with the names
it reports, in order, and whether a name is a subdirectory) and the listed
mountable containers; every regular file has the given size. -/
def Host.ofDirs (dirs : List (String × List (String × Bool)))
    (obbs : List (String × FVirtualFileSystem)) (bytes : Nat) : Host :=
  { opendir := fun p =>
      match dirs.find? fun d => d.1.toList == p with
      | some d => some (d.2.map fun e => e.1.toList)
      | none => none
    stat64 := fun p =>
      match (dirs.flatMap fun d => d.2.map fun e => (d.1.toList ++ '/' :: e.1.toList, e.2)).find?
          fun e => e.1 == p with
      | some e => some e.2
      | none => none
    findfirst := fun p =>
      match dirs.find? fun d => d.1.toList ++ "/*.*".toList == p with
      | some d => some (d.2.map fun e => (e.1.toList, e.2))
      | none => none
    fopenSize := fun _ => some bytes
    attachObb := fun p =>
      match obbs.find? fun o => o.1.toList == p with
      | some o => some o.2
      | none => none }

/-- Scenario 1 of the specification: the root `root` holds the directory `x`
with `startup_int.upk` and `startup_de.upk`. -/
def startupHost : Host :=
  Host.ofDirs
    [("root", [(".", true), ("..", true), ("x", true)]),
     ("root/x", [(".", true), ("..", true), ("startup_int.upk", false), ("startup_de.upk", false)])]
    [] 2048

/-- The states a scan can end in, for reading off the registry. -/
def Result.state : Result → Option GameFS
  | .ret _ st => some st
  | _ => none

/-- The registry a result carries (empty when the call did not return). -/
def Result.files (r : Result) : List CGameFileInfo :=
  match r with
  | .ret _ st => st.GameFiles
  | _ => []

/-! ## Vocabulary of the specification -/

/-- `s` begins with `p`, ignoring the case of ASCII letters. -/
def beginsNoCase (s p : CStr) : Bool := stricmp (s.take p.length) p

/-- The entry's `ShortFilename` begins, ignoring case, with `startup.` or
`startup_int.` (the high-priority startup variants). -/
def isStartupNeutral (e : CGameFileInfo) : Bool :=
  beginsNoCase e.ShortFilename "startup.".toList
    || beginsNoCase e.ShortFilename "startup_int.".toList

/-- The entry's `ShortFilename` begins, ignoring case, with `startup_` (a
locale variant of the startup package). -/
def isStartupLocale (e : CGameFileInfo) : Bool :=
  beginsNoCase e.ShortFilename "startup_".toList

/-- A registry in which the locale variant `startup_de.upk` is registered
before `startup_int.upk`, followed by an unrelated package. -/
def localeFirstFiles : List CGameFileInfo :=
  [mkInfo fullBuild "x/startup_de.upk".toList true 2 none,
   mkInfo fullBuild "x/startup_int.upk".toList true 2 none,
   mkInfo fullBuild "x/core.upk".toList true 2 none]

/-- The name as `appFindGameFile` compares it: the content of `buf`, that
is the first 255 characters with every backslash replaced by `/`. -/
def lookupName (name : CStr) : CStr := replaceSlashes (appStrncpyz name 256)

/-- The extension test of the lookup: with an explicit extension the entry's
extension equals it ignoring case, without one the entry is a package. -/
def extensionOk (Ext : Option CStr) (e : CGameFileInfo) : Bool :=
  match Ext with
  | some x =>
    match e.Extension with
    | some ee => stricmp ee x
    | none => false
  | none => e.IsPackage

/-- Qualifying entry, name compared character for character: `ShortFilename`
or `RelativeName` starts with `name` immediately followed by `.`, and the
extension test holds. -/
def qualifiesExact (name : CStr) (Ext : Option CStr) (e : CGameFileInfo) : Bool :=
  ((name ++ ['.']).isPrefixOf e.ShortFilename || (name ++ ['.']).isPrefixOf e.RelativeName)
    && extensionOk Ext e

/-- Qualifying entry, name compared ignoring case: `ShortFilename` or
`RelativeName` starts, ignoring case, with `name` immediately followed by `.`,
and the extension test holds. -/
def qualifies (name : CStr) (Ext : Option CStr) (e : CGameFileInfo) : Bool :=
  (beginsNoCase e.ShortFilename (name ++ ['.']) || beginsNoCase e.RelativeName (name ++ ['.']))
    && extensionOk Ext e

/-- The registry after the registrar has taken the regular file `root/Foo.upk`. -/
def fooFiles : List CGameFileInfo :=
  (RegisterGameFile fullBuild startupHost "root/Foo.upk".toList none
    (GameFS.initial "root".toList)).files

/-- A name of 253 letters `a`. -/
def longName : CStr := List.replicate 253 'a'

/-- A host whose file `root/main.obb` is a mountable container that holds one
file, named by 253 letters `a` followed by `.u` (255 characters). -/
def longNameHost : Host :=
  Host.ofDirs [("root", [("main.obb", false)])]
    [("root/main.obb", { files := [(longName ++ ".u".toList, 10)] })] 2048

/-- The registry after scanning the root of `longNameHost`. -/
def longNameFiles : List CGameFileInfo :=
  (appSetRootDirectory fullBuild longNameHost 2 "root".toList true (GameFS.initial [])).files

/-- The classes of the extension classifier. -/
inductive FileClass where
  | Package
  | Support
  | Skip
  | Unknown
  deriving DecidableEq, Repr

/-- The classifier of the specification, `classify(filename)`: the tables are
tried in the order Package, Support, Skip, and the first match wins. The
Support table exists only under `HAS_SUPORT_FILES`. -/
def classify (cfg : BuildConfig) (name : CStr) : FileClass :=
  if FindExtension name (PackageExtensions cfg) then .Package
  else if HAS_SUPORT_FILES cfg && FindExtension name (KnownExtensions cfg) then .Support
  else if FindExtension name SkipExtensions then .Skip
  else .Unknown

/-- The candidate's extension maps to a container format: it is `obb`,
ignoring case, in a build with `SUPPORT_ANDROID`. -/
def isContainerName (cfg : BuildConfig) (FullName : CStr) : Bool :=
  match strrchr FullName '.' with
  | some ext => cfg.SUPPORT_ANDROID && stricmp (ext.drop 1) "obb".toList
  | none => false

/-- An entry's extension is in the Package set (a null extension is not). -/
def inPackageSet (cfg : BuildConfig) (ext : Option CStr) : Bool :=
  match ext with
  | some x => (PackageExtensions cfg).any fun p => stricmp x p
  | none => false

/-- The name that goes into `RelativeName`: for a regular file the part of
`FullName` behind `RootDirectory` and one more character, for a file of a
container the reported path. -/
def storedName (st : GameFS) (FullName : CStr) (parentVfs : Option FVirtualFileSystem) : CStr :=
  match parentVfs with
  | none => FullName.drop (st.RootDirectory.length + 1)
  | some _ => FullName

/-- The value that goes into `SizeInKb`. -/
def storedSize (host : Host) (FullName : CStr) (parentVfs : Option FVirtualFileSystem) : Nat :=
  match parentVfs with
  | none => regularSizeInKb host FullName
  | some vfs => vfs.GetFileSize FullName

/-- Scenario 2 of the specification: the root holds `a.tga` and `a.upk`. -/
def exportedHost : Host :=
  Host.ofDirs [("root", [(".", true), ("..", true), ("a.tga", false), ("a.upk", false)])] [] 3000

/-- A host whose file `root/main.obb` is a mountable container that holds one
file, named by 251 letters `a` followed by `.upk.tfc` (259 characters). -/
def truncatingHost : Host :=
  Host.ofDirs [("root", [("main.obb", false)])]
    [("root/main.obb", { files := [(List.replicate 251 'a' ++ ".upk.tfc".toList, 10)] })] 2048

/-- The states the registry can be in: the empty registry, and every state in
which a call of `RegisterGameFile` returns when started in such a state. The
calls with a parent are those made for the files of a mounted container; the
host may answer differently from call to call. -/
inductive Reachable (cfg : BuildConfig) (root : CStr) : GameFS → Prop where
  | init : Reachable cfg root (GameFS.initial root)
  | call (host : Host) (FullName : CStr) (parentVfs : Option FVirtualFileSystem)
      (st st1 : GameFS) (res : Bool) :
      Reachable cfg root st →
      RegisterGameFile cfg host FullName parentVfs st = .ret res st1 →
      Reachable cfg root st1

/-- The host lists, for the directory `dir`, exactly the names `names`, none
of them starting with `.`, all of them regular files whose path is classified
Unknown and is not a container name ("files of an unrecognized extension"). -/
def ListsUnrecognized (cfg : BuildConfig) (host : Host) (dir : CStr) (names : List CStr) : Prop :=
  (if cfg.WIN32 then
      host.findfirst ((dir ++ "/*.*".toList).take 255) = some (names.map fun n => (n, false))
    else host.opendir dir = some names)
  ∧ ∀ n ∈ names, charAt n 0 ≠ '.'
      ∧ (cfg.WIN32 = false → host.stat64 (joinPath dir n) = some false)
      ∧ classify cfg (joinPath dir n) = .Unknown
      ∧ isContainerName cfg (joinPath dir n) = false

/-- The name of the `i`-th junk file: `f`, then letters that spell `i` in
base 40, then `.xyz`. -/
def junkName (i : Nat) : CStr :=
  'f' :: (List.replicate (i / 1600) 'a' ++ List.replicate (i / 40 % 40) 'b'
    ++ List.replicate (i % 40) 'c') ++ ".xyz".toList

/-- A host whose directory `root` holds 40000 regular files `junkName i`. -/
def junkHost : Host :=
  { opendir := fun p => if p = "root".toList then some ((List.range 40000).map junkName) else none
    stat64 := fun _ => some false
    findfirst := fun _ => none
    fopenSize := fun _ => some 100
    attachObb := fun _ => none }

/-- Registration of the reported names as the specification words it:
every name, in index order, is handed to the registrar with the mount as its
owning mount, until a call signals stop. -/
def registerReported (cfg : BuildConfig) (host : Host) (vfs : FVirtualFileSystem) :
    List CStr → GameFS → Result
  | [], st => .ret true st
  | name :: rest, st =>
    match RegisterGameFile cfg host name (some vfs) st with
    | .ret true st1 => registerReported cfg host vfs rest st1
    | r => r

/-- The container of scenario 3: it reports the one path `data/level1.upk`. -/
def level1Vfs : FVirtualFileSystem := { files := [("data/level1.upk".toList, 4096)] }

/-- Scenario 3 of the specification: the root holds `main.obb`, a mountable
container with `data/level1.upk`. -/
def obbHost : Host :=
  Host.ofDirs [("root", [(".", true), ("..", true), ("main.obb", false)])]
    [("root/main.obb", level1Vfs)] 2048

/-- A host whose `root/main.obb` has a container extension but is no valid
container. -/
def brokenObbHost : Host :=
  Host.ofDirs [("root", [(".", true), ("..", true), ("main.obb", false), ("a.upk", false)])]
    [] 2048

/-- A directory path written from its parts: `first` is the text before the
first `/` (empty for an absolute path, else a drive or the first component of
a relative path) and `ancestors` are the names of the components behind it,
the one nearest to the file first. -/
def dirPath (first : CStr) : List CStr → CStr
  | [] => first
  | name :: farther => dirPath first farther ++ '/' :: name

/-- The directory name contains `Cooked` or `Content`, ignoring case (the
strong signal). -/
def hasMarker (name : CStr) : Bool :=
  (appStristr name "Cooked".toList).isSome || (appStristr name "Content".toList).isSome

/-- The directory name equals, ignoring case, one of the well-known leaf
directory names (the weak signal). -/
def isKnownDir (cfg : BuildConfig) (name : CStr) : Bool :=
  (KnownDirs2 cfg).any fun k => stricmp k name

/-- A path of 267 characters: `/x/`, a directory name of 250 letters, then
`/Content/f.upk`. -/
def longContentPath : CStr := "/x/".toList ++ List.replicate 250 'a' ++ "/Content/f.upk".toList

/-- A path of 269 characters: `/a/`, a directory name of 260 letters, then
`/f.upk`. -/
def longDirPath : CStr := "/a/".toList ++ List.replicate 260 'b' ++ "/f.upk".toList

/-- Visiting the entries of a list in order, until a visit signals stop. -/
def visitInOrder {σ : Type} (visit : CGameFileInfo → σ → Bool × σ) :
    List CGameFileInfo → σ → σ
  | [], p => p
  | e :: rest, p =>
    match visit e p with
    | (true, p1) => visitInOrder visit rest p1
    | (false, p1) => p1

/-- The callback that writes every entry it is called on to a log and goes on
as long as `go` says so. -/
def recordVisit (go : CGameFileInfo → Bool) (e : CGameFileInfo) (log : List CGameFileInfo) :
    Bool × List CGameFileInfo :=
  (go e, log ++ [e])

/-- The entries of a list up to and including the first one on which `go` is
false. -/
def upToFirstStop (go : CGameFileInfo → Bool) : List CGameFileInfo → List CGameFileInfo
  | [] => []
  | e :: rest => if go e then e :: upToFirstStop go rest else [e]

/-- A host whose file `root/main.obb` is a mountable container that holds
`core.upk` and a file named by 255 letters `a` followed by `.upk` (259
characters). -/
def longPackageHost : Host :=
  Host.ofDirs [("root", [(".", true), ("..", true), ("main.obb", false)])]
    [("root/main.obb",
      { files := [("core.upk".toList, 10), (List.replicate 255 'a' ++ ".upk".toList, 10)] })]
    2048

/-- The registry after scanning the root of `longPackageHost`. -/
def longPackageFiles : List CGameFileInfo :=
  (appSetRootDirectory fullBuild longPackageHost 1 "root".toList true (GameFS.initial [])).files

/-- The host lists `name` in the directory `dir`, as a subdirectory or as a
regular file, and the scanner does not skip it: the name does not start with
`.`; in the Win32 branch the search on `dir/*.*` reports it with that
`_A_SUBDIR` bit, in the POSIX branch `readdir` reports it and `stat64` of the
joined path succeeds with that kind. -/
def Lists (cfg : BuildConfig) (host : Host) (dir name : CStr) (isDir : Bool) : Prop :=
  charAt name 0 ≠ '.' ∧
    if cfg.WIN32 then
      ∃ found, host.findfirst ((dir ++ "/*.*".toList).take 255) = some found
        ∧ (name, isDir) ∈ found
    else
      ∃ names, host.opendir dir = some names ∧ name ∈ names
        ∧ host.stat64 (joinPath dir name) = some isDir

/-- The directories `ScanGameDirectory` is entered with during
`appSetRootDirectory`: the root, and every listed subdirectory of such a
directory when the scan recurses. -/
inductive Scanned (cfg : BuildConfig) (host : Host) (recurse : Bool) (root : CStr) :
    CStr → Prop where
  | root : Scanned cfg host recurse root root
  | sub (dir name : CStr) : Scanned cfg host recurse root dir → recurse = true →
      Lists cfg host dir name true → Scanned cfg host recurse root (joinPath dir name)

/-- The candidate paths the scanner forwards to the registrar: the joined path
of a scanned directory and a regular file listed in it. -/
def Forwarded (cfg : BuildConfig) (host : Host) (recurse : Bool) (root path : CStr) : Prop :=
  ∃ dir name, Scanned cfg host recurse root dir ∧ Lists cfg host dir name false
    ∧ path = joinPath dir name

/-- The forwarded candidates that are shorter than the 256-character buffer
`Path`: the directory, a `/` and the listed name have at most 255 characters
together, so that `appSprintf` cut nothing. -/
def ForwardedUncut (cfg : BuildConfig) (host : Host) (recurse : Bool) (root path : CStr) :
    Prop :=
  ∃ dir name, Scanned cfg host recurse root dir ∧ Lists cfg host dir name false
    ∧ dir.length + 1 + name.length ≤ 255 ∧ path = joinPath dir name

/-- Every candidate the scan from `root` forwards is shorter than the
256-character buffer `Path`. Directories the scan does not visit, and the
subdirectories it only passes by, are not constrained. -/
def ForwardsFit (cfg : BuildConfig) (host : Host) (recurse : Bool) (root : CStr) : Prop :=
  ∀ dir name, Scanned cfg host recurse root dir → Lists cfg host dir name false →
    dir.length + 1 + name.length ≤ 255

/-- A result in which no assertion has failed and, when the call returned, the
state satisfies `P`. -/
def Result.Safe (P : GameFS → Prop) : Result → Prop
  | .ret _ st => P st
  | .assertFailed => False
  | _ => True

/-- The content of `RootDirectory` after `appSetRootDirectory(dir, ...)`. -/
def rootOf (dir : CStr) : CStr :=
  appStrncpyz (if charAt dir 0 = NUL then ".".toList else dir) 256

/-- The invariant of the registry during `appSetRootDirectory`:
`RootDirectory` is `root`, and for every entry of a regular file the path
`root`, `/`, `RelativeName` is a candidate the scanner forwarded, and it is the
path `appCreateFileReader` opens. -/
def ScanInv (cfg : BuildConfig) (host : Host) (recurse : Bool) (root : CStr)
    (st : GameFS) : Prop :=
  st.RootDirectory = root ∧ ∀ e ∈ st.GameFiles, e.FileSystem = none →
    Forwarded cfg host recurse root (root ++ '/' :: e.RelativeName)
    ∧ appCreateFileReader root e = .file (root ++ '/' :: e.RelativeName)

/-- A host whose `root` holds `a.upk`, the directory `x` with `b.upk`, and the
directory `.cache`, which lists one name of 300 characters. -/
def hiddenLongHost : Host :=
  Host.ofDirs
    [("root", [(".", true), ("..", true), (".cache", true), ("a.upk", false), ("x", true)]),
     ("root/x", [(".", true), ("..", true), ("b.upk", false)]),
     ("root/.cache", [(String.mk (List.replicate 296 'c' ++ ".upk".toList), false)])]
    [] 2048

/-- The entry `e` is what the registrar makes from the candidate `name` with
owning mount `pv`, in a state whose `RootDirectory` is `root`: the candidate's
extension is in the Package or in the Support table, a regular candidate has
`/` at offset `strlen(root)`, and the entry is filled from the name. -/
def MadeFrom (cfg : BuildConfig) (root name : CStr) (pv : Option FVirtualFileSystem)
    (sz : Nat) (e : CGameFileInfo) : Prop :=
  (FindExtension name (PackageExtensions cfg) = true
    ∨ (HAS_SUPORT_FILES cfg && FindExtension name (KnownExtensions cfg)) = true)
  ∧ (pv = none → root.length ≤ name.length ∧ charAt name root.length = '/')
  ∧ e = mkInfo cfg (storedName ⟨root, [], 0, 0⟩ name pv)
      (FindExtension name (PackageExtensions cfg)) sz pv

/-- `ShortFilename` is the part of `RelativeName` behind its last `/`, or all
of it when it has no `/`. -/
def ShortNameOk (e : CGameFileInfo) : Prop :=
  (∃ pre, e.RelativeName = pre ++ '/' :: e.ShortFilename ∧ '/' ∉ e.ShortFilename)
    ∨ ('/' ∉ e.RelativeName ∧ e.ShortFilename = e.RelativeName)

/-- `Extension` is the part of `ShortFilename` behind its last `.`; it is the
null pointer when `ShortFilename` has no `.`. -/
def ExtensionOk (e : CGameFileInfo) : Prop :=
  (∃ pre ext, e.ShortFilename = pre ++ '.' :: ext ∧ '.' ∉ ext ∧ e.Extension = some ext)
    ∨ ('.' ∉ e.ShortFilename ∧ e.Extension = none)

/-- The build of `fullBuild` with the Win32 directory enumeration. -/
def win32Build : BuildConfig := { fullBuild with WIN32 := true }

/-- A host whose directory `root` lists the package `a.upk` and after it the
empty subdirectory `sub`. -/
def stopHost : Host :=
  Host.ofDirs
    [("root", [(".", true), ("..", true), ("a.upk", false), ("sub", true)]),
     ("root/sub", [(".", true), ("..", true)])]
    [] 2048

/-- The registry after `n` packages `x.upk` of 2 Kb were registered under the
root `root`. -/
def registryOf (n : Nat) : GameFS :=
  { RootDirectory := "root".toList
    GameFiles := List.replicate n (mkInfo fullBuild "x.upk".toList true 2 none)
    GNumPackageFiles := n
    GNumForeignFiles := 0 }

/-- A registry at capacity: `MAX_GAME_FILES` entries under the root `root`. -/
def fullRegistry : GameFS := registryOf MAX_GAME_FILES

/-- The extension is, ignoring case, in the Package table or (in a build with
support files) in the Support table. -/
def inTables (cfg : BuildConfig) (ext : CStr) : Bool :=
  ((PackageExtensions cfg).any fun t => stricmp ext t)
    || (HAS_SUPORT_FILES cfg && (KnownExtensions cfg).any fun t => stricmp ext t)

/-- A host whose file `root/main.obb` is a mountable container that holds one
file: `pkg.dir/`, 250 letters `b` and `.upk` (262 characters). -/
def dottedDirHost : Host :=
  Host.ofDirs [("root", [(".", true), ("..", true), ("main.obb", false)])]
    [("root/main.obb",
      { files := [("pkg.dir/".toList ++ List.replicate 250 'b' ++ ".upk".toList, 10)] })]
    2048

/-- The registry after the scan of `root` on `dottedDirHost`. -/
def dottedDirFiles : List CGameFileInfo :=
  (appSetRootDirectory fullBuild dottedDirHost 1 "root".toList true (GameFS.initial [])).files

/-! ## Lemmas on strings -/

theorem strrchr_append_of_some {b r : CStr} {c : Char} (a : CStr)
    (h : strrchr b c = some r) : strrchr (a ++ b) c = some r := by
  induction a with
  | nil => simpa using h
  | cons x xs ih => simp [strrchr, ih]

theorem strrchr_append_of_none {b : CStr} {c : Char} (a : CStr)
    (h : strrchr b c = none) : strrchr (a ++ b) c = (strrchr a c).map fun r => r ++ b := by
  induction a with
  | nil => simpa [strrchr] using h
  | cons x xs ih =>
    simp only [List.cons_append, strrchr]
    rw [show xs.append b = xs ++ b from rfl, ih]
    cases ha : strrchr xs c with
    | some r => simp
    | none => by_cases hx : x = c <;> simp [hx]

theorem strrchr_eq_none {p : CStr} {c : Char} : strrchr p c = none ↔ c ∉ p := by
  induction p with
  | nil => simp [strrchr]
  | cons x xs ih =>
    simp only [strrchr]
    cases h : strrchr xs c with
    | some r =>
      have : ¬ c ∉ xs := fun hn => by simp [ih.mpr hn] at h
      simp at this
      simp [this]
    | none =>
      have hc := ih.mp h
      by_cases hx : x = c
      · simp [hx]
      · simp [hx, hc, Ne.symm hx]

/-- What `strrchr` returns: the last occurrence splits the string. -/
theorem strrchr_eq_some {p r : CStr} {c : Char} (h : strrchr p c = some r) :
    ∃ pre post, p = pre ++ c :: post ∧ r = c :: post ∧ c ∉ post := by
  induction p generalizing r with
  | nil => simp [strrchr] at h
  | cons x xs ih =>
    simp only [strrchr] at h
    cases hx : strrchr xs c with
    | some r1 =>
      rw [hx] at h
      obtain ⟨pre, post, h1, h2, h3⟩ := ih hx
      refine ⟨x :: pre, post, by simp [h1], ?_, h3⟩
      simp at h
      rw [← h, h2]
    | none =>
      rw [hx] at h
      by_cases hc : x = c
      · simp [hc] at h
        exact ⟨[], xs, by simp [hc], by simp [← h], strrchr_eq_none.mp hx⟩
      · simp [hc] at h

theorem strrchr_split {pre post : CStr} {c : Char} (h : c ∉ post) :
    strrchr (pre ++ c :: post) c = some (c :: post) := by
  apply strrchr_append_of_some
  simp [strrchr, strrchr_eq_none.mpr h]

theorem stricmp_refl (a : CStr) : stricmp a a = true := by simp [stricmp]

theorem stricmp_comm (a b : CStr) : stricmp a b = stricmp b a := by
  simp only [stricmp]
  exact Bool.eq_iff_iff.mpr ⟨fun h => by simpa using (by simpa using h : _ = _).symm,
    fun h => by simpa using (by simpa using h : _ = _).symm⟩

theorem stricmp_length {a b : CStr} (h : stricmp a b = true) : a.length = b.length := by
  simp only [stricmp, beq_iff_eq] at h
  simpa using congrArg List.length h

theorem FindExtension_append {b : CStr} (a : CStr) (T : List CStr) (h : '.' ∈ b) :
    FindExtension (a ++ b) T = FindExtension b T := by
  cases hb : strrchr b '.' with
  | none => exact absurd h (strrchr_eq_none.mp hb)
  | some r => simp [FindExtension, strrchr_append_of_some a hb, hb]

theorem charAt_append_length (a : CStr) (c : Char) (b : CStr) :
    charAt (a ++ c :: b) a.length = c := by
  induction a with
  | nil => rfl
  | cons x xs ih => simpa [charAt] using ih

/-! ## Lemmas on the registrar -/

/-- Entry creation for a regular file below the root directory. -/
theorem createEntry_regular (cfg : BuildConfig) (host : Host) (rel : CStr) (pk : Bool)
    (st : GameFS) :
    createEntry cfg host (st.RootDirectory ++ '/' :: rel) none pk st =
      .ret true { st with
        GameFiles := st.GameFiles ++
          [mkInfo cfg rel pk (regularSizeInKb host (st.RootDirectory ++ '/' :: rel)) none]
        GNumPackageFiles := if pk then st.GNumPackageFiles + 1 else st.GNumPackageFiles } := by
  simp [createEntry, charAt_append_length]

/-- A regular file whose extension is not a container extension goes straight to
classification. -/
theorem RegisterGameFile_plain (cfg : BuildConfig) (host : Host) (FullName : CStr)
    (st : GameFS) (hcap : st.GameFiles.length < MAX_GAME_FILES)
    (hobb : ∀ ext, strrchr FullName '.' = some ext →
      (cfg.SUPPORT_ANDROID && stricmp (ext.drop 1) "obb".toList) = false) :
    RegisterGameFile cfg host FullName none st = registerEntry cfg host FullName none st := by
  simp only [RegisterGameFile, ge_iff_le, Nat.not_le.mpr hcap, if_false]
  cases h : strrchr FullName '.' with
  | none => rfl
  | some ext =>
    dsimp only
    rw [hobb ext h]
    rfl

theorem mkInfo_fits (cfg : BuildConfig) (name : CStr) (pk : Bool) (sz : Nat)
    (vfs : Option FVirtualFileSystem) (h : name.length < cfg.RelativeNameSize) :
    mkInfo cfg name pk sz vfs =
      { RelativeName := name, ShortFilename := shortFilenameOf name,
        Extension := extensionOf (shortFilenameOf name), IsPackage := pk,
        SizeInKb := sz, FileSystem := vfs } := by
  have : appStrncpyz name cfg.RelativeNameSize = name := by
    simp only [appStrncpyz]
    exact List.take_of_length_le (by omega)
  simp [mkInfo, this]

theorem upk_mem_PackageExtensions (cfg : BuildConfig) (hU : cfg.UNREAL3 = true) :
    "upk".toList ∈ PackageExtensions cfg := by
  simp [PackageExtensions, ifdef, hU]

theorem FindExtension_of_mem {name ext : CStr} {T : List CStr}
    (h : strrchr name '.' = some ('.' :: ext)) (hm : ext ∈ T) : FindExtension name T = true := by
  simp only [FindExtension, h, List.drop_one, List.tail_cons, List.any_eq_true]
  exact ⟨ext, hm, stricmp_refl ext⟩

/-- Registering the regular file `root/rel` whose name ends in `.upk`. -/
theorem RegisterGameFile_upk (cfg : BuildConfig) (host : Host) (rel root : CStr)
    (files : List CGameFileInfo) (np nf : Nat)
    (hU : cfg.UNREAL3 = true) (hcap : files.length < MAX_GAME_FILES)
    (hext : strrchr ('/' :: rel) '.' = some ".upk".toList) :
    RegisterGameFile cfg host (root ++ '/' :: rel) none ⟨root, files, np, nf⟩ =
      .ret true ⟨root,
        files ++ [mkInfo cfg rel true (regularSizeInKb host (root ++ '/' :: rel)) none],
        np + 1, nf⟩ := by
  have hs : strrchr (root ++ '/' :: rel) '.' = some ".upk".toList :=
    strrchr_append_of_some _ hext
  rw [RegisterGameFile_plain cfg host _ _ hcap]
  · have hp : FindExtension (root ++ '/' :: rel) (PackageExtensions cfg) = true :=
      FindExtension_of_mem hs (upk_mem_PackageExtensions cfg hU)
    simp only [registerEntry, hp, if_true]
    exact createEntry_regular cfg host rel true ⟨root, files, np, nf⟩
  · intro ext he
    rw [hs] at he
    cases he
    have : stricmp ['u', 'p', 'k'] ['o', 'b', 'b'] = false := by decide
    simp [this]

/-! ## C1 -/

/-- C1 as stated fails: scanning the root of scenario 1 registers
`x/startup_int.upk` and `x/startup_de.upk`, and `appFindGameFile("startup", NULL)`
on that registry returns the null pointer, because `"startup"` is not the
reserved name `GStartupPackage` and no entry starts with `startup.`. -/
theorem C1_counterexample :
    (appSetRootDirectory fullBuild startupHost 3 "root".toList true (GameFS.initial [])).files.map
        (fun e => e.RelativeName) = ["x/startup_int.upk".toList, "x/startup_de.upk".toList]
    ∧ appFindGameFile fullBuild
        (appSetRootDirectory fullBuild startupHost 3 "root".toList true (GameFS.initial [])).files
        "startup".toList none = .ret none := by
  decide

/-- C1 (amended): for every root directory, when the registrar has registered
the two regular files `root/x/startup_int.upk` and `root/x/startup_de.upk`, in
either order, into the empty registry, the lookup of the reserved name
`GStartupPackage` (`"startup_xxx"`) without extension returns the entry whose
`ShortFilename` is `startup_int.upk`. -/
theorem C1_startup_lookup_returns_int (cfg : BuildConfig) (host : Host) (root a b : CStr)
    (hU : cfg.UNREAL3 = true) (hsz : 18 ≤ cfg.RelativeNameSize)
    (hab : (a = "x/startup_int.upk".toList ∧ b = "x/startup_de.upk".toList)
      ∨ (a = "x/startup_de.upk".toList ∧ b = "x/startup_int.upk".toList)) :
    ∃ st1 st2 i e,
      RegisterGameFile cfg host (root ++ '/' :: a) none (GameFS.initial root) = .ret true st1
      ∧ RegisterGameFile cfg host (root ++ '/' :: b) none st1 = .ret true st2
      ∧ st2.GameFiles.length = 2
      ∧ appFindGameFile cfg st2.GameFiles GStartupPackage none = .ret (some i)
      ∧ st2.GameFiles.get? i = some e
      ∧ e.ShortFilename = "startup_int.upk".toList
      ∧ e.RelativeName = "x/startup_int.upk".toList := by
  have hcap1 : ([] : List CGameFileInfo).length < MAX_GAME_FILES := by decide
  have hcap2 : ∀ x : CGameFileInfo, ([] ++ [x]).length < MAX_GAME_FILES := fun x => by
    simp [MAX_GAME_FILES]
  rcases hab with ⟨rfl, rfl⟩ | ⟨rfl, rfl⟩
  · have h1 := RegisterGameFile_upk cfg host "x/startup_int.upk".toList root [] 0 0 hU hcap1
      (by decide)
    have h2 := RegisterGameFile_upk cfg host "x/startup_de.upk".toList root
      ([] ++ [mkInfo cfg "x/startup_int.upk".toList true
        (regularSizeInKb host (root ++ '/' :: "x/startup_int.upk".toList)) none]) (0 + 1) 0
      hU (hcap2 _) (by decide)
    refine ⟨_, _, 0, mkInfo cfg "x/startup_int.upk".toList true
        (regularSizeInKb host (root ++ '/' :: "x/startup_int.upk".toList)) none,
      h1, h2, by simp, ?_, ?_, ?_, ?_⟩
    · simp only [appFindGameFile, hU]
      rw [mkInfo_fits _ _ _ _ _ (by simp; omega), mkInfo_fits _ _ _ _ _ (by simp; omega)]
      rfl
    · simp
    · rw [mkInfo_fits _ _ _ _ _ (by simp; omega)]; rfl
    · rw [mkInfo_fits _ _ _ _ _ (by simp; omega)]
  · have h1 := RegisterGameFile_upk cfg host "x/startup_de.upk".toList root [] 0 0 hU hcap1
      (by decide)
    have h2 := RegisterGameFile_upk cfg host "x/startup_int.upk".toList root
      ([] ++ [mkInfo cfg "x/startup_de.upk".toList true
        (regularSizeInKb host (root ++ '/' :: "x/startup_de.upk".toList)) none]) (0 + 1) 0
      hU (hcap2 _) (by decide)
    refine ⟨_, _, 1, mkInfo cfg "x/startup_int.upk".toList true
        (regularSizeInKb host (root ++ '/' :: "x/startup_int.upk".toList)) none,
      h1, h2, by simp, ?_, ?_, ?_, ?_⟩
    · simp only [appFindGameFile, hU]
      rw [mkInfo_fits _ _ _ _ _ (by simp; omega), mkInfo_fits _ _ _ _ _ (by simp; omega)]
      rfl
    · simp
    · rw [mkInfo_fits _ _ _ _ _ (by simp; omega)]; rfl
    · rw [mkInfo_fits _ _ _ _ _ (by simp; omega)]

/-- C1 (amended), at the full build with root `root` and an empty host. -/
theorem C1_startup_lookup_returns_int_witness :
    ∃ st1 st2 i e,
      RegisterGameFile fullBuild startupHost ("root".toList ++ '/' :: "x/startup_de.upk".toList)
        none (GameFS.initial "root".toList) = .ret true st1
      ∧ RegisterGameFile fullBuild startupHost ("root".toList ++ '/' :: "x/startup_int.upk".toList)
        none st1 = .ret true st2
      ∧ st2.GameFiles.length = 2
      ∧ appFindGameFile fullBuild st2.GameFiles GStartupPackage none = .ret (some i)
      ∧ st2.GameFiles.get? i = some e
      ∧ e.ShortFilename = "startup_int.upk".toList
      ∧ e.RelativeName = "x/startup_int.upk".toList :=
  C1_startup_lookup_returns_int fullBuild startupHost "root".toList _ _ (by decide) (by decide)
    (Or.inr ⟨rfl, rfl⟩)

/-! ## Lemmas on case-insensitive comparison -/

theorem toLower_of_not_upper (c : Char) (h : c.isUpper = false) : c.toLower = c := by
  simp only [Char.toLower]
  simp only [Char.isUpper, Bool.and_eq_false_iff, decide_eq_false_iff_not] at h
  split
  · rename_i h2
    exfalso
    rcases h with h | h
    · have h3 : ¬ (65 ≤ c.toNat) := h
      exact h3 h2.1
    · have h3 : ¬ (c.toNat ≤ 90) := h
      exact h3 h2.2
  · rfl

theorem upper_cases (c : Char) (h : c.isUpper = true) :
    ∃ n, 65 ≤ n ∧ n ≤ 90 ∧ c = Char.ofNat n := by
  refine ⟨c.toNat, ?_, ?_, (Char.ofNat_toNat c).symm⟩
  all_goals
    simp only [Char.isUpper, Bool.and_eq_true, decide_eq_true_eq] at h
  · exact h.1
  · exact h.2

/-- Lowering a character gives a non-letter only when it is that non-letter. -/
theorem toLower_eq_of_not_alpha (c d : Char) (hd : d.isAlpha = false) :
    c.toLower = d ↔ c = d := by
  cases hc : c.isUpper with
  | false => rw [toLower_of_not_upper c hc]
  | true =>
    obtain ⟨n, h1, h2, rfl⟩ := upper_cases c hc
    constructor
    · intro h
      exfalso
      have : (Char.ofNat n).toLower.isAlpha = true := by
        interval_cases n <;> decide
      rw [h, hd] at this
      exact Bool.noConfusion this
    · intro h
      rw [← h] at hd
      have : (Char.ofNat n).isAlpha = true := by
        interval_cases n <;> decide
      rw [hd] at this
      exact Bool.noConfusion this

theorem stricmp_nil_cons (y : Char) (ys : CStr) : stricmp [] (y :: ys) = false := by
  simp [stricmp]

theorem stricmp_cons_nil (y : Char) (ys : CStr) : stricmp (y :: ys) [] = false := by
  simp [stricmp]

theorem stricmp_cons_cons (x y : Char) (xs ys : CStr) :
    stricmp (x :: xs) (y :: ys) = (decide (x.toLower = y.toLower) && stricmp xs ys) := by
  simp only [stricmp, List.map_cons]
  by_cases h1 : x.toLower = y.toLower
  · by_cases h2 : List.map Char.toLower xs = List.map Char.toLower ys <;> simp [h1, h2]
  · simp [h1]

/-- Comparing `p` followed by a non-letter `d`: `p` must match and the next
character must be `d`. -/
theorem beginsNoCase_snoc (s p : CStr) (d : Char) (hd : d.isAlpha = false) (hn : d ≠ NUL) :
    beginsNoCase s (p ++ [d])
      = (strnicmp s p p.length && decide (charAt s p.length = d)) := by
  induction p generalizing s with
  | nil =>
    cases s with
    | nil => simp [beginsNoCase, strnicmp, stricmp, charAt, Ne.symm hn]
    | cons x xs =>
      have hd' : d.toLower = d := (toLower_eq_of_not_alpha d d hd).mpr rfl
      have hx : (x.toLower == d) = decide (x = d) := by
        rw [Bool.eq_iff_iff]
        simp [toLower_eq_of_not_alpha x d hd]
      simp [beginsNoCase, strnicmp, stricmp, charAt, hd', hx]
  | cons y ys ih =>
    cases s with
    | nil => simp [beginsNoCase, strnicmp, stricmp]
    | cons x xs =>
      have := ih xs
      simp only [beginsNoCase, strnicmp, List.length_append, List.length_cons, List.length_nil,
        List.cons_append, List.take_succ_cons, stricmp_cons_cons, charAt, List.getD_cons_succ,
        Nat.zero_add] at this ⊢
      rw [this, Bool.and_assoc]

/-- Comparing with `p ++ q`: `p` must match, and `q` must match what follows. -/
theorem beginsNoCase_append (s p q : CStr) :
    beginsNoCase s (p ++ q)
      = (strnicmp s p p.length && strnicmp (s.drop p.length) q q.length) := by
  induction p generalizing s with
  | nil => simp [beginsNoCase, strnicmp, stricmp]
  | cons y ys ih =>
    cases s with
    | nil =>
      simp [beginsNoCase, strnicmp, stricmp]
    | cons x xs =>
      have := ih xs
      simp only [beginsNoCase, strnicmp, List.length_append, List.length_cons,
        List.cons_append, stricmp_cons_cons, List.drop_succ_cons] at this ⊢
      rw [show ys.length + q.length + 1 = (ys.length + q.length) + 1 from rfl,
        List.take_succ_cons, List.take_succ_cons, stricmp_cons_cons, this]
      simp only [List.take_succ_cons, stricmp_cons_cons, Bool.and_assoc]

/-! ## Lemmas on lists -/

/-- The first element with a property splits the list. -/
theorem exists_first {α : Type} (p : α → Bool) (l : List α) (h : ∃ e ∈ l, p e = true) :
    ∃ pre e post, l = pre ++ e :: post ∧ p e = true ∧ ∀ x ∈ pre, p x = false := by
  induction l with
  | nil => simp at h
  | cons a as ih =>
    cases ha : p a with
    | true => exact ⟨[], a, as, rfl, ha, by simp⟩
    | false =>
      obtain ⟨e, he, hp⟩ := h
      have he' : e ∈ as := by
        rcases List.mem_cons.mp he with rfl | h'
        · rw [ha] at hp; exact Bool.noConfusion hp
        · exact h'
      obtain ⟨pre, e1, post, h1, h2, h3⟩ := ih ⟨e, he', hp⟩
      refine ⟨a :: pre, e1, post, by simp [h1], h2, ?_⟩
      intro x hx
      rcases List.mem_cons.mp hx with rfl | h'
      · exact ha
      · exact h3 x h'

theorem get?_append_cons_length {α : Type} (pre : List α) (e : α) (post : List α) :
    (pre ++ e :: post).get? pre.length = some e := by
  induction pre with
  | nil => rfl
  | cons a as ih => simpa using ih

theorem mem_of_get?_lt_length {α : Type} (pre : List α) (rest : List α) (j : Nat) (x : α)
    (hj : j < pre.length) (h : (pre ++ rest).get? j = some x) : x ∈ pre := by
  rw [List.get?_eq_getElem?, List.getElem?_append_left hj] at h
  exact List.getElem?_mem h

/-! ## Lemmas on the startup branch of the lookup -/

theorem isStartupNeutral_eq (e : CGameFileInfo) :
    isStartupNeutral e
      = (strnicmp e.ShortFilename "startup".toList 7
          && (decide (charAt e.ShortFilename 7 = '.')
            || strnicmp (e.ShortFilename.drop 7) "_int.".toList 5)) := by
  have h1 := beginsNoCase_snoc e.ShortFilename "startup".toList '.' (by decide) (by decide)
  have h2 := beginsNoCase_append e.ShortFilename "startup".toList "_int.".toList
  simp only [isStartupNeutral]
  rw [show "startup.".toList = "startup".toList ++ ['.'] from rfl,
    show "startup_int.".toList = "startup".toList ++ "_int.".toList from rfl, h1, h2]
  simp only [show ("startup".toList).length = 7 from rfl,
    show ("_int.".toList).length = 5 from rfl, Bool.and_or_distrib_left]

theorem isStartupLocale_eq (e : CGameFileInfo) :
    isStartupLocale e
      = (strnicmp e.ShortFilename "startup".toList 7
          && decide (charAt e.ShortFilename 7 = '_')) := by
  have h1 := beginsNoCase_snoc e.ShortFilename "startup".toList '_' (by decide) (by decide)
  simp only [isStartupLocale]
  rw [show "startup_".toList = "startup".toList ++ ['_'] from rfl, h1]
  rfl

/-- One round of the startup branch of the loop. -/
theorem findLoop_startup_cons (buf : CStr) (Ext : Option CStr) (e : CGameFileInfo)
    (rest : List CGameFileInfo) (i : Nat) (info : Option Nat) :
    findLoop true buf Ext (e :: rest) i info =
      if isStartupNeutral e then .ret (some i)
      else findLoop true buf Ext rest (i + 1) (if isStartupLocale e then some i else info) := by
  rw [isStartupNeutral_eq, isStartupLocale_eq]
  simp only [findLoop, if_true]
  cases h0 : strnicmp e.ShortFilename "startup".toList 7 <;>
    by_cases h1 : charAt e.ShortFilename 7 = '.' <;>
    cases h2 : strnicmp (e.ShortFilename.drop 7) "_int.".toList 5 <;>
    by_cases h3 : charAt e.ShortFilename 7 = '_' <;>
    simp [h1, h3]

/-- The loop returns the first high-priority variant. -/
theorem findLoop_startup_first (buf : CStr) (Ext : Option CStr) (pre : List CGameFileInfo)
    (e : CGameFileInfo) (post : List CGameFileInfo) (i : Nat) (info : Option Nat)
    (hpre : ∀ x ∈ pre, isStartupNeutral x = false) (he : isStartupNeutral e = true) :
    findLoop true buf Ext (pre ++ e :: post) i info = .ret (some (i + pre.length)) := by
  induction pre generalizing i info with
  | nil => simp [findLoop_startup_cons, he]
  | cons a as ih =>
    rw [List.cons_append, findLoop_startup_cons, hpre a (by simp)]
    simp only [Bool.false_eq_true, if_false]
    rw [ih _ _ (fun x hx => hpre x (by simp [hx]))]
    simp only [List.length_cons]
    congr 2
    omega

/-- Without a high-priority variant the loop returns the last locale variant,
or the fallback it started with. -/
theorem findLoop_startup_none (buf : CStr) (Ext : Option CStr) (files : List CGameFileInfo)
    (i : Nat) (info : Option Nat) (hno : ∀ x ∈ files, isStartupNeutral x = false) :
    ∃ r, findLoop true buf Ext files i info = .ret r
      ∧ ((∀ x ∈ files, isStartupLocale x = false) → r = info)
      ∧ ((∃ x ∈ files, isStartupLocale x = true) →
          ∃ k x, r = some (i + k) ∧ files.get? k = some x ∧ isStartupLocale x = true
            ∧ ∀ k2 x2, k < k2 → files.get? k2 = some x2 → isStartupLocale x2 = false) := by
  induction files generalizing i info with
  | nil => exact ⟨info, by simp [findLoop], fun _ => rfl, by simp⟩
  | cons a as ih =>
    rw [findLoop_startup_cons, hno a (by simp)]
    simp only [Bool.false_eq_true, if_false]
    obtain ⟨r, hr, hnone, hsome⟩ :=
      ih (i + 1) (if isStartupLocale a then some i else info) (fun x hx => hno x (by simp [hx]))
    refine ⟨r, hr, ?_, ?_⟩
    · intro hall
      rw [hnone (fun x hx => hall x (by simp [hx])), hall a (by simp)]
      simp
    · intro _
      by_cases hex : ∃ x ∈ as, isStartupLocale x = true
      · obtain ⟨k, x, h1, h2, h3, h4⟩ := hsome hex
        refine ⟨k + 1, x, by rw [h1]; congr 1; omega, by simpa using h2, h3, ?_⟩
        intro k2 x2 hk hx2
        cases k2 with
        | zero => omega
        | succ k3 => exact h4 k3 x2 (by omega) (by simpa using hx2)
      · have hall : ∀ x ∈ as, isStartupLocale x = false := by
          intro x hx
          cases hl : isStartupLocale x with
          | false => rfl
          | true => exact absurd ⟨x, hx, hl⟩ hex
        have ha : isStartupLocale a = true := by
          rename_i hex0
          obtain ⟨x, hx, hl⟩ := hex0
          rcases List.mem_cons.mp hx with rfl | h'
          · exact hl
          · rw [hall x h'] at hl; exact Bool.noConfusion hl
        refine ⟨0, a, ?_, rfl, ha, ?_⟩
        · rw [hnone hall, ha]; simp
        · intro k2 x2 hk hx2
          cases k2 with
          | zero => omega
          | succ k3 => exact hall x2 (List.get?_mem (by simpa using hx2))

/-- With the reserved name the lookup runs the startup branch of the loop. -/
theorem appFindGameFile_startup (cfg : BuildConfig) (files : List CGameFileInfo)
    (Ext : Option CStr) (hU : cfg.UNREAL3 = true) :
    ∃ buf Ext1, appFindGameFile cfg files GStartupPackage Ext
      = findLoop true buf Ext1 files 0 none := by
  cases Ext with
  | none =>
    refine ⟨"startup_xxx".toList, none, ?_⟩
    simp only [appFindGameFile, hU]
    rfl
  | some ext =>
    refine ⟨"startup_xxx".toList, some ext, ?_⟩
    simp only [appFindGameFile, hU]
    rfl

/-! ## C2 -/

/-- C2: when `appFindGameFile` is called with the reserved name
`GStartupPackage` (with or without an extension argument), on every registry:
(i) if some entry's `ShortFilename` begins, ignoring case, with `startup.` or
`startup_int.`, the result is the first such entry in registration order, so
a locale variant registered earlier is passed over; (ii) otherwise, if some
entry's `ShortFilename` begins (ignoring case) with `startup_`, the result is
one of those entries, namely the last; (iii) otherwise the result is the null
pointer. -/
theorem C2_startup_priority (cfg : BuildConfig) (files : List CGameFileInfo)
    (Ext : Option CStr) (hU : cfg.UNREAL3 = true) :
    ((∃ e ∈ files, isStartupNeutral e = true) →
      ∃ i e, appFindGameFile cfg files GStartupPackage Ext = .ret (some i)
        ∧ files.get? i = some e ∧ isStartupNeutral e = true
        ∧ ∀ j e2, j < i → files.get? j = some e2 → isStartupNeutral e2 = false)
    ∧ ((∀ e ∈ files, isStartupNeutral e = false) → (∃ e ∈ files, isStartupLocale e = true) →
      ∃ i e, appFindGameFile cfg files GStartupPackage Ext = .ret (some i)
        ∧ files.get? i = some e ∧ isStartupLocale e = true
        ∧ ∀ j e2, i < j → files.get? j = some e2 → isStartupLocale e2 = false)
    ∧ ((∀ e ∈ files, isStartupNeutral e = false ∧ isStartupLocale e = false) →
      appFindGameFile cfg files GStartupPackage Ext = .ret none) := by
  obtain ⟨buf, Ext1, hrun⟩ := appFindGameFile_startup cfg files Ext hU
  rw [hrun]
  refine ⟨?_, ?_, ?_⟩
  · intro hex
    obtain ⟨pre, e, post, rfl, he, hpre⟩ := exists_first isStartupNeutral files hex
    refine ⟨pre.length, e, ?_, get?_append_cons_length pre e post, he, ?_⟩
    · rw [findLoop_startup_first buf Ext1 pre e post 0 none hpre he, Nat.zero_add]
    · intro j e2 hj hget
      exact hpre e2 (mem_of_get?_lt_length pre _ j e2 hj hget)
  · intro hno hex
    obtain ⟨r, hr, -, hsome⟩ := findLoop_startup_none buf Ext1 files 0 none hno
    obtain ⟨k, x, h1, h2, h3, h4⟩ := hsome hex
    exact ⟨k, x, by rw [hr, h1, Nat.zero_add], h2, h3, h4⟩
  · intro hall
    obtain ⟨r, hr, hnone, -⟩ :=
      findLoop_startup_none buf Ext1 files 0 none (fun x hx => (hall x hx).1)
    rw [hr, hnone (fun x hx => (hall x hx).2)]

/-- C2 at the full build: `startup_int.upk` is returned although
`startup_de.upk` was registered before it. -/
theorem C2_startup_priority_witness :
    fullBuild.UNREAL3 = true
    ∧ ∃ i e, appFindGameFile fullBuild localeFirstFiles GStartupPackage none = .ret (some i)
        ∧ localeFirstFiles.get? i = some e ∧ isStartupNeutral e = true
        ∧ ∀ j e2, j < i → localeFirstFiles.get? j = some e2 → isStartupNeutral e2 = false :=
  ⟨rfl, (C2_startup_priority fullBuild localeFirstFiles none rfl).1
    ⟨mkInfo fullBuild "x/startup_int.upk".toList true 2 none, by decide, by decide⟩⟩

/-! ## Lemmas on the general branch of the lookup -/

theorem not_mem_lookupName {name : CStr} (h : '.' ∉ name) : '.' ∉ lookupName name := by
  intro hm
  simp only [lookupName, replaceSlashes, appStrncpyz, List.mem_map] at hm
  obtain ⟨c, hc, hcd⟩ := hm
  by_cases hb : c = '\\'
  · simp [hb] at hcd
  · simp only [hb, if_false] at hcd
    exact h (hcd ▸ List.mem_of_mem_take hc)

/-- One round of the general branch of the loop, for an entry that has an
extension whenever an extension is asked for. -/
theorem findLoop_general_cons (buf : CStr) (Ext : Option CStr) (e : CGameFileInfo)
    (rest : List CGameFileInfo) (i : Nat) (info : Option Nat)
    (hext : Ext ≠ none → e.Extension ≠ none) :
    findLoop false buf Ext (e :: rest) i info =
      if qualifies buf Ext e then .ret (some i)
      else findLoop false buf Ext rest (i + 1) info := by
  have h1 := beginsNoCase_snoc e.ShortFilename buf '.' (by decide) (by decide)
  have h2 := beginsNoCase_snoc e.RelativeName buf '.' (by decide) (by decide)
  simp only [qualifies, h1, h2, findLoop, Bool.false_eq_true, if_false]
  cases hf : (strnicmp e.ShortFilename buf buf.length && decide (charAt e.ShortFilename buf.length = '.')
      || strnicmp e.RelativeName buf buf.length && decide (charAt e.RelativeName buf.length = '.'))
  · simp
  · cases Ext with
    | none => cases hp : e.IsPackage <;> simp [extensionOk, hp]
    | some x =>
      cases hx : e.Extension with
      | none => exact absurd hx (hext (by simp))
      | some ee => cases hs : stricmp ee x <;> simp [extensionOk, hx, hs]

theorem findLoop_general_first (buf : CStr) (Ext : Option CStr) (pre : List CGameFileInfo)
    (e : CGameFileInfo) (post : List CGameFileInfo) (i : Nat) (info : Option Nat)
    (hext : Ext ≠ none → ∀ x ∈ pre ++ e :: post, x.Extension ≠ none)
    (hpre : ∀ x ∈ pre, qualifies buf Ext x = false) (he : qualifies buf Ext e = true) :
    findLoop false buf Ext (pre ++ e :: post) i info = .ret (some (i + pre.length)) := by
  induction pre generalizing i with
  | nil => rw [List.nil_append, findLoop_general_cons _ _ _ _ _ _ (fun h => hext h e (by simp))]; simp [he]
  | cons a as ih =>
    rw [List.cons_append, findLoop_general_cons _ _ _ _ _ _ (fun h => hext h a (by simp)),
      hpre a (by simp)]
    simp only [Bool.false_eq_true, if_false]
    rw [ih _ (fun h x hx => hext h x (by simp [hx])) (fun x hx => hpre x (by simp [hx]))]
    simp only [List.length_cons]
    congr 2
    omega

theorem findLoop_general_none (buf : CStr) (Ext : Option CStr) (files : List CGameFileInfo)
    (i : Nat) (info : Option Nat)
    (hext : Ext ≠ none → ∀ x ∈ files, x.Extension ≠ none)
    (hno : ∀ x ∈ files, qualifies buf Ext x = false) :
    findLoop false buf Ext files i info = .ret info := by
  induction files generalizing i with
  | nil => simp [findLoop]
  | cons a as ih =>
    rw [findLoop_general_cons _ _ _ _ _ _ (fun h => hext h a (by simp)), hno a (by simp)]
    simp only [Bool.false_eq_true, if_false]
    exact ih _ (fun h x hx => hext h x (by simp [hx])) (fun x hx => hno x (by simp [hx]))

/-- With a name that has no `.` and is not the reserved one, the lookup runs
the general branch of the loop on the normalised name. -/
theorem appFindGameFile_general (cfg : BuildConfig) (files : List CGameFileInfo)
    (name : CStr) (Ext : Option CStr) (hdot : '.' ∉ name) (hres : name ≠ GStartupPackage) :
    appFindGameFile cfg files name Ext = findLoop false (lookupName name) Ext files 0 none := by
  have hb := not_mem_lookupName hdot
  have hs : strcmp name GStartupPackage = false := by
    simp only [strcmp, beq_eq_false_iff_ne, ne_eq]
    exact hres
  have hc : strchr (lookupName name) '.' = false := by
    simp only [strchr, List.contains_eq_any_beq, List.any_eq_false, beq_iff_eq]
    intro x hx hxd
    exact hb (hxd ▸ hx)
  cases Ext with
  | some x =>
    simp only [appFindGameFile, hs, Bool.and_false]
    rw [show replaceSlashes (appStrncpyz name 256) = lookupName name from rfl, hc]
    rfl
  | none =>
    simp only [appFindGameFile, hs, Bool.and_false]
    rw [show replaceSlashes (appStrncpyz name 256) = lookupName name from rfl,
      strrchr_eq_none.mpr hb]

/-! ## C3 -/

/-- C3 as stated fails when "starts with" is read character for character:
in the registry holding only `Foo.upk` no entry starts with `foo.`, yet
`appFindGameFile("foo", NULL)` returns slot 0, because the name is compared
with `strnicmp`. -/
theorem C3_counterexample :
    fooFiles.map (fun e => e.RelativeName) = ["Foo.upk".toList]
    ∧ (∀ e ∈ fooFiles, qualifiesExact "foo".toList none e = false)
    ∧ appFindGameFile fullBuild fooFiles "foo".toList none = .ret (some 0) := by
  decide

/-- C3 (amended): general-case lookup (the name has no `.` and is not the
reserved startup name), on every registry whose entries all have an extension
when an explicit extension is given. An entry qualifies when its
`ShortFilename` or its `RelativeName` starts, ignoring the case of letters,
with the normalised name (first 255 characters, backslashes replaced by `/`)
immediately followed by `.`, and its extension equals the explicit extension
ignoring case, or it is a package when no extension is given. The lookup
returns the qualifying entry with the smallest index, and returns the null
pointer exactly when no entry qualifies. -/
theorem C3_general_lookup_first_match (cfg : BuildConfig) (files : List CGameFileInfo)
    (name : CStr) (Ext : Option CStr) (hdot : '.' ∉ name) (hres : name ≠ GStartupPackage)
    (hext : Ext ≠ none → ∀ e ∈ files, e.Extension ≠ none) :
    ((∃ e ∈ files, qualifies (lookupName name) Ext e = true) →
      ∃ i e, appFindGameFile cfg files name Ext = .ret (some i)
        ∧ files.get? i = some e ∧ qualifies (lookupName name) Ext e = true
        ∧ ∀ j e2, j < i → files.get? j = some e2 → qualifies (lookupName name) Ext e2 = false)
    ∧ (appFindGameFile cfg files name Ext = .ret none
        ↔ ∀ e ∈ files, qualifies (lookupName name) Ext e = false) := by
  rw [appFindGameFile_general cfg files name Ext hdot hres]
  have hfirst : (∃ e ∈ files, qualifies (lookupName name) Ext e = true) →
      ∃ i e, findLoop false (lookupName name) Ext files 0 none = .ret (some i)
        ∧ files.get? i = some e ∧ qualifies (lookupName name) Ext e = true
        ∧ ∀ j e2, j < i → files.get? j = some e2
            → qualifies (lookupName name) Ext e2 = false := by
    intro hex
    obtain ⟨pre, e, post, rfl, he, hpre⟩ :=
      exists_first (qualifies (lookupName name) Ext) files hex
    refine ⟨pre.length, e, ?_, get?_append_cons_length pre e post, he, ?_⟩
    · rw [findLoop_general_first _ _ pre e post 0 none hext hpre he, Nat.zero_add]
    · intro j e2 hj hget
      exact hpre e2 (mem_of_get?_lt_length pre _ j e2 hj hget)
  refine ⟨hfirst, ?_, fun hno => findLoop_general_none _ _ files 0 none hext hno⟩
  intro hnone e he
  cases hq : qualifies (lookupName name) Ext e with
  | false => rfl
  | true =>
    obtain ⟨i, _, hi, _⟩ := hfirst ⟨e, he, hq⟩
    rw [hi] at hnone
    cases hnone

/-- C3 (amended) on the registry holding `Foo.upk`: the lookup of `foo` with
the explicit extension `UPK` returns that entry. -/
theorem C3_general_lookup_first_match_witness :
    '.' ∉ "foo".toList ∧ "foo".toList ≠ GStartupPackage
    ∧ ∃ i e, appFindGameFile fullBuild fooFiles "foo".toList (some "UPK".toList) = .ret (some i)
        ∧ fooFiles.get? i = some e
        ∧ qualifies (lookupName "foo".toList) (some "UPK".toList) e = true
        ∧ ∀ j e2, j < i → fooFiles.get? j = some e2
            → qualifies (lookupName "foo".toList) (some "UPK".toList) e2 = false :=
  ⟨by decide, by decide,
    (C3_general_lookup_first_match fullBuild fooFiles "foo".toList (some "UPK".toList)
      (by decide) (by decide) (fun _ => by decide)).1
      ⟨mkInfo fullBuild "Foo.upk".toList true 2 none, by decide, by decide⟩⟩

/-! ## C4 -/

set_option maxRecDepth 100000 in
/-- C4 as stated fails for long names: with `n` of 253 letters and `e = "ux"`
the dotted name has 256 characters, `buf` keeps only the first 255, so the
lookup of `n.ux` without extension searches for the extension `u` and returns
the entry `n.u` of the registry, whereas the lookup of `n` with the explicit
extension `ux` returns the null pointer. -/
theorem C4_counterexample :
    longNameFiles.map (fun e => e.RelativeName) = [longName ++ ".u".toList]
    ∧ '.' ∉ longName ∧ longName ≠ GStartupPackage ∧ '.' ∉ "ux".toList
    ∧ appFindGameFile fullBuild longNameFiles (longName ++ '.' :: "ux".toList) none
        = .ret (some 0)
    ∧ appFindGameFile fullBuild longNameFiles longName (some "ux".toList) = .ret none := by
  decide

theorem replaceSlashes_append (a b : CStr) :
    replaceSlashes (a ++ b) = replaceSlashes a ++ replaceSlashes b := by
  simp [replaceSlashes]

theorem replaceSlashes_of_not_mem {e : CStr} (h : '\\' ∉ e) : replaceSlashes e = e := by
  induction e with
  | nil => rfl
  | cons x xs ih =>
    have hx : x ≠ '\\' := fun hx => h (by simp [hx])
    have hxs : '\\' ∉ xs := fun hm => h (by simp [hm])
    have := ih hxs
    simp only [replaceSlashes] at this ⊢
    simp [hx, this]

theorem replaceSlashes_length (a : CStr) : (replaceSlashes a).length = a.length := by
  simp [replaceSlashes]

theorem not_mem_replaceSlashes {name : CStr} (h : '.' ∉ name) : '.' ∉ replaceSlashes name := by
  intro hm
  simp only [replaceSlashes, List.mem_map] at hm
  obtain ⟨c, hc, hcd⟩ := hm
  by_cases hb : c = '\\'
  · simp [hb] at hcd
  · simp only [hb, if_false] at hcd
    exact h (hcd ▸ hc)

/-- C4 (amended): for every name `n` without `.` that is not the reserved
startup name and every extension `e` without `.` and without backslash, such
that `n.e` has at most 255 characters, the lookup of `n.e` without explicit
extension returns the same result as the lookup of `n` with the explicit
extension `e`, on every registry. -/
theorem C4_dotted_name_splits (cfg : BuildConfig) (files : List CGameFileInfo)
    (n e : CStr) (hn : '.' ∉ n) (hres : n ≠ GStartupPackage) (he : '.' ∉ e)
    (hback : '\\' ∉ e) (hlen : (n ++ '.' :: e).length ≤ 255) :
    appFindGameFile cfg files (n ++ '.' :: e) none = appFindGameFile cfg files n (some e) := by
  rw [appFindGameFile_general cfg files n (some e) hn hres]
  have hcut : appStrncpyz (n ++ '.' :: e) 256 = n ++ '.' :: e :=
    List.take_of_length_le (by simpa using hlen)
  have hcut2 : appStrncpyz n 256 = n :=
    List.take_of_length_le (by simp at hlen ⊢; omega)
  have hbuf : replaceSlashes (appStrncpyz (n ++ '.' :: e) 256)
      = replaceSlashes n ++ '.' :: e := by
    rw [hcut, replaceSlashes_append]
    congr 1
    have := replaceSlashes_of_not_mem hback
    simp only [replaceSlashes, List.map_cons] at this ⊢
    rw [this]
    simp
  have hs : strcmp (n ++ '.' :: e) GStartupPackage = false := by
    simp only [strcmp, beq_eq_false_iff_ne, ne_eq]
    intro h
    have : '.' ∈ GStartupPackage := by rw [← h]; simp
    revert this
    decide
  have hsplit : strrchr (replaceSlashes n ++ '.' :: e) '.' = some ('.' :: e) :=
    strrchr_split he
  simp only [appFindGameFile, hs, Bool.and_false, hbuf, hsplit]
  simp [lookupName, hcut2]

/-- C4 (amended) at a concrete name: `core.upk` against `core` with `upk`. -/
theorem C4_dotted_name_splits_witness :
    appFindGameFile fullBuild localeFirstFiles ("core".toList ++ '.' :: "upk".toList) none
      = appFindGameFile fullBuild localeFirstFiles "core".toList (some "upk".toList) :=
  C4_dotted_name_splits fullBuild localeFirstFiles "core".toList "upk".toList
    (by decide) (by decide) (by decide) (by decide) (by decide)

/-! ## Lemmas on classification and entry creation -/

theorem RegisterGameFile_eq_registerEntry (cfg : BuildConfig) (host : Host) (FullName : CStr)
    (parentVfs : Option FVirtualFileSystem) (st : GameFS)
    (hcap : st.GameFiles.length < MAX_GAME_FILES)
    (hnm : parentVfs ≠ none ∨ isContainerName cfg FullName = false) :
    RegisterGameFile cfg host FullName parentVfs st
      = registerEntry cfg host FullName parentVfs st := by
  cases parentVfs with
  | some vfs =>
    simp only [RegisterGameFile, RegisterGameFileVfs, ge_iff_le, Nat.not_le.mpr hcap, if_false]
  | none =>
    have hc : isContainerName cfg FullName = false := by
      rcases hnm with h | h
      · exact absurd rfl h
      · exact h
    apply RegisterGameFile_plain cfg host FullName st hcap
    intro ext he
    simpa [isContainerName, he] using hc

theorem createEntry_eq (cfg : BuildConfig) (host : Host) (FullName : CStr)
    (parentVfs : Option FVirtualFileSystem) (pk : Bool) (st : GameFS)
    (hroot : parentVfs = none → ∃ rel, FullName = st.RootDirectory ++ '/' :: rel) :
    createEntry cfg host FullName parentVfs pk st =
      .ret true { st with
        GameFiles := st.GameFiles ++
          [mkInfo cfg (storedName st FullName parentVfs) pk
            (storedSize host FullName parentVfs) parentVfs]
        GNumPackageFiles := if pk then st.GNumPackageFiles + 1 else st.GNumPackageFiles } := by
  cases parentVfs with
  | some vfs => simp [createEntry, storedName, storedSize]
  | none =>
    obtain ⟨rel, rfl⟩ := hroot rfl
    rw [createEntry_regular]
    simp [storedName, storedSize]

theorem mem_ifdef {flag : Bool} {xs : List String} {t : CStr} (h : t ∈ ifdef flag xs) :
    t ∈ ifdef true xs := by
  cases flag with
  | true => exact h
  | false => simp [ifdef] at h

theorem mem_append_of_subsets {a a1 b b1 : List CStr} (ha : ∀ t ∈ a, t ∈ a1)
    (hb : ∀ t ∈ b, t ∈ b1) : ∀ t ∈ a ++ b, t ∈ a1 ++ b1 := by
  intro t ht
  rcases List.mem_append.mp ht with h | h
  · exact List.mem_append.mpr (Or.inl (ha t h))
  · exact List.mem_append.mpr (Or.inr (hb t h))

theorem PackageExtensions_subset (cfg : BuildConfig) :
    ∀ t ∈ PackageExtensions cfg, t ∈ PackageExtensions fullBuild := by
  simp only [PackageExtensions, fullBuild]
  repeat refine mem_append_of_subsets ?_ (fun _ h => mem_ifdef h)
  exact fun _ h => mem_ifdef h

theorem KnownExtensions_subset (cfg : BuildConfig) :
    ∀ t ∈ KnownExtensions cfg, t ∈ KnownExtensions fullBuild := by
  simp only [KnownExtensions, fullBuild]
  repeat refine mem_append_of_subsets ?_ (fun _ h => mem_ifdef h)
  exact fun _ h => mem_ifdef h

/-- No extension of the Package and Support tables contains a `/`. -/
theorem tables_no_slash (cfg : BuildConfig) :
    (∀ t ∈ PackageExtensions cfg, '/' ∉ t) ∧ (∀ t ∈ KnownExtensions cfg, '/' ∉ t) := by
  have h1 : ∀ t ∈ PackageExtensions fullBuild, '/' ∉ t := by decide
  have h2 : ∀ t ∈ KnownExtensions fullBuild, '/' ∉ t := by decide
  exact ⟨fun t ht => h1 t (PackageExtensions_subset cfg t ht),
    fun t ht => h2 t (KnownExtensions_subset cfg t ht)⟩

theorem stricmp_no_slash {a b : CStr} (h : stricmp a b = true) (hb : '/' ∉ b) : '/' ∉ a := by
  intro ha
  simp only [stricmp, beq_iff_eq] at h
  have h1 : Char.toLower '/' ∈ a.map Char.toLower := List.mem_map_of_mem _ ha
  rw [h] at h1
  obtain ⟨c, hc, hcl⟩ := List.mem_map.mp h1
  have : c = '/' := (toLower_eq_of_not_alpha c '/' (by decide)).mp hcl
  exact hb (this ▸ hc)

/-- What a successful table search says about the name. -/
theorem FindExtension_true {name : CStr} {T : List CStr} (h : FindExtension name T = true) :
    ∃ pre ext, name = pre ++ '.' :: ext ∧ strrchr name '.' = some ('.' :: ext) ∧ '.' ∉ ext
      ∧ T.any (fun t => stricmp ext t) = true := by
  simp only [FindExtension] at h
  cases hs : strrchr name '.' with
  | none => simp [hs] at h
  | some r =>
    obtain ⟨pre, post, h1, h2, h3⟩ := strrchr_eq_some hs
    subst h2
    rw [hs] at h
    exact ⟨pre, post, h1, rfl, h3, by simpa using h⟩

theorem FindExtension_eq_any {name ext : CStr} (T : List CStr)
    (h : strrchr name '.' = some ('.' :: ext)) :
    FindExtension name T = T.any (fun t => stricmp ext t) := by
  simp [FindExtension, h]

theorem strrchr_cons_ne {x c : Char} (xs : CStr) (h : x ≠ c) :
    strrchr (x :: xs) c = strrchr xs c := by
  simp only [strrchr]
  cases strrchr xs c <;> simp [h]

/-- The last `.` of a name lies in its short name when no `/` follows it. -/
theorem strrchr_shortFilenameOf {name ext : CStr}
    (h : strrchr name '.' = some ('.' :: ext)) (hs : '/' ∉ ext) :
    strrchr (shortFilenameOf name) '.' = some ('.' :: ext) := by
  simp only [shortFilenameOf]
  cases hsl : strrchr name '/' with
  | none => exact h
  | some r =>
    obtain ⟨pre2, post2, h1, h2, h3⟩ := strrchr_eq_some hsl
    obtain ⟨pre, post, h4, h5, h6⟩ := strrchr_eq_some h
    cases h5
    subst h2
    simp only [List.drop_one, List.tail_cons]
    rw [h1] at h4
    rcases List.append_eq_append_iff.mp h4 with ⟨a, ha1, ha2⟩ | ⟨c, hc1, hc2⟩
    · -- pre = pre2 ++ a,  '/' :: post2 = a ++ '.' :: ext
      cases a with
      | nil => simp at ha2
      | cons y ys =>
        simp only [List.cons_append, List.cons.injEq] at ha2
        rw [ha2.2]
        exact strrchr_split h6
    · -- pre2 = pre ++ c,  '.' :: ext = c ++ '/' :: post2
      exfalso
      cases c with
      | nil => simp at hc2
      | cons y ys =>
        simp only [List.cons_append, List.cons.injEq] at hc2
        exact hs (by rw [hc2.2]; simp)

/-- The last `.` of `root/rel` lies in `rel` when no `/` follows it. -/
theorem strrchr_drop_root {root rel ext : CStr}
    (h : strrchr (root ++ '/' :: rel) '.' = some ('.' :: ext)) (hs : '/' ∉ ext) :
    strrchr rel '.' = some ('.' :: ext) := by
  rw [← strrchr_cons_ne rel (show '/' ≠ '.' by decide)]
  cases hr : strrchr ('/' :: rel) '.' with
  | some r => rw [strrchr_append_of_some root hr] at h; exact h
  | none =>
    exfalso
    rw [strrchr_append_of_none root hr] at h
    cases hroot : strrchr root '.' with
    | none => simp [hroot] at h
    | some r2 =>
      simp only [hroot, Option.map_some', Option.some.injEq] at h
      exact hs (by
        have : '/' ∈ r2 ++ '/' :: rel := by simp
        rw [h] at this
        rcases List.mem_cons.mp this with h' | h'
        · exact absurd h' (by decide)
        · exact h')

/-- The extension stored in an entry is the extension the classifier saw,
when the name fits the `RelativeName` buffer and its extension was found in a
table without `/`. -/
theorem stored_extension (cfg : BuildConfig) (st : GameFS) (FullName : CStr)
    (parentVfs : Option FVirtualFileSystem) (pk : Bool) (sz : Nat) (T : List CStr)
    (hT : ∀ t ∈ T, '/' ∉ t) (hfind : FindExtension FullName T = true)
    (hroot : parentVfs = none → ∃ rel, FullName = st.RootDirectory ++ '/' :: rel)
    (hfit : (storedName st FullName parentVfs).length < cfg.RelativeNameSize) :
    ∃ ext, strrchr FullName '.' = some ('.' :: ext)
      ∧ (mkInfo cfg (storedName st FullName parentVfs) pk sz parentVfs).Extension = some ext := by
  obtain ⟨pre, ext, -, hs, -, hany⟩ := FindExtension_true hfind
  obtain ⟨t, ht, hst⟩ := List.any_eq_true.mp hany
  have hsl : '/' ∉ ext := stricmp_no_slash hst (hT t ht)
  refine ⟨ext, hs, ?_⟩
  rw [mkInfo_fits _ _ _ _ _ hfit]
  have hname : strrchr (storedName st FullName parentVfs) '.' = some ('.' :: ext) := by
    cases parentVfs with
    | some vfs => exact hs
    | none =>
      obtain ⟨rel, rfl⟩ := hroot rfl
      simp only [storedName, List.drop_append_eq_append_drop, List.drop_of_length_le (by omega : st.RootDirectory.length ≤ st.RootDirectory.length + 1)]
      simpa using strrchr_drop_root hs hsl
  simp [extensionOf, strrchr_shortFilenameOf hname hsl]

/-- How `classify` reads off the three table searches. -/
theorem classify_iff (cfg : BuildConfig) (n : CStr) :
    (classify cfg n = .Package ↔ FindExtension n (PackageExtensions cfg) = true)
    ∧ (classify cfg n = .Support ↔ FindExtension n (PackageExtensions cfg) = false
        ∧ (HAS_SUPORT_FILES cfg && FindExtension n (KnownExtensions cfg)) = true)
    ∧ (classify cfg n = .Skip ↔ FindExtension n (PackageExtensions cfg) = false
        ∧ (HAS_SUPORT_FILES cfg && FindExtension n (KnownExtensions cfg)) = false
        ∧ FindExtension n SkipExtensions = true)
    ∧ (classify cfg n = .Unknown ↔ FindExtension n (PackageExtensions cfg) = false
        ∧ (HAS_SUPORT_FILES cfg && FindExtension n (KnownExtensions cfg)) = false
        ∧ FindExtension n SkipExtensions = false) := by
  simp only [classify]
  generalize FindExtension n (PackageExtensions cfg) = a
  generalize (HAS_SUPORT_FILES cfg && FindExtension n (KnownExtensions cfg)) = b
  generalize FindExtension n SkipExtensions = c
  cases a <;> cases b <;> cases c <;> simp

/-! ## C5 -/

set_option maxRecDepth 100000 in
/-- C5 as stated fails in its last part for names that do not fit the
`RelativeName` buffer: the container `root/main.obb` reports a file whose name
is 251 letters followed by `.upk.tfc`; it is classified by `.tfc` (Support,
`IsPackage = false`), but the stored name is cut after 255 characters, so the
entry's extension is `upk`, which is in the Package table. -/
theorem C5_counterexample :
    (appSetRootDirectory fullBuild truncatingHost 2 "root".toList true (GameFS.initial [])).files.map
        (fun e => (e.IsPackage, e.Extension)) = [(false, some "upk".toList)]
    ∧ inPackageSet fullBuild (some "upk".toList) = true := by
  decide

/-- C5 (amended): for a candidate that is not mounted as a container (it comes
from a container, or its extension is not a container extension), with the
registry below capacity, a regular candidate lying under the root directory,
the effect of `RegisterGameFile` is determined by `classify`: Package appends
one entry with `IsPackage = true` and adds one to the package counter;
Support appends one entry with `IsPackage = false` and leaves the counters;
Skip leaves the state unchanged; Unknown below the foreign cap only adds one to
the foreign counter. When the stored name fits the `RelativeName` buffer, the
appended entry has `IsPackage = true` iff its extension is in the Package
table. Scanning a root with `a.tga` and `a.upk` gives exactly the entry
`a.upk` and foreign counter 0. -/
theorem C5_effect_by_class (cfg : BuildConfig) (host : Host) (FullName : CStr)
    (parentVfs : Option FVirtualFileSystem) (st : GameFS)
    (hcap : st.GameFiles.length < MAX_GAME_FILES)
    (hnm : parentVfs ≠ none ∨ isContainerName cfg FullName = false)
    (hroot : parentVfs = none → ∃ rel, FullName = st.RootDirectory ++ '/' :: rel) :
    (classify cfg FullName = .Package →
      RegisterGameFile cfg host FullName parentVfs st =
        .ret true { st with
          GameFiles := st.GameFiles ++
            [mkInfo cfg (storedName st FullName parentVfs) true
              (storedSize host FullName parentVfs) parentVfs]
          GNumPackageFiles := st.GNumPackageFiles + 1 })
    ∧ (classify cfg FullName = .Support →
      RegisterGameFile cfg host FullName parentVfs st =
        .ret true { st with
          GameFiles := st.GameFiles ++
            [mkInfo cfg (storedName st FullName parentVfs) false
              (storedSize host FullName parentVfs) parentVfs] })
    ∧ (classify cfg FullName = .Skip →
      RegisterGameFile cfg host FullName parentVfs st = .ret true st)
    ∧ (classify cfg FullName = .Unknown → st.GNumForeignFiles + 1 < MAX_FOREIGN_FILES →
      RegisterGameFile cfg host FullName parentVfs st =
        .ret true { st with GNumForeignFiles := st.GNumForeignFiles + 1 })
    ∧ (∀ pk sz, (mkInfo cfg (storedName st FullName parentVfs) pk sz parentVfs).IsPackage = pk)
    ∧ ((storedName st FullName parentVfs).length < cfg.RelativeNameSize →
        (classify cfg FullName = .Package → ∀ sz,
          inPackageSet cfg
            (mkInfo cfg (storedName st FullName parentVfs) true sz parentVfs).Extension = true)
        ∧ (classify cfg FullName = .Support → ∀ sz,
          inPackageSet cfg
            (mkInfo cfg (storedName st FullName parentVfs) false sz parentVfs).Extension = false))
    ∧ ((appSetRootDirectory fullBuild exportedHost 2 "root".toList true
          (GameFS.initial [])).state.map
        (fun s => (s.GameFiles.map (fun e => (e.RelativeName, e.IsPackage)),
          s.GNumPackageFiles, s.GNumForeignFiles))
        = some ([("a.upk".toList, true)], 1, 0)) := by
  rw [RegisterGameFile_eq_registerEntry cfg host FullName parentVfs st hcap hnm]
  obtain ⟨hP, hS, hK, hU⟩ := classify_iff cfg FullName
  refine ⟨?_, ?_, ?_, ?_, fun _ _ => rfl, ?_, by decide⟩
  · intro hc
    have hp := hP.mp hc
    simp only [registerEntry, hp, if_true]
    rw [createEntry_eq cfg host FullName parentVfs true st hroot]
    simp
  · intro hc
    obtain ⟨hp, hk⟩ := hS.mp hc
    simp only [registerEntry, hp, hk, if_true, Bool.false_eq_true, if_false]
    rw [createEntry_eq cfg host FullName parentVfs false st hroot]
    simp
  · intro hc
    obtain ⟨hp, hk, hs⟩ := hK.mp hc
    simp only [registerEntry, hp, hk, hs, if_true, Bool.false_eq_true, if_false]
  · intro hc hcap2
    obtain ⟨hp, hk, hs⟩ := hU.mp hc
    simp only [registerEntry, hp, hk, hs, Bool.false_eq_true, if_false, ge_iff_le,
      Nat.not_le.mpr hcap2]
  · intro hfit
    constructor
    · intro hc sz
      have hp := hP.mp hc
      obtain ⟨ext, hs, hext⟩ := stored_extension cfg st FullName parentVfs true sz
        (PackageExtensions cfg) (tables_no_slash cfg).1 hp hroot hfit
      rw [hext]
      simp only [inPackageSet]
      rw [← FindExtension_eq_any _ hs, hp]
    · intro hc sz
      obtain ⟨hp, hk⟩ := hS.mp hc
      obtain ⟨ext, hs, hext⟩ := stored_extension cfg st FullName parentVfs false sz
        (KnownExtensions cfg) (tables_no_slash cfg).2 (by simp at hk; exact hk.2) hroot hfit
      rw [hext]
      simp only [inPackageSet]
      rw [← FindExtension_eq_any _ hs, hp]

/-- C5 (amended) for the regular file `root/a.upk` and the empty registry. -/
theorem C5_effect_by_class_witness :
    RegisterGameFile fullBuild exportedHost "root/a.upk".toList none
        (GameFS.initial "root".toList) =
      .ret true { GameFS.initial "root".toList with
        GameFiles := (GameFS.initial "root".toList).GameFiles ++
          [mkInfo fullBuild (storedName (GameFS.initial "root".toList) "root/a.upk".toList none)
            true (storedSize exportedHost "root/a.upk".toList none) none]
        GNumPackageFiles := (GameFS.initial "root".toList).GNumPackageFiles + 1 } :=
  (C5_effect_by_class fullBuild exportedHost "root/a.upk".toList none
    (GameFS.initial "root".toList) (by decide) (Or.inr (by decide))
    (fun _ => ⟨"a.upk".toList, by decide⟩)).1 (by decide)

/-! ## What a returning call leaves behind -/

/-- A returning classification step returns `true`, keeps the root, and either
keeps the registry or appends the one entry made from the candidate, which is
a package exactly when the Package table has the candidate's extension. -/
theorem registerEntry_ret {cfg : BuildConfig} {host : Host} {FullName : CStr}
    {parentVfs : Option FVirtualFileSystem} {st st1 : GameFS} {r : Bool}
    (h : registerEntry cfg host FullName parentVfs st = .ret r st1) :
    r = true ∧ st1.RootDirectory = st.RootDirectory
      ∧ (st1.GameFiles = st.GameFiles
          ∨ st1.GameFiles = st.GameFiles ++
              [mkInfo cfg (storedName st FullName parentVfs)
                (FindExtension FullName (PackageExtensions cfg))
                (storedSize host FullName parentVfs) parentVfs])
      ∧ (st1.GNumForeignFiles = st.GNumForeignFiles
          ∨ (st1.GNumForeignFiles = st.GNumForeignFiles + 1
              ∧ st1.GNumForeignFiles < MAX_FOREIGN_FILES)) := by
  have hcreate : ∀ pk, pk = FindExtension FullName (PackageExtensions cfg) →
      createEntry cfg host FullName parentVfs pk st = .ret r st1 →
      r = true ∧ st1.RootDirectory = st.RootDirectory
      ∧ (st1.GameFiles = st.GameFiles
          ∨ st1.GameFiles = st.GameFiles ++
              [mkInfo cfg (storedName st FullName parentVfs)
                (FindExtension FullName (PackageExtensions cfg))
                (storedSize host FullName parentVfs) parentVfs])
      ∧ (st1.GNumForeignFiles = st.GNumForeignFiles
          ∨ (st1.GNumForeignFiles = st.GNumForeignFiles + 1
              ∧ st1.GNumForeignFiles < MAX_FOREIGN_FILES)) := by
    intro pk hpk hc
    subst hpk
    cases parentVfs with
    | some vfs =>
      simp only [createEntry, Result.ret.injEq] at hc
      obtain ⟨rfl, rfl⟩ := hc
      exact ⟨rfl, rfl, Or.inr rfl, Or.inl rfl⟩
    | none =>
      simp only [createEntry] at hc
      split at hc
      · simp only [Result.ret.injEq] at hc
        obtain ⟨rfl, rfl⟩ := hc
        exact ⟨rfl, rfl, Or.inr rfl, Or.inl rfl⟩
      · cases hc
  simp only [registerEntry] at h
  split at h
  · rename_i hp
    exact hcreate _ hp.symm h
  · rename_i hp
    split at h
    · exact hcreate _ (by simpa using hp) h
    · split at h
      · simp only [Result.ret.injEq] at h
        obtain ⟨rfl, rfl⟩ := h
        exact ⟨rfl, rfl, Or.inl rfl, Or.inl rfl⟩
      · split at h
        · cases h
        · rename_i hlt
          simp only [Result.ret.injEq] at h
          obtain ⟨rfl, rfl⟩ := h
          exact ⟨rfl, rfl, Or.inl rfl, Or.inr ⟨rfl, by simpa using hlt⟩⟩

/-- The entry the registrar makes for the path `name` that `vfs` reports. -/
theorem vfsEntry_eq (cfg : BuildConfig) (vfs : FVirtualFileSystem) (name : CStr) (pk : Bool) :
    mkInfo cfg name pk (vfs.GetFileSize name) (some vfs) =
      { RelativeName := appStrncpyz name cfg.RelativeNameSize
        ShortFilename := shortFilenameOf (appStrncpyz name cfg.RelativeNameSize)
        Extension := extensionOf (shortFilenameOf (appStrncpyz name cfg.RelativeNameSize))
        IsPackage := pk
        SizeInKb := vfs.GetFileSize name
        FileSystem := some vfs } := rfl

/-- A returning call for a file of a container keeps the root, appends at most
the entry made from the reported name, and keeps both bounds. -/
theorem RegisterGameFileVfs_ret {cfg : BuildConfig} {host : Host} {name : CStr}
    {vfs : FVirtualFileSystem} {st st1 : GameFS} {r : Bool}
    (h : RegisterGameFileVfs cfg host name vfs st = .ret r st1) :
    st1.RootDirectory = st.RootDirectory
      ∧ (∃ new, st1.GameFiles = st.GameFiles ++ new
          ∧ new.Sublist [mkInfo cfg name (FindExtension name (PackageExtensions cfg))
              (vfs.GetFileSize name) (some vfs)])
      ∧ (st.GameFiles.length ≤ MAX_GAME_FILES → st1.GameFiles.length ≤ MAX_GAME_FILES)
      ∧ (st.GNumForeignFiles < MAX_FOREIGN_FILES → st1.GNumForeignFiles < MAX_FOREIGN_FILES) := by
  simp only [RegisterGameFileVfs] at h
  split at h
  · simp only [Result.ret.injEq] at h
    obtain ⟨-, rfl⟩ := h
    exact ⟨rfl, ⟨[], by simp, by simp⟩, id, id⟩
  · rename_i hcap
    obtain ⟨-, hroot, hfiles, hforeign⟩ := registerEntry_ret h
    refine ⟨hroot, ?_, ?_, ?_⟩
    · rcases hfiles with hf | hf
      · exact ⟨[], by simp [hf], by simp⟩
      · exact ⟨_, hf, List.Sublist.refl _⟩
    · intro _
      rcases hfiles with hf | hf
      · rw [hf]; omega
      · rw [hf]; simp only [List.length_append, List.length_singleton]; omega
    · intro hlt
      rcases hforeign with hf | ⟨-, hf⟩
      · rw [hf]; exact hlt
      · exact hf

/-- The same for the loop over the names a container reports: the appended
entries are made from reported names, in their order. -/
theorem registerVfsFiles_ret {cfg : BuildConfig} {host : Host} {vfs : FVirtualFileSystem}
    {names : List CStr} {st st1 : GameFS} {r : Bool}
    (h : registerVfsFiles cfg host vfs names st = .ret r st1) :
    st1.RootDirectory = st.RootDirectory
      ∧ (∃ new, st1.GameFiles = st.GameFiles ++ new
          ∧ new.Sublist (names.map fun name =>
              mkInfo cfg name (FindExtension name (PackageExtensions cfg))
                (vfs.GetFileSize name) (some vfs)))
      ∧ (st.GameFiles.length ≤ MAX_GAME_FILES → st1.GameFiles.length ≤ MAX_GAME_FILES)
      ∧ (st.GNumForeignFiles < MAX_FOREIGN_FILES → st1.GNumForeignFiles < MAX_FOREIGN_FILES) := by
  induction names generalizing st with
  | nil =>
    simp only [registerVfsFiles, Result.ret.injEq] at h
    obtain ⟨-, rfl⟩ := h
    exact ⟨rfl, ⟨[], by simp, by simp⟩, id, id⟩
  | cons n ns ih =>
    simp only [registerVfsFiles] at h
    cases hstep : RegisterGameFileVfs cfg host n vfs st with
    | ret r2 st2 =>
      obtain ⟨hroot, ⟨new, hnew, hsub⟩, hlen, hfor⟩ := RegisterGameFileVfs_ret hstep
      rw [hstep] at h
      cases r2 with
      | true =>
        simp only at h
        obtain ⟨hroot2, ⟨new2, hnew2, hsub2⟩, hlen2, hfor2⟩ := ih h
        refine ⟨hroot2.trans hroot, ⟨new ++ new2, by rw [hnew2, hnew, List.append_assoc], ?_⟩,
          fun hl => hlen2 (hlen hl), fun hl => hfor2 (hfor hl)⟩
        simp only [List.map_cons]
        exact List.Sublist.append hsub hsub2
      | false =>
        simp only [Result.ret.injEq] at h
        obtain ⟨-, rfl⟩ := h
        refine ⟨hroot, ⟨new, hnew, ?_⟩, hlen, hfor⟩
        simp only [List.map_cons]
        have := List.Sublist.append hsub (List.nil_sublist (ns.map fun name =>
              mkInfo cfg name (FindExtension name (PackageExtensions cfg))
                (vfs.GetFileSize name) (some vfs)))
        simpa using this
    | appError => rw [hstep] at h; cases h
    | assertFailed => rw [hstep] at h; cases h
    | outOfFuel => rw [hstep] at h; cases h

/-- Every returning call of the registrar keeps the root, only appends entries,
and keeps both bounds. -/
theorem RegisterGameFile_ret {cfg : BuildConfig} {host : Host} {FullName : CStr}
    {parentVfs : Option FVirtualFileSystem} {st st1 : GameFS} {r : Bool}
    (h : RegisterGameFile cfg host FullName parentVfs st = .ret r st1) :
    st1.RootDirectory = st.RootDirectory
      ∧ (∃ new, st1.GameFiles = st.GameFiles ++ new)
      ∧ (st.GameFiles.length ≤ MAX_GAME_FILES → st1.GameFiles.length ≤ MAX_GAME_FILES)
      ∧ (st.GNumForeignFiles < MAX_FOREIGN_FILES → st1.GNumForeignFiles < MAX_FOREIGN_FILES) := by
  cases parentVfs with
  | some vfs =>
    obtain ⟨h1, ⟨new, h2, -⟩, h3, h4⟩ := RegisterGameFileVfs_ret (show
      RegisterGameFileVfs cfg host FullName vfs st = .ret r st1 from h)
    exact ⟨h1, ⟨new, h2⟩, h3, h4⟩
  | none =>
    by_cases hcap : st.GameFiles.length ≥ MAX_GAME_FILES
    · simp only [RegisterGameFile, hcap, if_true, Result.ret.injEq] at h
      obtain ⟨-, rfl⟩ := h
      exact ⟨rfl, ⟨[], by simp⟩, id, id⟩
    · have hplain : ∀ {r st1}, registerEntry cfg host FullName none st = .ret r st1 →
          st1.RootDirectory = st.RootDirectory
          ∧ (∃ new, st1.GameFiles = st.GameFiles ++ new)
          ∧ (st.GameFiles.length ≤ MAX_GAME_FILES → st1.GameFiles.length ≤ MAX_GAME_FILES)
          ∧ (st.GNumForeignFiles < MAX_FOREIGN_FILES
              → st1.GNumForeignFiles < MAX_FOREIGN_FILES) := by
        intro r st1 h
        obtain ⟨-, hroot, hfiles, hforeign⟩ := registerEntry_ret h
        refine ⟨hroot, ?_, ?_, ?_⟩
        · rcases hfiles with hf | hf
          · exact ⟨[], by simp [hf]⟩
          · exact ⟨_, hf⟩
        · intro _
          rcases hfiles with hf | hf
          · rw [hf]; omega
          · rw [hf]; simp only [List.length_append, List.length_singleton]; omega
        · intro hlt
          rcases hforeign with hf | ⟨-, hf⟩
          · rw [hf]; exact hlt
          · exact hf
      simp only [RegisterGameFile, hcap, if_false] at h
      split at h
      · split at h
        · split at h
          · simp only [Result.ret.injEq] at h
            obtain ⟨-, rfl⟩ := h
            exact ⟨rfl, ⟨[], by simp⟩, id, id⟩
          · obtain ⟨h1, ⟨new, h2, -⟩, h3, h4⟩ := registerVfsFiles_ret h
            exact ⟨h1, ⟨new, h2⟩, h3, h4⟩
        · exact hplain h
      · exact hplain h

theorem Reachable_bounds {cfg : BuildConfig} {root : CStr} {st : GameFS}
    (h : Reachable cfg root st) :
    st.RootDirectory = root ∧ st.GameFiles.length ≤ MAX_GAME_FILES
      ∧ st.GNumForeignFiles < MAX_FOREIGN_FILES := by
  induction h with
  | init => exact ⟨rfl, by simp [GameFS.initial], by simp [GameFS.initial, MAX_FOREIGN_FILES]⟩
  | call host FullName parentVfs st st1 res _ hcall ih =>
    obtain ⟨h1, -, h3, h4⟩ := RegisterGameFile_ret hcall
    exact ⟨h1.trans ih.1, h3 ih.2.1, h4 ih.2.2⟩

/-- At capacity every call returns `false` and leaves the state as it is. -/
theorem RegisterGameFile_full (cfg : BuildConfig) (host : Host) (FullName : CStr)
    (parentVfs : Option FVirtualFileSystem) (st : GameFS)
    (hfull : st.GameFiles.length ≥ MAX_GAME_FILES) :
    RegisterGameFile cfg host FullName parentVfs st = .ret false st := by
  cases parentVfs with
  | some vfs => simp [RegisterGameFile, RegisterGameFileVfs, hfull]
  | none => simp [RegisterGameFile, hfull]

/-! ## C6 -/

/-- C6: in every state reached from the empty registry by calls of
`RegisterGameFile` (with or without a parent container, so the calls made while
a container is registered are included) the number of entries is at most
`MAX_GAME_FILES` = 32768; and a call made when the number of entries equals the
capacity returns `false` (stop) and leaves the state unchanged. -/
theorem C6_capacity_never_exceeded (cfg : BuildConfig) (root : CStr) :
    MAX_GAME_FILES = 32768
    ∧ (∀ st, Reachable cfg root st → st.GNumGameFiles ≤ MAX_GAME_FILES)
    ∧ (∀ host FullName parentVfs st, st.GNumGameFiles = MAX_GAME_FILES →
        RegisterGameFile cfg host FullName parentVfs st = .ret false st) :=
  ⟨rfl, fun _ h => (Reachable_bounds h).2.1,
    fun host FullName parentVfs st h =>
      RegisterGameFile_full cfg host FullName parentVfs st (Nat.le_of_eq h.symm)⟩

/-! ## Foreign files -/

/-- The registrar on an Unknown candidate that is not mounted, below capacity. -/
theorem RegisterGameFile_unknown (cfg : BuildConfig) (host : Host) (FullName : CStr)
    (parentVfs : Option FVirtualFileSystem) (st : GameFS)
    (hcap : st.GameFiles.length < MAX_GAME_FILES)
    (hnm : parentVfs ≠ none ∨ isContainerName cfg FullName = false)
    (hc : classify cfg FullName = .Unknown) :
    RegisterGameFile cfg host FullName parentVfs st =
      if st.GNumForeignFiles + 1 ≥ MAX_FOREIGN_FILES then .appError
      else .ret true { st with GNumForeignFiles := st.GNumForeignFiles + 1 } := by
  rw [RegisterGameFile_eq_registerEntry cfg host FullName parentVfs st hcap hnm]
  obtain ⟨hp, hk, hs⟩ := (classify_iff cfg FullName).2.2.2.mp hc
  simp only [registerEntry, hp, hk, hs, Bool.false_eq_true, if_false]

/-- The POSIX loop over unrecognized files, while the foreign counter stays
below its cap. -/
theorem posixLoop_unrecognized_ok (cfg : BuildConfig) (host : Host)
    (scan : CStr → GameFS → Result) (dir : CStr) (recurse : Bool) (names : List CStr)
    (st : GameFS) (hW : cfg.WIN32 = false)
    (hcap : st.GameFiles.length < MAX_GAME_FILES)
    (hall : ∀ n ∈ names, charAt n 0 ≠ '.'
      ∧ (cfg.WIN32 = false → host.stat64 (joinPath dir n) = some false)
      ∧ classify cfg (joinPath dir n) = .Unknown
      ∧ isContainerName cfg (joinPath dir n) = false)
    (hlt : st.GNumForeignFiles + names.length < MAX_FOREIGN_FILES) :
    posixLoop cfg host scan dir recurse names true st =
      .ret true { st with GNumForeignFiles := st.GNumForeignFiles + names.length } := by
  induction names generalizing st with
  | nil => simp [posixLoop]
  | cons n ns ih =>
    obtain ⟨h1, h2, h3, h4⟩ := hall n (by simp)
    simp only [List.length_cons] at hlt
    simp only [posixLoop, h1, if_false, h2 hW]
    rw [RegisterGameFile_unknown cfg host _ none st hcap (Or.inr h4) h3]
    simp only [ge_iff_le, Nat.not_le.mpr (show st.GNumForeignFiles + 1 < MAX_FOREIGN_FILES by omega),
      if_false]
    rw [ih { st with GNumForeignFiles := st.GNumForeignFiles + 1 } hcap
      (fun x hx => hall x (by simp [hx])) (by simp only; omega)]
    simp only [List.length_cons, Result.ret.injEq, true_and]
    congr 1
    omega

/-- The POSIX loop over unrecognized files aborts when the counter reaches the
cap. -/
theorem posixLoop_unrecognized_abort (cfg : BuildConfig) (host : Host)
    (scan : CStr → GameFS → Result) (dir : CStr) (recurse : Bool) (names : List CStr)
    (res : Bool) (st : GameFS) (hW : cfg.WIN32 = false)
    (hcap : st.GameFiles.length < MAX_GAME_FILES)
    (hall : ∀ n ∈ names, charAt n 0 ≠ '.'
      ∧ (cfg.WIN32 = false → host.stat64 (joinPath dir n) = some false)
      ∧ classify cfg (joinPath dir n) = .Unknown
      ∧ isContainerName cfg (joinPath dir n) = false)
    (hlt : st.GNumForeignFiles < MAX_FOREIGN_FILES)
    (hge : MAX_FOREIGN_FILES ≤ st.GNumForeignFiles + names.length) :
    posixLoop cfg host scan dir recurse names res st = .appError := by
  induction names generalizing res st with
  | nil => simp only [List.length_nil] at hge; omega
  | cons n ns ih =>
    obtain ⟨h1, h2, h3, h4⟩ := hall n (by simp)
    simp only [List.length_cons] at hge
    simp only [posixLoop, h1, if_false, h2 hW]
    rw [RegisterGameFile_unknown cfg host _ none st hcap (Or.inr h4) h3]
    by_cases hnow : st.GNumForeignFiles + 1 ≥ MAX_FOREIGN_FILES
    · simp only [hnow, if_true]
    · simp only [hnow, if_false]
      exact ih true { st with GNumForeignFiles := st.GNumForeignFiles + 1 } hcap
        (fun x hx => hall x (by simp [hx])) (by simp only; omega) (by simp only; omega)

/-- The Win32 loop over unrecognized files, while the foreign counter stays
below its cap. -/
theorem win32Loop_unrecognized_ok (cfg : BuildConfig) (host : Host)
    (scan : CStr → GameFS → Result) (dir : CStr) (recurse : Bool) (names : List CStr)
    (st : GameFS) (hcap : st.GameFiles.length < MAX_GAME_FILES)
    (hall : ∀ n ∈ names, charAt n 0 ≠ '.'
      ∧ (cfg.WIN32 = false → host.stat64 (joinPath dir n) = some false)
      ∧ classify cfg (joinPath dir n) = .Unknown
      ∧ isContainerName cfg (joinPath dir n) = false)
    (hlt : st.GNumForeignFiles + names.length < MAX_FOREIGN_FILES) :
    win32Loop cfg host scan dir recurse (names.map fun n => (n, false)) st =
      .ret true { st with GNumForeignFiles := st.GNumForeignFiles + names.length } := by
  induction names generalizing st with
  | nil => simp [win32Loop]
  | cons n ns ih =>
    obtain ⟨h1, -, h3, h4⟩ := hall n (by simp)
    simp only [List.length_cons] at hlt
    simp only [List.map_cons, win32Loop, h1, if_false, Bool.false_eq_true]
    rw [RegisterGameFile_unknown cfg host _ none st hcap (Or.inr h4) h3]
    simp only [ge_iff_le, Nat.not_le.mpr (show st.GNumForeignFiles + 1 < MAX_FOREIGN_FILES by omega),
      if_false]
    rw [ih { st with GNumForeignFiles := st.GNumForeignFiles + 1 } hcap
      (fun x hx => hall x (by simp [hx])) (by simp only; omega)]
    simp only [List.length_cons, Result.ret.injEq, true_and]
    congr 1
    omega

/-- The Win32 loop over unrecognized files aborts when the counter reaches the
cap. -/
theorem win32Loop_unrecognized_abort (cfg : BuildConfig) (host : Host)
    (scan : CStr → GameFS → Result) (dir : CStr) (recurse : Bool) (names : List CStr)
    (st : GameFS) (hcap : st.GameFiles.length < MAX_GAME_FILES)
    (hall : ∀ n ∈ names, charAt n 0 ≠ '.'
      ∧ (cfg.WIN32 = false → host.stat64 (joinPath dir n) = some false)
      ∧ classify cfg (joinPath dir n) = .Unknown
      ∧ isContainerName cfg (joinPath dir n) = false)
    (hlt : st.GNumForeignFiles < MAX_FOREIGN_FILES)
    (hge : MAX_FOREIGN_FILES ≤ st.GNumForeignFiles + names.length) :
    win32Loop cfg host scan dir recurse (names.map fun n => (n, false)) st = .appError := by
  induction names generalizing st with
  | nil => simp only [List.length_nil] at hge; omega
  | cons n ns ih =>
    obtain ⟨h1, -, h3, h4⟩ := hall n (by simp)
    simp only [List.length_cons] at hge
    simp only [List.map_cons, win32Loop, h1, if_false, Bool.false_eq_true]
    rw [RegisterGameFile_unknown cfg host _ none st hcap (Or.inr h4) h3]
    by_cases hnow : st.GNumForeignFiles + 1 ≥ MAX_FOREIGN_FILES
    · simp only [hnow, if_true]
    · simp only [hnow, if_false]
      exact ih { st with GNumForeignFiles := st.GNumForeignFiles + 1 } hcap
        (fun x hx => hall x (by simp [hx])) (by simp only; omega) (by simp only; omega)

/-- Scanning a directory that holds only unrecognized files: the scan returns
with the foreign counter equal to their number while that is below the cap,
and aborts otherwise. -/
theorem appSetRootDirectory_unrecognized (cfg : BuildConfig) (host : Host)
    (root dir : CStr) (names : List CStr) (fuel : Nat) (recurse : Bool)
    (hdir : charAt dir 0 ≠ NUL) (hlen : dir.length ≤ 255)
    (hlist : ListsUnrecognized cfg host dir names) :
    (names.length < MAX_FOREIGN_FILES →
      appSetRootDirectory cfg host (fuel + 1) dir recurse (GameFS.initial root) =
        .ret true ⟨dir, [], 0, names.length⟩)
    ∧ (MAX_FOREIGN_FILES ≤ names.length →
      appSetRootDirectory cfg host (fuel + 1) dir recurse (GameFS.initial root) = .appError) := by
  have hcut : appStrncpyz dir 256 = dir := List.take_of_length_le (by simpa using hlen)
  obtain ⟨hl, hall⟩ := hlist
  have hcap : ([] : List CGameFileInfo).length < MAX_GAME_FILES := by decide
  simp only [appSetRootDirectory, hdir, if_false, hcut, ScanGameDirectory, GameFS.initial]
  cases hW : cfg.WIN32 with
  | true =>
    simp only [hW, if_true] at hl ⊢
    rw [hl]
    refine ⟨fun h => ?_, fun h => ?_⟩
    · have := win32Loop_unrecognized_ok cfg host
        (fun d s => ScanGameDirectory cfg host fuel d recurse s) dir recurse names
        ⟨dir, [], 0, 0⟩ hcap hall (by simpa using h)
      simpa using this
    · exact win32Loop_unrecognized_abort cfg host
        (fun d s => ScanGameDirectory cfg host fuel d recurse s) dir recurse names
        ⟨dir, [], 0, 0⟩ hcap hall (by simp [MAX_FOREIGN_FILES]) (by simpa using h)
  | false =>
    simp only [hW, Bool.false_eq_true, if_false] at hl ⊢
    rw [hl]
    refine ⟨fun h => ?_, fun h => ?_⟩
    · have := posixLoop_unrecognized_ok cfg host
        (fun d s => ScanGameDirectory cfg host fuel d recurse s) dir recurse names
        ⟨dir, [], 0, 0⟩ hW hcap hall (by simpa using h)
      simpa using this
    · exact posixLoop_unrecognized_abort cfg host
        (fun d s => ScanGameDirectory cfg host fuel d recurse s) dir recurse names true
        ⟨dir, [], 0, 0⟩ hW hcap hall (by simp [MAX_FOREIGN_FILES]) (by simpa using h)

/-! ## C7 -/

/-- C7: (1) the foreign cap is 32768; (2) in every state reachable without
abort the foreign counter is below the cap; (3) for such a counter, a call of
`RegisterGameFile` on an Unknown candidate that is not mounted, below the
registry capacity, ends in `appError` iff the counter was 32767 before the call
(the increment brings it to exactly the cap), and otherwise returns with the
counter incremented by one and nothing else changed; (4) at registry capacity
the call returns before it counts anything; (5) scanning a directory that
holds only files of an unrecognized extension returns when they are fewer than
32768 and aborts, without a result, when they are 32768 or more (so also for
40000 files): the abort happens at the 32768th file. -/
theorem C7_foreign_cap_aborts (cfg : BuildConfig) (host : Host) (root dir : CStr)
    (names : List CStr) (fuel : Nat) (recurse : Bool)
    (hdir : charAt dir 0 ≠ NUL) (hlen : dir.length ≤ 255)
    (hlist : ListsUnrecognized cfg host dir names) :
    MAX_FOREIGN_FILES = 32768
    ∧ (∀ st, Reachable cfg root st → st.GNumForeignFiles < MAX_FOREIGN_FILES)
    ∧ (∀ FullName parentVfs st, classify cfg FullName = .Unknown →
        (parentVfs ≠ none ∨ isContainerName cfg FullName = false) →
        st.GNumGameFiles < MAX_GAME_FILES → st.GNumForeignFiles < MAX_FOREIGN_FILES →
        (RegisterGameFile cfg host FullName parentVfs st = .appError
          ↔ st.GNumForeignFiles = 32767)
        ∧ (st.GNumForeignFiles ≠ 32767 →
            RegisterGameFile cfg host FullName parentVfs st =
              .ret true { st with GNumForeignFiles := st.GNumForeignFiles + 1 }))
    ∧ (∀ FullName parentVfs st, st.GNumGameFiles ≥ MAX_GAME_FILES →
        RegisterGameFile cfg host FullName parentVfs st = .ret false st)
    ∧ (names.length < 32768 →
        appSetRootDirectory cfg host (fuel + 1) dir recurse (GameFS.initial root) =
          .ret true ⟨dir, [], 0, names.length⟩)
    ∧ (32768 ≤ names.length →
        appSetRootDirectory cfg host (fuel + 1) dir recurse (GameFS.initial root) = .appError) := by
  obtain ⟨hok, habort⟩ :=
    appSetRootDirectory_unrecognized cfg host root dir names fuel recurse hdir hlen hlist
  refine ⟨rfl, fun st h => (Reachable_bounds h).2.2, ?_,
    fun FullName parentVfs st h => RegisterGameFile_full cfg host FullName parentVfs st h,
    hok, habort⟩
  intro FullName parentVfs st hc hnm hcap hlt
  rw [RegisterGameFile_unknown cfg host FullName parentVfs st hcap hnm hc]
  simp only [MAX_FOREIGN_FILES] at hlt ⊢
  constructor
  · constructor
    · intro h
      by_contra hne
      have : ¬ (st.GNumForeignFiles + 1 ≥ 32768) := by omega
      simp [this] at h
    · intro h
      simp [h]
  · intro hne
    have : ¬ (st.GNumForeignFiles + 1 ≥ 32768) := by omega
    simp [this]

/-- A path that ends in `.xyz` is Unknown and no container name in the full
build. -/
theorem classify_xyz (pre : CStr) :
    classify fullBuild (pre ++ ".xyz".toList) = .Unknown
      ∧ isContainerName fullBuild (pre ++ ".xyz".toList) = false := by
  have hs : strrchr (pre ++ ".xyz".toList) '.' = some ('.' :: "xyz".toList) :=
    strrchr_append_of_some pre (by decide)
  constructor
  · apply (classify_iff fullBuild _).2.2.2.mpr
    rw [FindExtension_eq_any _ hs, FindExtension_eq_any _ hs, FindExtension_eq_any _ hs]
    decide
  · simp only [isContainerName, hs]
    decide

/-- The directory `root` of `junkHost` lists 40000 unrecognized files. -/
theorem junkHost_lists :
    ListsUnrecognized fullBuild junkHost "root".toList ((List.range 40000).map junkName) := by
  have hopen : junkHost.opendir "root".toList = some ((List.range 40000).map junkName) := by
    show (if "root".toList = "root".toList then some ((List.range 40000).map junkName) else none)
      = some ((List.range 40000).map junkName)
    exact if_pos rfl
  refine ⟨by rw [if_neg (by decide)]; exact hopen, ?_⟩
  intro n hn
  obtain ⟨i, hi, rfl⟩ := List.mem_map.mp hn
  have hi' : i < 40000 := List.mem_range.mp hi
  have hlen : ("root".toList ++ '/' :: junkName i).length ≤ 255 := by
    simp only [junkName, List.length_append, List.length_cons, List.length_replicate]
    have h1 : i / 1600 < 25 := by omega
    have h2 : i / 40 % 40 < 40 := Nat.mod_lt _ (by decide)
    have h3 : i % 40 < 40 := Nat.mod_lt _ (by decide)
    have h4 : "root".toList.length = 4 := by decide
    have h5 : ".xyz".toList.length = 4 := by decide
    omega
  have hpath : joinPath "root".toList (junkName i)
      = ("root".toList ++ '/' :: 'f' :: (List.replicate (i / 1600) 'a'
          ++ List.replicate (i / 40 % 40) 'b' ++ List.replicate (i % 40) 'c'))
        ++ ".xyz".toList := by
    simp only [joinPath]
    rw [List.take_of_length_le hlen]
    simp [junkName]
  refine ⟨by simp [junkName, charAt], fun _ => rfl, ?_, ?_⟩
  · rw [hpath]; exact (classify_xyz _).1
  · rw [hpath]; exact (classify_xyz _).2

/-- C7 for the host with 40000 unrecognized files: the scan ends in `appError`. -/
theorem C7_foreign_cap_aborts_witness :
    appSetRootDirectory fullBuild junkHost 1 "root".toList true (GameFS.initial []) = .appError :=
  (C7_foreign_cap_aborts fullBuild junkHost [] "root".toList ((List.range 40000).map junkName)
    0 true (by decide) (by decide) junkHost_lists).2.2.2.2.2 (by simp)

/-! ## C8 -/

/-- C8: when a regular candidate has a container extension and the attach
fails, `RegisterGameFile` returns and leaves the whole state as it was (the
same entries, the same package and foreign counters); with the registry below
capacity, which is when the attach is attempted, it returns `true`
(continue), so the scan is neither stopped nor aborted. -/
theorem C8_failed_attach_is_ignored (cfg : BuildConfig) (host : Host) (FullName : CStr)
    (st : GameFS) (hext : isContainerName cfg FullName = true)
    (hfail : host.attachObb FullName = none) :
    (∃ r, RegisterGameFile cfg host FullName none st = .ret r st)
    ∧ (st.GNumGameFiles < MAX_GAME_FILES →
        RegisterGameFile cfg host FullName none st = .ret true st) := by
  have hbelow : st.GNumGameFiles < MAX_GAME_FILES →
      RegisterGameFile cfg host FullName none st = .ret true st := by
    intro hcap
    have hcap' : ¬ (st.GameFiles.length ≥ MAX_GAME_FILES) := Nat.not_le.mpr hcap
    simp only [RegisterGameFile, hcap', if_false]
    simp only [isContainerName] at hext
    cases hs : strrchr FullName '.' with
    | none => simp [hs] at hext
    | some ext =>
      rw [hs] at hext
      have hext' : (cfg.SUPPORT_ANDROID && stricmp (List.drop 1 ext) "obb".toList) = true := hext
      simp only [hext', if_true, hfail]
  refine ⟨?_, hbelow⟩
  by_cases hcap : st.GNumGameFiles < MAX_GAME_FILES
  · exact ⟨true, hbelow hcap⟩
  · exact ⟨false, RegisterGameFile_full cfg host FullName none st (Nat.not_lt.mp hcap)⟩

/-- C8 on `root/main.obb` of a host where the attach fails; the scan of that
root goes on and registers `a.upk`. -/
theorem C8_failed_attach_is_ignored_witness :
    RegisterGameFile fullBuild brokenObbHost "root/main.obb".toList none
        (GameFS.initial "root".toList) = .ret true (GameFS.initial "root".toList)
    ∧ (appSetRootDirectory fullBuild brokenObbHost 1 "root".toList true
        (GameFS.initial [])).state.map
        (fun s => (s.GameFiles.map (fun e => e.RelativeName), s.GNumForeignFiles))
        = some (["a.upk".toList], 0) :=
  ⟨(C8_failed_attach_is_ignored fullBuild brokenObbHost "root/main.obb".toList
    (GameFS.initial "root".toList) (by decide) (by decide)).2 (by decide), by decide⟩

/-! ## Mounted containers -/

theorem FindExtension_of_container {cfg : BuildConfig} {name : CStr} (T : List CStr)
    (hT : ∀ t ∈ T, stricmp "obb".toList t = false)
    (h : isContainerName cfg name = true) : FindExtension name T = false := by
  simp only [isContainerName] at h
  cases hs : strrchr name '.' with
  | none => simp [FindExtension, hs]
  | some ext =>
    rw [hs] at h
    have h2 : stricmp (List.drop 1 ext) "obb".toList = true := by
      have h' : (cfg.SUPPORT_ANDROID && stricmp (List.drop 1 ext) "obb".toList) = true := h
      simp only [Bool.and_eq_true] at h'
      exact h'.2
    simp only [FindExtension, hs, List.any_eq_false]
    intro t ht habs
    have h3 := hT t ht
    simp only [stricmp, beq_iff_eq] at h2 habs
    simp only [stricmp, beq_eq_false_iff_ne, ne_eq] at h3
    exact h3 (h2.symm.trans habs)

/-- A name with a container extension is in no table. -/
theorem classify_of_container {cfg : BuildConfig} {name : CStr}
    (h : isContainerName cfg name = true) : classify cfg name = .Unknown := by
  have h1 : ∀ t ∈ PackageExtensions fullBuild, stricmp "obb".toList t = false := by decide
  have h2 : ∀ t ∈ KnownExtensions fullBuild, stricmp "obb".toList t = false := by decide
  have h3 : ∀ t ∈ SkipExtensions, stricmp "obb".toList t = false := by decide
  apply (classify_iff cfg name).2.2.2.mpr
  refine ⟨FindExtension_of_container _ (fun t ht => h1 t (PackageExtensions_subset cfg t ht)) h,
    ?_, FindExtension_of_container _ h3 h⟩
  rw [FindExtension_of_container _ (fun t ht => h2 t (KnownExtensions_subset cfg t ht)) h]
  simp

/-- A regular candidate with a container extension whose attach succeeds is
replaced by the files the container reports. -/
theorem RegisterGameFile_mounted (cfg : BuildConfig) (host : Host) (FullName : CStr)
    (st : GameFS) (vfs : FVirtualFileSystem) (hcap : st.GNumGameFiles < MAX_GAME_FILES)
    (hext : isContainerName cfg FullName = true) (hatt : host.attachObb FullName = some vfs) :
    RegisterGameFile cfg host FullName none st = registerVfsFiles cfg host vfs vfs.FileNames st := by
  have hcap' : ¬ (st.GameFiles.length ≥ MAX_GAME_FILES) := Nat.not_le.mpr hcap
  simp only [RegisterGameFile, hcap', if_false]
  simp only [isContainerName] at hext
  cases hs : strrchr FullName '.' with
  | none => simp [hs] at hext
  | some ext =>
    rw [hs] at hext
    have hext' : (cfg.SUPPORT_ANDROID && stricmp (List.drop 1 ext) "obb".toList) = true := hext
    simp only [hext', if_true, hatt]

theorem registerVfsFiles_eq_registerReported (cfg : BuildConfig) (host : Host)
    (vfs : FVirtualFileSystem) (names : List CStr) (st : GameFS) :
    registerVfsFiles cfg host vfs names st = registerReported cfg host vfs names st := by
  induction names generalizing st with
  | nil => rfl
  | cons n ns ih =>
    simp only [registerVfsFiles, registerReported, RegisterGameFile]
    cases RegisterGameFileVfs cfg host n vfs st with
    | ret r st1 => cases r <;> simp [ih]
    | appError => rfl
    | assertFailed => rfl
    | outOfFuel => rfl

/-- A call for a file of a container does not consult the host. -/
theorem RegisterGameFile_vfs_host (cfg : BuildConfig) (host host2 : Host) (name : CStr)
    (vfs : FVirtualFileSystem) (st : GameFS) :
    RegisterGameFile cfg host2 name (some vfs) st = RegisterGameFile cfg host name (some vfs) st := by
  simp [RegisterGameFile, RegisterGameFileVfs, registerEntry, createEntry]

/-! ## C9 -/

set_option maxRecDepth 100000 in
/-- C9 as stated fails for reported paths that do not fit the `RelativeName`
buffer: the container `root/main.obb` reports one path of 259 characters, and
the entry created for it has the first 255 characters as its `RelativeName`,
not the reported path. -/
theorem C9_counterexample :
    truncatingHost.attachObb "root/main.obb".toList
        = some { files := [(List.replicate 251 'a' ++ ".upk.tfc".toList, 10)] }
    ∧ (RegisterGameFile fullBuild truncatingHost "root/main.obb".toList none
        (GameFS.initial "root".toList)).files.map (fun e => e.RelativeName)
        = [List.replicate 251 'a' ++ ".upk".toList]
    ∧ List.replicate 251 'a' ++ ".upk".toList ≠ List.replicate 251 'a' ++ ".upk.tfc".toList := by
  decide

/-- C9 (amended): when a regular candidate has a container extension and the
attach succeeds, with the registry below capacity, then (1) the call does what
registering the reported names in index order, each with the mount as owning
mount, does; (2) such a call for a reported name never consults the host, so
nothing is mounted; (3) a reported name that itself has a container extension
is only counted as a foreign file; (4) when the call returns, the entries it
appended are, in index order, entries made from reported names: each has
`FileSystem` equal to this mount (so none stands for the container file), is a
package iff its reported name is classified Package, and has as `RelativeName`
the first `RelativeNameSize - 1` characters of the reported path, which is the
reported path verbatim when that is shorter than the buffer; (5) `main.obb`
holding `data/level1.upk` yields exactly one entry, with `RelativeName`
`data/level1.upk`, `IsPackage = true` and that mount as `FileSystem`. -/
theorem C9_mounted_container_contents (cfg : BuildConfig) (host : Host) (FullName : CStr)
    (st : GameFS) (vfs : FVirtualFileSystem) (hcap : st.GNumGameFiles < MAX_GAME_FILES)
    (hext : isContainerName cfg FullName = true) (hatt : host.attachObb FullName = some vfs) :
    RegisterGameFile cfg host FullName none st = registerReported cfg host vfs vfs.FileNames st
    ∧ (∀ host2 name st0,
        RegisterGameFile cfg host2 name (some vfs) st0
          = RegisterGameFile cfg host name (some vfs) st0)
    ∧ (∀ name st0, isContainerName cfg name = true → st0.GNumGameFiles < MAX_GAME_FILES →
        st0.GNumForeignFiles + 1 < MAX_FOREIGN_FILES →
        RegisterGameFile cfg host name (some vfs) st0
          = .ret true { st0 with GNumForeignFiles := st0.GNumForeignFiles + 1 })
    ∧ (∀ r st1, RegisterGameFile cfg host FullName none st = .ret r st1 →
        ∃ new, st1.GameFiles = st.GameFiles ++ new
          ∧ new.Sublist (vfs.FileNames.map fun name =>
              mkInfo cfg name (FindExtension name (PackageExtensions cfg))
                (vfs.GetFileSize name) (some vfs))
          ∧ ∀ e ∈ new, e.FileSystem = some vfs
              ∧ ∃ name ∈ vfs.FileNames,
                  e.RelativeName = appStrncpyz name cfg.RelativeNameSize
                  ∧ (name.length < cfg.RelativeNameSize → e.RelativeName = name)
                  ∧ (e.IsPackage = true ↔ classify cfg name = .Package))
    ∧ ((appSetRootDirectory fullBuild obbHost 1 "root".toList true (GameFS.initial [])).files.map
        (fun e => (e.RelativeName, e.IsPackage, e.FileSystem))
        = [("data/level1.upk".toList, true, some level1Vfs)]) := by
  have hrun := RegisterGameFile_mounted cfg host FullName st vfs hcap hext hatt
  refine ⟨by rw [hrun, registerVfsFiles_eq_registerReported],
    fun host2 name st0 => RegisterGameFile_vfs_host cfg host host2 name vfs st0, ?_, ?_,
    by decide⟩
  · intro name st0 hc hcap0 hfor
    rw [RegisterGameFile_unknown cfg host name (some vfs) st0 hcap0 (Or.inl (by simp))
      (classify_of_container hc)]
    simp only [ge_iff_le, Nat.not_le.mpr hfor, if_false]
  · intro r st1 hret
    rw [hrun] at hret
    obtain ⟨-, ⟨new, hnew, hsub⟩, -, -⟩ := registerVfsFiles_ret hret
    refine ⟨new, hnew, hsub, ?_⟩
    intro e he
    obtain ⟨name, hname, rfl⟩ := List.mem_map.mp (hsub.subset he)
    refine ⟨rfl, name, hname, rfl, ?_, ?_⟩
    · intro hfit
      exact List.take_of_length_le (by omega)
    · exact (classify_iff cfg name).1.symm

/-- C9 (amended) on the container of scenario 3. -/
theorem C9_mounted_container_contents_witness :
    RegisterGameFile fullBuild obbHost "root/main.obb".toList none (GameFS.initial "root".toList)
      = registerReported fullBuild obbHost level1Vfs level1Vfs.FileNames
          (GameFS.initial "root".toList) :=
  (C9_mounted_container_contents fullBuild obbHost "root/main.obb".toList
    (GameFS.initial "root".toList) level1Vfs (by decide) (by decide) (by decide)).1

/-! ## C10 -/

/-- C10: for every non-empty content `root` of `RootDirectory` and every string
`x`, `appSkipRootDir(root + "/" + x)` is `x`; the same holds when the separator
is a backslash. It holds in particular for every `x` that does not start with
a separator. -/
theorem C10_skip_root_of_joined (root x : CStr) (sep : Char) (hroot : root ≠ [])
    (hsep : sep = '/' ∨ sep = '\\') :
    appSkipRootDir root (root ++ sep :: x) = x := by
  have hloop : ∀ r : CStr, skipRootLoop r (r ++ sep :: x) = some x := by
    intro r
    induction r with
    | nil => rcases hsep with rfl | rfl <;> simp [skipRootLoop]
    | cons c cs ih => simp [skipRootLoop, ih]
  simp only [appSkipRootDir, hroot, if_false]
  rw [hloop root]

/-- C10 at root `C:/game` and `Maps/level.umap`. -/
theorem C10_skip_root_of_joined_witness :
    appSkipRootDir "C:/game".toList ("C:/game".toList ++ '/' :: "Maps/level.umap".toList)
      = "Maps/level.umap".toList :=
  C10_skip_root_of_joined "C:/game".toList "Maps/level.umap".toList '/' (by decide) (Or.inl rfl)


/-! ## C11 -/

/-- The character as `appSkipRootDir` compares it. -/
theorem replaceSlashes_cons (c : Char) (cs : CStr) :
    replaceSlashes (c :: cs) = (if c = '\\' then '/' else c) :: replaceSlashes cs := rfl

/-- When the loop of `appSkipRootDir` returns a pointer into the name. -/
theorem skipRootLoop_eq_some (root path rest : CStr) :
    skipRootLoop root path = some rest ↔
      ∃ pre sep, path = pre ++ sep :: rest ∧ replaceSlashes pre = replaceSlashes root
        ∧ (sep = '/' ∨ sep = '\\') := by
  induction root generalizing path with
  | nil =>
    cases path with
    | nil =>
      simp only [skipRootLoop]
      constructor
      · intro h; cases h
      · rintro ⟨pre, sep, h, -, -⟩
        cases pre <;> simp at h
    | cons c cs =>
      simp only [skipRootLoop]
      constructor
      · intro h
        by_cases hc : c = '\\'
        · simp only [hc, if_true, Option.some.injEq] at h
          exact ⟨[], c, by simp [h], rfl, Or.inr hc⟩
        · simp only [hc, if_false] at h
          by_cases hs : c = '/'
          · simp only [hs, if_true, Option.some.injEq] at h
            exact ⟨[], c, by simp [h], rfl, Or.inl hs⟩
          · simp [hs] at h
      · rintro ⟨pre, sep, h, hpre, hsep⟩
        cases pre with
        | cons x xs => simp [replaceSlashes] at hpre
        | nil =>
          simp only [List.nil_append, List.cons.injEq] at h
          obtain ⟨rfl, rfl⟩ := h
          rcases hsep with rfl | rfl <;> simp
  | cons r rs ih =>
    cases path with
    | nil =>
      simp only [skipRootLoop]
      constructor
      · intro h; cases h
      · rintro ⟨pre, sep, h, -, -⟩
        cases pre <;> simp at h
    | cons c cs =>
      simp only [skipRootLoop]
      by_cases hne : (if r = '\\' then '/' else r) ≠ (if c = '\\' then '/' else c)
      · rw [if_pos hne]
        constructor
        · intro h; cases h
        · rintro ⟨pre, sep, h, hpre, -⟩
          cases pre with
          | nil => simp [replaceSlashes] at hpre
          | cons x xs =>
            simp only [List.cons_append, List.cons.injEq] at h
            rw [replaceSlashes_cons, replaceSlashes_cons, List.cons.injEq] at hpre
            exact absurd (h.1 ▸ hpre.1.symm) hne
      · rw [if_neg hne, ih cs]
        have heq : (if r = '\\' then '/' else r) = (if c = '\\' then '/' else c) := by
          by_contra h; exact hne h
        constructor
        · rintro ⟨pre, sep, h, hpre, hsep⟩
          refine ⟨c :: pre, sep, by simp [h], ?_, hsep⟩
          rw [replaceSlashes_cons, replaceSlashes_cons, hpre, heq]
        · rintro ⟨pre, sep, h, hpre, hsep⟩
          cases pre with
          | nil => simp [replaceSlashes] at hpre
          | cons x xs =>
            simp only [List.cons_append, List.cons.injEq] at h
            rw [replaceSlashes_cons, replaceSlashes_cons, List.cons.injEq] at hpre
            exact ⟨xs, sep, h.2, hpre.2, hsep⟩

/-- C11 as stated fails when root and path differ in the kind of separator:
with root `C:/game` and path `C:\game\x.upk` the root is not a prefix of the
path, yet `appSkipRootDir` does not return the path but `x.upk`. -/
theorem C11_counterexample :
    List.isPrefixOf "C:/game".toList "C:\\game\\x.upk".toList = false
    ∧ appSkipRootDir "C:/game".toList "C:\\game\\x.upk".toList = "x.upk".toList
    ∧ appSkipRootDir "C:/game".toList "C:\\game\\x.upk".toList ≠ "C:\\game\\x.upk".toList := by
  decide

/-- C11 (amended): with no root configured `appSkipRootDir` returns the path;
with a root it returns the remainder of the path behind the separator when the
path is `pre`, a separator (`/` or backslash) and a remainder, where `pre`
equals the root once every backslash is read as `/` in both; in every other
case it returns the path itself. In particular, for a root and a path without
backslash, the remainder is returned exactly when the path is the root, `/`
and the remainder. -/
theorem C11_skip_root_characterised (root path : CStr) :
    (root = [] → appSkipRootDir root path = path)
    ∧ (root ≠ [] → ∀ pre sep rest, path = pre ++ sep :: rest →
        replaceSlashes pre = replaceSlashes root → (sep = '/' ∨ sep = '\\') →
        appSkipRootDir root path = rest)
    ∧ (root ≠ [] →
        (¬ ∃ pre sep rest, path = pre ++ sep :: rest
          ∧ replaceSlashes pre = replaceSlashes root ∧ (sep = '/' ∨ sep = '\\')) →
        appSkipRootDir root path = path)
    ∧ (root ≠ [] → '\\' ∉ root → '\\' ∉ path →
        (∀ rest, path = root ++ '/' :: rest → appSkipRootDir root path = rest)
        ∧ ((¬ ∃ rest, path = root ++ '/' :: rest) → appSkipRootDir root path = path)) := by
  have hsome : root ≠ [] → ∀ pre sep rest, path = pre ++ sep :: rest →
      replaceSlashes pre = replaceSlashes root → (sep = '/' ∨ sep = '\\') →
      appSkipRootDir root path = rest := by
    intro hroot pre sep rest hp hpre hsep
    have := (skipRootLoop_eq_some root path rest).mpr ⟨pre, sep, hp, hpre, hsep⟩
    simp only [appSkipRootDir, hroot, if_false, this]
  have hnone : root ≠ [] →
      (¬ ∃ pre sep rest, path = pre ++ sep :: rest
        ∧ replaceSlashes pre = replaceSlashes root ∧ (sep = '/' ∨ sep = '\\')) →
      appSkipRootDir root path = path := by
    intro hroot hno
    simp only [appSkipRootDir, hroot, if_false]
    cases h : skipRootLoop root path with
    | none => rfl
    | some rest =>
      obtain ⟨pre, sep, h1, h2, h3⟩ := (skipRootLoop_eq_some root path rest).mp h
      exact absurd ⟨pre, sep, rest, h1, h2, h3⟩ hno
  refine ⟨fun h => by simp [appSkipRootDir, h], hsome, hnone, ?_⟩
  intro hroot hbr hbp
  refine ⟨fun rest hp => hsome hroot root '/' rest hp rfl (Or.inl rfl), ?_⟩
  intro hno
  apply hnone hroot
  rintro ⟨pre, sep, rest, hp, hpre, hsep⟩
  have hbpre : '\\' ∉ pre := fun hm => hbp (by rw [hp]; simp [hm])
  rw [replaceSlashes_of_not_mem hbpre, replaceSlashes_of_not_mem hbr] at hpre
  have hsep' : sep = '/' := by
    rcases hsep with h | h
    · exact h
    · exact absurd (by rw [hp, h]; simp) hbp
  exact hno ⟨rest, by rw [hp, hpre, hsep']⟩

/-! ## Lemmas on root detection -/

theorem dirPath_strrchr (first a : CStr) (anc : List CStr) (ha : '/' ∉ a) :
    strrchr (dirPath first (a :: anc)) '/' = some ('/' :: a) :=
  strrchr_split ha

theorem dirPath_cut (first a : CStr) (anc : List CStr) :
    (dirPath first (a :: anc)).take ((dirPath first (a :: anc)).length - ('/' :: a).length)
      = dirPath first anc := by
  simp only [dirPath, List.length_append, List.length_cons, Nat.add_sub_cancel]
  exact List.take_left' rfl

/-- One round of the loop of `appSetRootDirectory2` on a path whose last
component is `a`. -/
theorem rootLoop_cons (cfg : BuildConfig) (n : Nat) (fst : Bool) (first a : CStr)
    (anc : List CStr) (d : RootDetection) (ha : '/' ∉ a) :
    rootLoop cfg (n + 1) fst (dirPath first (a :: anc)) d =
      if hasMarker a then
        if (if (fst && isKnownDir cfg a) = true ∧ d.detected < 1 then 1 else d.detected) < 2 then
          { root := dirPath first (a :: anc), detected := 2,
            pCooked := appStristr a "Cooked".toList }
        else rootLoop cfg n false (dirPath first (a :: anc))
          { (if (fst && isKnownDir cfg a) = true ∧ d.detected < 1
              then { d with detected := 1, root := dirPath first anc } else d)
            with pCooked := appStristr a "Cooked".toList }
      else rootLoop cfg n false (dirPath first anc)
        { (if (fst && isKnownDir cfg a) = true ∧ d.detected < 1
            then { d with detected := 1, root := dirPath first anc } else d)
          with pCooked := appStristr a "Cooked".toList } := by
  rw [rootLoop, dirPath_strrchr first a anc ha]
  simp only [dirPath_cut, List.drop_one, List.tail_cons, hasMarker, isKnownDir]
  by_cases hk : ((fst && (KnownDirs2 cfg).any fun k => stricmp k a) = true ∧ d.detected < 1)
  · simp only [hk, and_self, if_true]
  · simp only [hk, if_false]

theorem rootLoop_nil (cfg : BuildConfig) (n : Nat) (fst : Bool) (first : CStr)
    (d : RootDetection) (hf : '/' ∉ first) :
    rootLoop cfg n fst (dirPath first []) d = d := by
  cases n with
  | zero => rfl
  | succ m => rw [rootLoop, dirPath, strrchr_eq_none.mpr hf]

/-- Rounds over names without marker, after the first round, keep the root
and the weight. -/
theorem rootLoop_no_marker (cfg : BuildConfig) (first : CStr) (hf : '/' ∉ first)
    (n : Nat) (anc : List CStr) (d : RootDetection) (hanc : ∀ a ∈ anc, '/' ∉ a)
    (hno : ∀ a ∈ anc.take n, hasMarker a = false) :
    (rootLoop cfg n false (dirPath first anc) d).root = d.root
      ∧ (rootLoop cfg n false (dirPath first anc) d).detected = d.detected := by
  induction n generalizing anc d with
  | zero => exact ⟨rfl, rfl⟩
  | succ m ih =>
    cases anc with
    | nil => rw [rootLoop_nil cfg _ _ first d hf]; exact ⟨rfl, rfl⟩
    | cons a rest =>
      rw [rootLoop_cons cfg m false first a rest d (hanc a (by simp)),
        hno a (by simp)]
      simp only [Bool.false_eq_true, if_false, Bool.false_and, false_and]
      exact ih rest _ (fun x hx => hanc x (by simp [hx]))
        (fun x hx => hno x (by simp [hx]))

/-- Rounds after the first one stop at the nearest name with a marker and take
the path up to and including it as the root. -/
theorem rootLoop_marker (cfg : BuildConfig) (first : CStr)
    (pre : List CStr) (a : CStr) (post : List CStr) (n : Nat) (d : RootDetection)
    (hanc : ∀ x ∈ pre ++ a :: post, '/' ∉ x) (hlen : pre.length < n)
    (hpre : ∀ x ∈ pre, hasMarker x = false) (ha : hasMarker a = true)
    (hd : d.detected < 2) :
    (rootLoop cfg n false (dirPath first (pre ++ a :: post)) d).root = dirPath first (a :: post)
      ∧ (rootLoop cfg n false (dirPath first (pre ++ a :: post)) d).detected = 2 := by
  induction pre generalizing n d with
  | nil =>
    cases n with
    | zero => simp at hlen
    | succ m =>
      rw [List.nil_append, rootLoop_cons cfg m false first a post d (hanc a (by simp)), ha]
      simp only [Bool.false_and, Bool.false_eq_true, false_and, if_false, if_true, hd]
      simp
  | cons x xs ih =>
    cases n with
    | zero => simp at hlen
    | succ m =>
      rw [List.cons_append, rootLoop_cons cfg m false first x (xs ++ a :: post) d
        (hanc x (by simp)), hpre x (by simp)]
      simp only [Bool.false_eq_true, if_false, Bool.false_and, false_and]
      exact ih m _ (fun y hy => hanc y (by simp at hy ⊢; tauto))
        (by simp only [List.length_cons] at hlen; omega)
        (fun y hy => hpre y (by simp [hy])) hd

/-- The detection runs the loop on the directory part of the name. -/
theorem detectRoot_dirPath (cfg : BuildConfig) (filename first file : CStr)
    (anc : List CStr) (hlen : filename.length ≤ 255)
    (hpath : replaceSlashes filename = dirPath first anc ++ '/' :: file)
    (hfile : '/' ∉ file) :
    detectRoot cfg filename =
      some (rootLoop cfg 8 true (dirPath first anc)
        { root := dirPath first anc, detected := 0, pCooked := none }) := by
  have hcut : appStrncpyz filename 256 = filename :=
    List.take_of_length_le (by simpa using hlen)
  simp only [detectRoot, hcut, hpath, strrchr_split hfile]
  simp only [List.length_append, List.length_cons, Nat.add_sub_cancel]
  rw [List.take_left' rfl]

/-- What the modelled search finds: `sub` begins, ignoring case, at some
offset of `s`. -/
theorem appStristr_isSome (s sub : CStr) :
    (appStristr s sub).isSome = true ↔ ∃ k, k ≤ s.length ∧ beginsNoCase (s.drop k) sub = true := by
  induction s with
  | nil =>
    cases sub with
    | nil => simp [appStristr, beginsNoCase, stricmp]
    | cons y ys => simp [appStristr, beginsNoCase, stricmp]
  | cons c cs ih =>
    have hhead : strnicmp (c :: cs) sub sub.length = beginsNoCase (c :: cs) sub := by
      simp [strnicmp, beginsNoCase]
    simp only [appStristr, hhead]
    by_cases hb : beginsNoCase (c :: cs) sub = true
    · simp only [hb, if_true, Option.isSome_some, true_iff]
      exact ⟨0, by simp, by simpa using hb⟩
    · simp only [hb, Bool.false_eq_true, if_false, ih]
      constructor
      · rintro ⟨k, hk, hbk⟩
        exact ⟨k + 1, by simp only [List.length_cons]; omega, by simpa using hbk⟩
      · rintro ⟨k, hk, hbk⟩
        cases k with
        | zero => exact absurd (by simpa using hbk) hb
        | succ j =>
          exact ⟨j, by simp only [List.length_cons] at hk; omega, by simpa using hbk⟩

/-! ## C12 -/

set_option maxRecDepth 100000 in
/-- C12 as stated fails in two ways. (1) A path longer than the 256-byte
buffer: in `/x/<250 letters>/Content/f.upk` the parent directory is `Content`,
but the copy in `buf` ends after `/x/<250 letters>/C`, so the detection falls
back to `/x/<250 letters>` without recursion. (2) In `Content/x.upk` the
directory `Content` is not preceded by a `/`, the loop stops before it looks
at the name, and the result is the root `Content` without recursion. -/
theorem C12_counterexample :
    (longContentPath
        = dirPath [] ["Content".toList, List.replicate 250 'a', "x".toList] ++ "/f.upk".toList
      ∧ hasMarker "Content".toList = true
      ∧ detectRoot fullBuild longContentPath
        = some { root := "/x/".toList ++ List.replicate 250 'a', detected := 0, pCooked := none })
    ∧ detectRoot fullBuild "Content/x.upk".toList
        = some { root := "Content".toList, detected := 0, pCooked := none } := by
  decide

/-- C12 (amended): for every input file path of at most 255 characters that,
with backslashes read as `/`, is a directory path, a `/` and a file name: if
some ancestor directory among the first 8 levels above the file is preceded by
a `/` and has a name that contains `Cooked` or `Content` ignoring case, then
the detected root is the path up to and including the nearest such ancestor
and the weight is 2, so `appSetRootDirectory` is called with that root and
with recursion, whether or not the parent directory has a well-known name. -/
theorem C12_strong_signal_root (cfg : BuildConfig) (host : Host) (fuel : Nat) (st : GameFS)
    (filename first file : CStr) (pre : List CStr) (a : CStr) (post : List CStr)
    (hlen : filename.length ≤ 255)
    (hpath : replaceSlashes filename = dirPath first (pre ++ a :: post) ++ '/' :: file)
    (hfile : '/' ∉ file) (hanc : ∀ x ∈ pre ++ a :: post, '/' ∉ x)
    (hk : pre.length < 8) (hpre : ∀ x ∈ pre, hasMarker x = false)
    (ha : hasMarker a = true) :
    ∃ d, detectRoot cfg filename = some d
      ∧ d.root = dirPath first (a :: post) ∧ d.detected = 2
      ∧ appSetRootDirectory2 cfg host fuel filename st
          = some (appSetRootDirectory cfg host fuel (dirPath first (a :: post)) true st) := by
  have hrun := detectRoot_dirPath cfg filename first file (pre ++ a :: post) hlen hpath hfile
  have hres : (rootLoop cfg 8 true (dirPath first (pre ++ a :: post))
        { root := dirPath first (pre ++ a :: post), detected := 0, pCooked := none }).root
        = dirPath first (a :: post)
      ∧ (rootLoop cfg 8 true (dirPath first (pre ++ a :: post))
        { root := dirPath first (pre ++ a :: post), detected := 0, pCooked := none }).detected
        = 2 := by
    cases pre with
    | nil =>
      rw [List.nil_append, rootLoop_cons cfg 7 true first a post _ (hanc a (by simp)), ha]
      simp only [if_true]
      by_cases hw : (true && isKnownDir cfg a) = true ∧ (0 : Nat) < 1
      · simp only [hw, and_self, if_true]
        exact ⟨rfl, rfl⟩
      · simp only [hw, if_false]
        exact ⟨rfl, rfl⟩
    | cons x xs =>
      rw [List.cons_append, rootLoop_cons cfg 7 true first x (xs ++ a :: post) _
        (hanc x (by simp)), hpre x (by simp)]
      simp only [Bool.false_eq_true, if_false]
      apply rootLoop_marker cfg first xs a post 7 _
        (fun y hy => hanc y (by simp at hy ⊢; tauto))
        (by simp only [List.length_cons] at hk; omega)
        (fun y hy => hpre y (by simp [hy])) ha
      by_cases hw : (true && isKnownDir cfg x) = true ∧ (0 : Nat) < 1
      · simp only [hw, and_self, if_true]; decide
      · simp only [hw, if_false]; decide
  refine ⟨_, hrun, hres.1, hres.2, ?_⟩
  simp only [appSetRootDirectory2, hrun, hres.1, hres.2]
  rfl

/-- C12 (amended) on `/a/b/CookedPS3/Maps/level.umap`: the root is
`/a/b/CookedPS3`, with recursion; the platform read off the name is PS3. -/
theorem C12_strong_signal_root_witness :
    ∃ d, detectRoot fullBuild "/a/b/CookedPS3/Maps/level.umap".toList = some d
      ∧ d.root = "/a/b/CookedPS3".toList ∧ d.detected = 2
      ∧ detectPlatform .PLATFORM_UNKNOWN d.pCooked = .PLATFORM_PS3 := by
  obtain ⟨d, h1, h2, h3, -⟩ := C12_strong_signal_root fullBuild startupHost 1
    (GameFS.initial []) "/a/b/CookedPS3/Maps/level.umap".toList [] "level.umap".toList
    ["Maps".toList] "CookedPS3".toList ["b".toList, "a".toList]
    (by decide) (by decide) (by decide) (by decide) (by decide) (by decide) (by decide)
  refine ⟨d, h1, h2.trans (by decide), h3, ?_⟩
  have hd : detectRoot fullBuild "/a/b/CookedPS3/Maps/level.umap".toList
      = some { root := "/a/b/CookedPS3".toList, detected := 2,
               pCooked := some "CookedPS3".toList } := by decide
  rw [hd] at h1
  cases h1
  decide

/-! ## C13 -/

set_option maxRecDepth 100000 in
/-- C13 as stated fails for a path longer than the 256-byte buffer: in
`/a/<260 letters>/f.upk` no directory name is well known or has a marker, but
the copy in `buf` ends inside the long name, the "file name" that is cut off is
the rest of that name, and the detected root is `/a`, not the parent directory
of the file. -/
theorem C13_counterexample :
    longDirPath = dirPath [] [List.replicate 260 'b', "a".toList] ++ "/f.upk".toList
    ∧ isKnownDir fullBuild (List.replicate 260 'b') = false
    ∧ hasMarker (List.replicate 260 'b') = false ∧ hasMarker "a".toList = false
    ∧ detectRoot fullBuild longDirPath
        = some { root := "/a".toList, detected := 0, pCooked := none }
    ∧ "/a".toList ≠ dirPath [] [List.replicate 260 'b', "a".toList] := by
  decide

/-- C13 (amended): for every input file path of at most 255 characters that,
with backslashes read as `/`, is a directory path, a `/` and a file name: if
the parent directory's name is not a well-known leaf name and none of the
first 8 ancestor directory names has a marker (whatever the names farther up
are), the detected root is the parent directory of the file and the weight is
0, so `appSetRootDirectory` is called with that directory and without
recursion. -/
theorem C13_fallback_root (cfg : BuildConfig) (host : Host) (fuel : Nat) (st : GameFS)
    (filename first file : CStr) (anc : List CStr)
    (hlen : filename.length ≤ 255)
    (hpath : replaceSlashes filename = dirPath first anc ++ '/' :: file)
    (hfile : '/' ∉ file) (hfirst : '/' ∉ first) (hanc : ∀ x ∈ anc, '/' ∉ x)
    (hweak : ∀ a, anc.head? = some a → isKnownDir cfg a = false)
    (hno : ∀ x ∈ anc.take 8, hasMarker x = false) :
    ∃ d, detectRoot cfg filename = some d
      ∧ d.root = dirPath first anc ∧ d.detected = 0
      ∧ appSetRootDirectory2 cfg host fuel filename st
          = some (appSetRootDirectory cfg host fuel (dirPath first anc) false st) := by
  have hrun := detectRoot_dirPath cfg filename first file anc hlen hpath hfile
  have hres : (rootLoop cfg 8 true (dirPath first anc)
        { root := dirPath first anc, detected := 0, pCooked := none }).root = dirPath first anc
      ∧ (rootLoop cfg 8 true (dirPath first anc)
        { root := dirPath first anc, detected := 0, pCooked := none }).detected = 0 := by
    cases anc with
    | nil => rw [rootLoop_nil cfg 8 true first _ hfirst]; exact ⟨rfl, rfl⟩
    | cons a rest =>
      rw [rootLoop_cons cfg 7 true first a rest _ (hanc a (by simp)), hno a (by simp),
        hweak a rfl]
      simp only [Bool.false_eq_true, if_false, Bool.and_false, false_and]
      exact rootLoop_no_marker cfg first hfirst 7 rest _ (fun x hx => hanc x (by simp [hx]))
        (fun x hx => hno x (by simp [hx]))
  refine ⟨_, hrun, hres.1, hres.2, ?_⟩
  simp only [appSetRootDirectory2, hrun, hres.1, hres.2]
  rfl

/-- C13 (amended) on a path whose ninth ancestor is `Content`: the root is the
parent directory of the file, without recursion. -/
theorem C13_fallback_root_witness :
    ∃ d, detectRoot fullBuild "/Content/1/2/3/4/5/6/7/8/x.upk".toList = some d
      ∧ d.root = "/Content/1/2/3/4/5/6/7/8".toList ∧ d.detected = 0 := by
  obtain ⟨d, h1, h2, h3, -⟩ := C13_fallback_root fullBuild startupHost 1
    (GameFS.initial []) "/Content/1/2/3/4/5/6/7/8/x.upk".toList [] "x.upk".toList
    ["8".toList, "7".toList, "6".toList, "5".toList, "4".toList, "3".toList, "2".toList,
      "1".toList, "Content".toList]
    (by decide) (by decide) (by decide) (by decide) (by decide) (by decide) (by decide)
  exact ⟨d, h1, h2.trans (by decide), h3⟩

/-! ## C18 -/

/-- C18 as stated fails: for `/game/Maps/x.unr` the parent directory `Maps` is
a well-known name and no name has a marker, and the detected root is `/game`,
the directory that holds `Maps`, not `/game/Maps`. -/
theorem C18_counterexample :
    isKnownDir fullBuild "Maps".toList = true
    ∧ hasMarker "Maps".toList = false ∧ hasMarker "game".toList = false
    ∧ detectRoot fullBuild "/game/Maps/x.unr".toList
        = some { root := "/game".toList, detected := 1, pCooked := none }
    ∧ "/game".toList ≠ "/game/Maps".toList := by
  decide

/-- C18 (amended): for every input file path of at most 255 characters that,
with backslashes read as `/`, is a directory path, a `/` and a file name: if
the parent directory is preceded by a `/` and its name equals, ignoring case, a
well-known leaf name, and none of the first 8 ancestor directory names has a
marker, the detected root is the part of the path before the `/` that precedes
the matched name (the directory that holds the matched directory) and the
weight is 1, so `appSetRootDirectory` is called with it and with recursion. -/
theorem C18_weak_signal_root (cfg : BuildConfig) (host : Host) (fuel : Nat) (st : GameFS)
    (filename first file a : CStr) (post : List CStr)
    (hlen : filename.length ≤ 255)
    (hpath : replaceSlashes filename = dirPath first (a :: post) ++ '/' :: file)
    (hfile : '/' ∉ file) (hfirst : '/' ∉ first) (hanc : ∀ x ∈ a :: post, '/' ∉ x)
    (hweak : isKnownDir cfg a = true)
    (hno : ∀ x ∈ (a :: post).take 8, hasMarker x = false) :
    ∃ d, detectRoot cfg filename = some d
      ∧ d.root = dirPath first post ∧ d.detected = 1
      ∧ appSetRootDirectory2 cfg host fuel filename st
          = some (appSetRootDirectory cfg host fuel (dirPath first post) true st) := by
  have hrun := detectRoot_dirPath cfg filename first file (a :: post) hlen hpath hfile
  have hres : (rootLoop cfg 8 true (dirPath first (a :: post))
        { root := dirPath first (a :: post), detected := 0, pCooked := none }).root
        = dirPath first post
      ∧ (rootLoop cfg 8 true (dirPath first (a :: post))
        { root := dirPath first (a :: post), detected := 0, pCooked := none }).detected = 1 := by
    rw [rootLoop_cons cfg 7 true first a post _ (hanc a (by simp)), hno a (by simp), hweak]
    simp only [Bool.false_eq_true, if_false, Bool.and_true, true_and, Nat.lt_one_iff,
      if_true]
    exact rootLoop_no_marker cfg first hfirst 7 post _ (fun x hx => hanc x (by simp [hx]))
      (fun x hx => hno x (by simp [hx]))
  refine ⟨_, hrun, hres.1, hres.2, ?_⟩
  simp only [appSetRootDirectory2, hrun, hres.1, hres.2]
  rfl

/-- C18 (amended) on `C:\UT2004\Textures\x.utx`: the root is `C:/UT2004`,
with recursion. -/
theorem C18_weak_signal_root_witness :
    ∃ d, detectRoot fullBuild "C:\\UT2004\\Textures\\x.utx".toList = some d
      ∧ d.root = "C:/UT2004".toList ∧ d.detected = 1 := by
  obtain ⟨d, h1, h2, h3, -⟩ := C18_weak_signal_root fullBuild startupHost 1
    (GameFS.initial []) "C:\\UT2004\\Textures\\x.utx".toList "C:".toList "x.utx".toList
    "Textures".toList ["UT2004".toList]
    (by decide) (by decide) (by decide) (by decide) (by decide) (by decide) (by decide)
  exact ⟨d, h1, h2.trans (by decide), h3⟩

/-! ## C14 -/

/-- On a registry whose entries have an extension whenever a filter is given,
the enumeration visits the entries that pass the filter, in order, until a
visit signals stop. -/
theorem appEnumGameFilesWorker_visits {σ : Type} (visit : CGameFileInfo → σ → Bool × σ)
    (Ext : Option CStr) (files : List CGameFileInfo) (p : σ)
    (hext : Ext ≠ none → ∀ e ∈ files, e.Extension ≠ none) :
    appEnumGameFilesWorker visit Ext files p
      = some (visitInOrder visit (files.filter (extensionOk Ext)) p) := by
  induction files generalizing p with
  | nil => rfl
  | cons e rest ih =>
    have ih' := fun q => ih q (fun h x hx => hext h x (by simp [hx]))
    cases Ext with
    | none =>
      simp only [appEnumGameFilesWorker, List.filter, extensionOk]
      cases hp : e.IsPackage with
      | false => simpa [extensionOk] using ih' p
      | true =>
        simp only [Bool.not_true, Bool.false_eq_true, if_false, visitInOrder]
        cases hv : visit e p with
        | mk go p1 => cases go <;> simp [ih', extensionOk]
    | some x =>
      cases hx : e.Extension with
      | none => exact absurd hx (hext (by simp) e (by simp))
      | some ee =>
        simp only [appEnumGameFilesWorker, hx, List.filter, extensionOk]
        cases hs : stricmp ee x with
        | false => simpa [extensionOk] using ih' p
        | true =>
          simp only [Bool.not_true, Bool.false_eq_true, if_false, visitInOrder]
          cases hv : visit e p with
          | mk go p1 => cases go <;> simp [ih', extensionOk]

/-- What the recording callback has logged after visiting a list in order. -/
theorem visitInOrder_recordVisit (go : CGameFileInfo → Bool) (l log : List CGameFileInfo) :
    visitInOrder (recordVisit go) l log = log ++ upToFirstStop go l := by
  induction l generalizing log with
  | nil => simp [visitInOrder, upToFirstStop]
  | cons e rest ih =>
    simp only [visitInOrder, recordVisit, upToFirstStop]
    cases hg : go e with
    | true => simp [ih]
    | false => simp

theorem upToFirstStop_of_all (go : CGameFileInfo → Bool) (l : List CGameFileInfo)
    (h : ∀ e ∈ l, go e = true) : upToFirstStop go l = l := by
  induction l with
  | nil => rfl
  | cons e rest ih =>
    simp only [upToFirstStop, h e (by simp), if_true]
    rw [ih (fun x hx => h x (by simp [hx]))]

set_option maxRecDepth 100000 in
/-- C14 at the failing input: the scan of `longPackageHost` registers two
packages, the second with a null `Extension` (its name was cut before the
`.`); the enumeration with the filter `upk` visits `core.upk` and then hands
the null pointer to `stricmp`; without filter both packages are visited. On
every registry whose entries have an extension whenever a filter is given, the
visits are those of the entries that pass the filter, in registration order,
up to and including the first one on which the visit signals stop. -/
theorem C14_enumerate_null_extension :
    longPackageFiles.map (fun e => (e.Extension, e.IsPackage))
        = [(some "upk".toList, true), (none, true)]
    ∧ appEnumGameFilesWorker (recordVisit fun _ => true) (some "upk".toList)
        longPackageFiles [] = none
    ∧ appEnumGameFilesWorker (recordVisit fun _ => true) none longPackageFiles []
        = some longPackageFiles
    ∧ (∀ (go : CGameFileInfo → Bool) (Ext : Option CStr) (files : List CGameFileInfo),
        (Ext ≠ none → ∀ e ∈ files, e.Extension ≠ none) →
        appEnumGameFilesWorker (recordVisit go) Ext files []
          = some (upToFirstStop go (files.filter (extensionOk Ext)))) := by
  refine ⟨by decide, by decide, by decide, ?_⟩
  intro go Ext files hext
  rw [appEnumGameFilesWorker_visits _ _ _ _ hext, visitInOrder_recordVisit]
  rfl

/-! ## Lemmas on the paths the scanner forwards -/

/-- A call for a file of a container never fails the assertion. -/
theorem RegisterGameFileVfs_safe (cfg : BuildConfig) (host : Host) (name : CStr)
    (vfs : FVirtualFileSystem) (st : GameFS) :
    RegisterGameFileVfs cfg host name vfs st ≠ .assertFailed := by
  simp only [RegisterGameFileVfs, registerEntry, createEntry]
  repeat' split
  all_goals simp

theorem registerVfsFiles_safe (cfg : BuildConfig) (host : Host) (vfs : FVirtualFileSystem)
    (names : List CStr) (st : GameFS) :
    registerVfsFiles cfg host vfs names st ≠ .assertFailed := by
  induction names generalizing st with
  | nil => simp [registerVfsFiles]
  | cons n ns ih =>
    simp only [registerVfsFiles]
    cases h : RegisterGameFileVfs cfg host n vfs st with
    | ret r st1 => cases r <;> simp [ih]
    | appError => simp
    | assertFailed => exact absurd h (RegisterGameFileVfs_safe cfg host n vfs st)
    | outOfFuel => simp

/-- The registrar on a regular candidate `root/rel`: the assertion holds, and
every entry it appends for a regular file has `rel` as its `RelativeName`. -/
theorem RegisterGameFile_under_root (cfg : BuildConfig) (host : Host) (root rel : CStr)
    (st : GameFS) (hroot : st.RootDirectory = root) (hsz : rel.length < cfg.RelativeNameSize) :
    Result.Safe (fun st1 => st1.RootDirectory = root
        ∧ ∃ new, st1.GameFiles = st.GameFiles ++ new
          ∧ ∀ e ∈ new, e.FileSystem = none → e.RelativeName = rel)
      (RegisterGameFile cfg host (root ++ '/' :: rel) none st) := by
  cases hres : RegisterGameFile cfg host (root ++ '/' :: rel) none st with
  | appError => trivial
  | outOfFuel => trivial
  | assertFailed =>
    exfalso
    simp only [RegisterGameFile] at hres
    split at hres
    · cases hres
    · have hentry : registerEntry cfg host (root ++ '/' :: rel) none st ≠ .assertFailed := by
        subst hroot
        simp only [registerEntry, createEntry_regular]
        repeat' split
        all_goals simp
      split at hres
      · split at hres
        · split at hres
          · cases hres
          · exact registerVfsFiles_safe _ _ _ _ _ hres
        · exact hentry hres
      · exact hentry hres
  | ret r st1 =>
    obtain ⟨h1, -, -, -⟩ := RegisterGameFile_ret hres
    refine ⟨h1.trans hroot, ?_⟩
    simp only [RegisterGameFile] at hres
    have hentry : ∀ {r st1}, registerEntry cfg host (root ++ '/' :: rel) none st = .ret r st1 →
        ∃ new, st1.GameFiles = st.GameFiles ++ new
          ∧ ∀ e ∈ new, e.FileSystem = none → e.RelativeName = rel := by
      intro r st1 h
      obtain ⟨-, -, hfiles, -⟩ := registerEntry_ret h
      rcases hfiles with hf | hf
      · exact ⟨[], by simp [hf], by simp⟩
      · refine ⟨_, hf, ?_⟩
        intro e he _
        simp only [List.mem_singleton] at he
        subst he
        subst hroot
        have hst : storedName st (st.RootDirectory ++ '/' :: rel) none = rel := by
          simp [storedName]
        rw [hst, mkInfo_fits _ _ _ _ _ hsz]
    split at hres
    · simp only [Result.ret.injEq] at hres
      exact ⟨[], by simp [hres.2], by simp⟩
    · split at hres
      · split at hres
        · split at hres
          · simp only [Result.ret.injEq] at hres
            exact ⟨[], by simp [hres.2], by simp⟩
          · obtain ⟨-, ⟨new, hnew, hsub⟩, -, -⟩ := registerVfsFiles_ret hres
            refine ⟨new, hnew, ?_⟩
            intro e he hnone
            obtain ⟨name, -, rfl⟩ := List.mem_map.mp (hsub.subset he)
            simp [mkInfo] at hnone
        · exact hentry hres
      · exact hentry hres

theorem Result.Safe.mono {P Q : GameFS → Prop} {r : Result} (h : Result.Safe P r)
    (hPQ : ∀ st, P st → Q st) : Result.Safe Q r := by
  cases r with
  | ret b st => exact hPQ st h
  | appError => trivial
  | assertFailed => exact h
  | outOfFuel => trivial

/-- A path that fits the buffer `Path` is formatted whole. -/
theorem joinPath_of_fit {dir name : CStr} (h : dir.length + 1 + name.length ≤ 255) :
    joinPath dir name = dir ++ '/' :: name := by
  simp only [joinPath]
  exact List.take_of_length_le (by simp only [List.length_append, List.length_cons]; omega)

/-- A path that `appSprintf` cut fills the buffer `Path`: it has 255
characters. -/
theorem joinPath_length_lt {dir name : CStr} (h : (joinPath dir name).length < 255) :
    dir.length + 1 + name.length ≤ 255 := by
  simp only [joinPath, List.length_take, List.length_append, List.length_cons] at h
  omega

/-- Every scanned directory of fewer than 255 characters is the root, or the
root followed by `/` and more: no path on the way to it was cut. -/
theorem Scanned_shape {cfg : BuildConfig} {host : Host} {recurse : Bool} {root dir : CStr}
    (h : Scanned cfg host recurse root dir) (hlen : dir.length < 255) :
    ∃ suffix, dir = root ++ suffix ∧ (suffix = [] ∨ ∃ t, suffix = '/' :: t) := by
  induction h with
  | root => exact ⟨[], by simp, Or.inl rfl⟩
  | sub dir name _ _ _ ih =>
    have hfit := joinPath_length_lt hlen
    obtain ⟨suffix, hs, hshape⟩ := ih (by omega)
    rw [joinPath_of_fit hfit]
    refine ⟨suffix ++ '/' :: name, by rw [hs, List.append_assoc], Or.inr ?_⟩
    rcases hshape with h0 | ⟨t, ht⟩
    · exact ⟨name, by simp [h0]⟩
    · exact ⟨t ++ '/' :: name, by simp [ht]⟩

/-- Every forwarded candidate that fits the buffer is the root, a `/` and a
rest. -/
theorem Forwarded_shape {cfg : BuildConfig} {host : Host} {recurse : Bool} {root path : CStr}
    (h : ForwardedUncut cfg host recurse root path) :
    ∃ rel, path = root ++ '/' :: rel ∧ path.length ≤ 255 := by
  obtain ⟨dir, name, hdir, -, hfit, rfl⟩ := h
  obtain ⟨suffix, hs, hshape⟩ := Scanned_shape hdir (by omega)
  have hlen : (joinPath dir name).length ≤ 255 := by
    simp only [joinPath, List.length_take]
    exact Nat.min_le_left _ _
  rw [joinPath_of_fit hfit] at hlen ⊢
  rcases hshape with h0 | ⟨t, ht⟩
  · exact ⟨name, by simp [hs, h0], hlen⟩
  · exact ⟨t ++ '/' :: name, by simp [hs, ht], hlen⟩

/-- The registrar on a forwarded candidate that fits the buffer keeps the
invariant of the scan. -/
theorem RegisterGameFile_forwarded (cfg : BuildConfig) (host : Host) (recurse : Bool)
    (root path : CStr) (st : GameFS)
    (hsz : 255 ≤ cfg.RelativeNameSize) (hun : ForwardedUncut cfg host recurse root path)
    (hinv : ScanInv cfg host recurse root st) :
    Result.Safe (ScanInv cfg host recurse root) (RegisterGameFile cfg host path none st) := by
  have hfwd : Forwarded cfg host recurse root path := by
    obtain ⟨dir, name, hdir, hl, -, hp⟩ := hun
    exact ⟨dir, name, hdir, hl, hp⟩
  obtain ⟨rel, hpath, hlen⟩ := Forwarded_shape hun
  have hrel : rel.length < cfg.RelativeNameSize := by
    rw [hpath] at hlen
    simp only [List.length_append, List.length_cons] at hlen
    omega
  have hsafe := RegisterGameFile_under_root cfg host root rel st hinv.1 hrel
  rw [← hpath] at hsafe
  apply hsafe.mono
  rintro st1 ⟨hroot1, new, hnew, hall⟩
  refine ⟨hroot1, ?_⟩
  intro e he hnone
  rw [hnew] at he
  rcases List.mem_append.mp he with he | he
  · exact hinv.2 e he hnone
  · have hrn := hall e he hnone
    rw [hrn, ← hpath]
    refine ⟨hfwd, ?_⟩
    simp only [appCreateFileReader, hnone, hrn, joinPath]
    rw [← hpath, List.take_of_length_le hlen]

/-- The POSIX loop keeps the invariant of the scan. -/
theorem posixLoop_safe (cfg : BuildConfig) (host : Host) (recurse : Bool) (root dir : CStr)
    (scan : CStr → GameFS → Result) (names : List CStr)
    (hfit : ForwardsFit cfg host recurse root) (hsz : 255 ≤ cfg.RelativeNameSize)
    (hW : cfg.WIN32 = false)
    (hdir : Scanned cfg host recurse root dir) (hopen : host.opendir dir = some names)
    (hscan : ∀ d s, Scanned cfg host recurse root d → ScanInv cfg host recurse root s →
      Result.Safe (ScanInv cfg host recurse root) (scan d s))
    (rest : List CStr) (res : Bool) (st : GameFS) (hrest : ∀ n ∈ rest, n ∈ names)
    (hinv : ScanInv cfg host recurse root st) :
    Result.Safe (ScanInv cfg host recurse root)
      (posixLoop cfg host scan dir recurse rest res st) := by
  induction rest generalizing res st with
  | nil => exact hinv
  | cons name more ih =>
    have ih' := fun r s hs => ih r s (fun n hn => hrest n (by simp [hn])) hs
    simp only [posixLoop]
    by_cases hdot : charAt name 0 = '.'
    · simp only [hdot, if_true]
      exact ih' res st hinv
    · simp only [hdot, if_false]
      cases hstat : host.stat64 (joinPath dir name) with
      | none => exact ih' res st hinv
      | some isDir =>
        have hl : Lists cfg host dir name isDir :=
          ⟨hdot, by
            simp only [hW, Bool.false_eq_true, if_false]
            exact ⟨names, hopen, hrest name (by simp), hstat⟩⟩
        cases isDir with
        | true =>
          simp only
          by_cases hrec : recurse = true
          · rw [if_pos hrec]
            have hsub := hscan (joinPath dir name) st (Scanned.sub dir name hdir hrec hl) hinv
            cases hr : scan (joinPath dir name) st with
            | ret r st1 =>
              rw [hr] at hsub
              exact ih' r st1 hsub
            | appError => trivial
            | assertFailed => rw [hr] at hsub; exact hsub
            | outOfFuel => trivial
          · rw [if_neg hrec]
            exact ih' true st hinv
        | false =>
          simp only
          have hreg := RegisterGameFile_forwarded cfg host recurse root (joinPath dir name) st
            hsz ⟨dir, name, hdir, hl, hfit dir name hdir hl, rfl⟩ hinv
          cases hr : RegisterGameFile cfg host (joinPath dir name) none st with
          | ret r st1 =>
            rw [hr] at hreg
            exact ih' r st1 hreg
          | appError => trivial
          | assertFailed => rw [hr] at hreg; exact hreg
          | outOfFuel => trivial

/-- The Win32 loop keeps the invariant of the scan. -/
theorem win32Loop_safe (cfg : BuildConfig) (host : Host) (recurse : Bool) (root dir : CStr)
    (scan : CStr → GameFS → Result) (found : List (CStr × Bool))
    (hfit : ForwardsFit cfg host recurse root) (hsz : 255 ≤ cfg.RelativeNameSize)
    (hW : cfg.WIN32 = true)
    (hdir : Scanned cfg host recurse root dir)
    (hfound : host.findfirst ((dir ++ "/*.*".toList).take 255) = some found)
    (hscan : ∀ d s, Scanned cfg host recurse root d → ScanInv cfg host recurse root s →
      Result.Safe (ScanInv cfg host recurse root) (scan d s))
    (rest : List (CStr × Bool)) (st : GameFS) (hrest : ∀ e ∈ rest, e ∈ found)
    (hinv : ScanInv cfg host recurse root st) :
    Result.Safe (ScanInv cfg host recurse root)
      (win32Loop cfg host scan dir recurse rest st) := by
  induction rest generalizing st with
  | nil => exact hinv
  | cons e more ih =>
    obtain ⟨name, isDir⟩ := e
    have ih' := fun s hs => ih s (fun n hn => hrest n (by simp [hn])) hs
    simp only [win32Loop]
    by_cases hdot : charAt name 0 = '.'
    · simp only [hdot, if_true]
      exact ih' st hinv
    · simp only [hdot, if_false]
      have hl : Lists cfg host dir name isDir :=
        ⟨hdot, by
          simp only [hW, if_true]
          exact ⟨found, hfound, hrest (name, isDir) (by simp)⟩⟩
      cases isDir with
      | true =>
        simp only [if_true]
        by_cases hrec : recurse = true
        · rw [if_pos hrec]
          have hsub := hscan (joinPath dir name) st (Scanned.sub dir name hdir hrec hl) hinv
          cases hr : scan (joinPath dir name) st with
          | ret r st1 =>
            rw [hr] at hsub
            cases r with
            | true => exact ih' st1 hsub
            | false => exact hsub
          | appError => trivial
          | assertFailed => rw [hr] at hsub; exact hsub
          | outOfFuel => trivial
        · rw [if_neg hrec]
          exact ih' st hinv
      | false =>
        simp only [Bool.false_eq_true, if_false]
        have hreg := RegisterGameFile_forwarded cfg host recurse root (joinPath dir name) st
          hsz ⟨dir, name, hdir, hl, hfit dir name hdir hl, rfl⟩ hinv
        cases hr : RegisterGameFile cfg host (joinPath dir name) none st with
        | ret r st1 =>
          rw [hr] at hreg
          cases r with
          | true => exact ih' st1 hreg
          | false => exact hreg
        | appError => trivial
        | assertFailed => rw [hr] at hreg; exact hreg
        | outOfFuel => trivial

/-- `ScanGameDirectory` on a scanned directory keeps the invariant of the scan,
whatever the fuel. -/
theorem ScanGameDirectory_safe (cfg : BuildConfig) (host : Host) (recurse : Bool) (root : CStr)
    (hfit : ForwardsFit cfg host recurse root) (hsz : 255 ≤ cfg.RelativeNameSize)
    (fuel : Nat) :
    ∀ dir st, Scanned cfg host recurse root dir → ScanInv cfg host recurse root st →
      Result.Safe (ScanInv cfg host recurse root)
        (ScanGameDirectory cfg host fuel dir recurse st) := by
  induction fuel with
  | zero => intro dir st _ _; trivial
  | succ n ih =>
    intro dir st hdir hinv
    simp only [ScanGameDirectory]
    cases hW : cfg.WIN32 with
    | true =>
      simp only [if_true]
      cases hfound : host.findfirst ((dir ++ "/*.*".toList).take 255) with
      | none => exact hinv
      | some found =>
        exact win32Loop_safe cfg host recurse root dir _ found hfit hsz hW hdir hfound
          (fun d s hd hs => ih d s hd hs) found st (fun e he => he) hinv
    | false =>
      simp only [Bool.false_eq_true, if_false]
      cases hopen : host.opendir dir with
      | none => exact hinv
      | some names =>
        exact posixLoop_safe cfg host recurse root dir _ names hfit hsz hW hdir hopen
          (fun d s hd hs => ih d s hd hs) names true st (fun n hn => hn) hinv

/-! ## C15 -/

/-- What a listed name is in a POSIX build. -/
theorem Lists_posix {cfg : BuildConfig} {host : Host} {dir name : CStr} {isDir : Bool}
    (hW : cfg.WIN32 = false) (h : Lists cfg host dir name isDir) :
    ∃ names, host.opendir dir = some names ∧ name ∈ names ∧ charAt name 0 ≠ '.'
      ∧ host.stat64 (joinPath dir name) = some isDir := by
  obtain ⟨h1, h2⟩ := h
  simp only [hW, Bool.false_eq_true, if_false] at h2
  obtain ⟨names, hf, hm, hs⟩ := h2
  exact ⟨names, hf, hm, h1, hs⟩

theorem Lists_posix_intro {cfg : BuildConfig} {host : Host} {dir name : CStr} {isDir : Bool}
    {names : List CStr} (hW : cfg.WIN32 = false) (hf : host.opendir dir = some names)
    (hm : name ∈ names) (hdot : charAt name 0 ≠ '.')
    (hs : host.stat64 (joinPath dir name) = some isDir) : Lists cfg host dir name isDir := by
  refine ⟨hdot, ?_⟩
  simp only [hW, Bool.false_eq_true, if_false]
  exact ⟨names, hf, hm, hs⟩

set_option maxRecDepth 100000 in
/-- The recursive scan of `hiddenLongHost` visits `root` and `root/x` only. -/
theorem hiddenLongHost_scanned {d : CStr}
    (h : Scanned fullBuild hiddenLongHost true "root".toList d) :
    d = "root".toList ∨ d = "root/x".toList := by
  induction h with
  | root => exact Or.inl rfl
  | sub dir name _ _ hl ih =>
    obtain ⟨names, hf, hm, hdot, hs⟩ := Lists_posix rfl hl
    rcases ih with rfl | rfl
    · have ho : hiddenLongHost.opendir "root".toList
          = some [".".toList, "..".toList, ".cache".toList, "a.upk".toList, "x".toList] := by
        decide
      rw [ho] at hf
      cases hf
      clear hl
      revert hdot hs
      revert name
      decide
    · have ho : hiddenLongHost.opendir "root/x".toList
          = some [".".toList, "..".toList, "b.upk".toList] := by decide
      rw [ho] at hf
      cases hf
      clear hl
      revert hdot hs
      revert name
      decide

set_option maxRecDepth 100000 in
/-- Every candidate the recursive scan of `hiddenLongHost` forwards fits the
buffer, although the directory `root/.cache`, which the scan passes by, lists
a name of 300 characters. -/
theorem hiddenLongHost_fits :
    ForwardsFit fullBuild hiddenLongHost true "root".toList := by
  intro dir name hdir hl
  obtain ⟨names, hf, hm, -, -⟩ := Lists_posix rfl hl
  rcases hiddenLongHost_scanned hdir with rfl | rfl
  · have ho : hiddenLongHost.opendir "root".toList
        = some [".".toList, "..".toList, ".cache".toList, "a.upk".toList, "x".toList] := by
      decide
    rw [ho] at hf
    cases hf
    clear hl
    revert name
    decide
  · have ho : hiddenLongHost.opendir "root/x".toList
        = some [".".toList, "..".toList, "b.upk".toList] := by decide
    rw [ho] at hf
    cases hf
    clear hl
    revert name
    decide

/-- C15: `appSetRootDirectory(dir, recurse)` on any host, with a `RelativeName`
of at least 255 characters. (1) Every candidate the scanner forwards to the
registrar whose path is shorter than the 256-character buffer `Path` (the
scanned directory, a `/` and the listed name have at most 255 characters) is
the content of `RootDirectory`, a `/` and a rest, so the character at offset
`strlen(RootDirectory)` is `/`; the registrar's assertion does not fail on it,
and every entry made for it has that rest as `RelativeName` and
`appCreateFileReader` opens the candidate path again. (2) When every candidate
the scan forwards is that short (nothing is asked of directories the scan does
not visit, nor of the names of subdirectories), the scan as a whole never ends
in a failed assertion, and in the state it returns every entry of a regular
file stands for a forwarded candidate in this way. -/
theorem C15_forwarded_paths_under_root (cfg : BuildConfig) (host : Host) (dir : CStr)
    (recurse : Bool) (hsz : 255 ≤ cfg.RelativeNameSize) :
    (∀ path, ForwardedUncut cfg host recurse (rootOf dir) path →
      ∃ rel, path = rootOf dir ++ '/' :: rel ∧ charAt path (rootOf dir).length = '/'
        ∧ ∀ st, st.RootDirectory = rootOf dir →
            Result.Safe (fun st1 => ∃ new, st1.GameFiles = st.GameFiles ++ new
                ∧ ∀ e ∈ new, e.FileSystem = none →
                    e.RelativeName = rel ∧ appCreateFileReader (rootOf dir) e = .file path)
              (RegisterGameFile cfg host path none st))
    ∧ (ForwardsFit cfg host recurse (rootOf dir) →
        ∀ fuel r0, Result.Safe (ScanInv cfg host recurse (rootOf dir))
          (appSetRootDirectory cfg host fuel dir recurse (GameFS.initial r0))) := by
  constructor
  · intro path hfwd
    obtain ⟨rel, hpath, hlen⟩ := Forwarded_shape hfwd
    refine ⟨rel, hpath, by rw [hpath]; exact charAt_append_length _ _ _, ?_⟩
    intro st hroot
    have hrel : rel.length < cfg.RelativeNameSize := by
      rw [hpath] at hlen
      simp only [List.length_append, List.length_cons] at hlen
      omega
    have hsafe := RegisterGameFile_under_root cfg host (rootOf dir) rel st hroot hrel
    rw [← hpath] at hsafe
    apply hsafe.mono
    rintro st1 ⟨-, new, hnew, hall⟩
    refine ⟨new, hnew, ?_⟩
    intro e he hnone
    have hrn := hall e he hnone
    refine ⟨hrn, ?_⟩
    simp only [appCreateFileReader, hnone, hrn, joinPath]
    rw [← hpath, List.take_of_length_le hlen]
  · intro hfit fuel r0
    have := ScanGameDirectory_safe cfg host recurse (rootOf dir) hfit hsz fuel (rootOf dir)
      { GameFS.initial r0 with RootDirectory := rootOf dir } Scanned.root
      ⟨rfl, by simp [GameFS.initial]⟩
    exact this

set_option maxRecDepth 100000 in
/-- C15 on `hiddenLongHost`: the directory `root/.cache` lists a name of 300
characters, but the scan passes it by; every forwarded candidate fits, the
candidate `root/x/b.upk` is handled as stated, the recursive scan returns, and
its two entries are opened as `root/a.upk` and `root/x/b.upk`. -/
theorem C15_forwarded_paths_under_root_witness :
    255 ≤ fullBuild.RelativeNameSize
    ∧ (hiddenLongHost.opendir "root/.cache".toList).map (fun l => l.map List.length)
        = some [300]
    ∧ ForwardedUncut fullBuild hiddenLongHost true (rootOf "root".toList) "root/x/b.upk".toList
    ∧ (∃ rel, "root/x/b.upk".toList = rootOf "root".toList ++ '/' :: rel
        ∧ charAt "root/x/b.upk".toList (rootOf "root".toList).length = '/'
        ∧ ∀ st, st.RootDirectory = rootOf "root".toList →
            Result.Safe (fun st1 => ∃ new, st1.GameFiles = st.GameFiles ++ new
                ∧ ∀ e ∈ new, e.FileSystem = none →
                    e.RelativeName = rel
                    ∧ appCreateFileReader (rootOf "root".toList) e
                        = .file "root/x/b.upk".toList)
              (RegisterGameFile fullBuild hiddenLongHost "root/x/b.upk".toList none st))
    ∧ ForwardsFit fullBuild hiddenLongHost true (rootOf "root".toList)
    ∧ Result.Safe (ScanInv fullBuild hiddenLongHost true (rootOf "root".toList))
        (appSetRootDirectory fullBuild hiddenLongHost 3 "root".toList true (GameFS.initial []))
    ∧ (appSetRootDirectory fullBuild hiddenLongHost 3 "root".toList true
        (GameFS.initial [])).files.map (fun e => appCreateFileReader (rootOf "root".toList) e)
        = [.file "root/a.upk".toList, .file "root/x/b.upk".toList] := by
  have hun : ForwardedUncut fullBuild hiddenLongHost true (rootOf "root".toList)
      "root/x/b.upk".toList :=
    ⟨"root/x".toList, "b.upk".toList,
      Scanned.sub "root".toList "x".toList Scanned.root rfl
        (Lists_posix_intro rfl
          (show hiddenLongHost.opendir "root".toList
            = some [".".toList, "..".toList, ".cache".toList, "a.upk".toList, "x".toList]
            by decide) (by decide) (by decide) (by decide)),
      Lists_posix_intro rfl
        (show hiddenLongHost.opendir "root/x".toList
          = some [".".toList, "..".toList, "b.upk".toList] by decide)
        (by decide) (by decide) (by decide),
      by decide, by decide⟩
  exact ⟨by decide, by decide, hun,
    (C15_forwarded_paths_under_root fullBuild hiddenLongHost "root".toList true
      (by decide)).1 _ hun,
    hiddenLongHost_fits,
    (C15_forwarded_paths_under_root fullBuild hiddenLongHost "root".toList true
      (by decide)).2 hiddenLongHost_fits 3 [], by decide⟩

/-! ## Lemmas on the entries the registrar makes -/

/-- A returning classification step either keeps the registry or appends the
entry made from the candidate. -/
theorem registerEntry_made {cfg : BuildConfig} {host : Host} {FullName : CStr}
    {parentVfs : Option FVirtualFileSystem} {st st1 : GameFS} {r : Bool}
    (h : registerEntry cfg host FullName parentVfs st = .ret r st1) :
    st1.GameFiles = st.GameFiles
      ∨ ∃ e, st1.GameFiles = st.GameFiles ++ [e]
          ∧ MadeFrom cfg st.RootDirectory FullName parentVfs
              (storedSize host FullName parentVfs) e := by
  obtain ⟨-, -, hfiles, -⟩ := registerEntry_ret h
  rcases hfiles with hf | hf
  · exact Or.inl hf
  · by_cases hsame : st1.GameFiles = st.GameFiles
    · exact Or.inl hsame
    · right
      refine ⟨_, hf, ?_, ?_, rfl⟩
      · by_contra hcls
        simp only [not_or] at hcls
        have hp : FindExtension FullName (PackageExtensions cfg) = false := by
          simpa using hcls.1
        have hk : (HAS_SUPORT_FILES cfg && FindExtension FullName (KnownExtensions cfg))
            = false := by simpa using hcls.2
        simp only [registerEntry, hp, hk, Bool.false_eq_true, if_false] at h
        split at h
        · simp only [Result.ret.injEq] at h
          exact hsame (by rw [← h.2])
        · split at h
          · cases h
          · simp only [Result.ret.injEq] at h
            exact hsame (by rw [← h.2])
      · intro hnone
        subst hnone
        by_contra hassert
        have hfail : ∀ pk, createEntry cfg host FullName none pk st = .assertFailed := by
          intro pk
          simp only [createEntry, hassert, if_false]
        simp only [registerEntry, hfail] at h
        split at h
        · cases h
        · split at h
          · cases h
          · split at h
            · simp only [Result.ret.injEq] at h
              exact hsame (by rw [← h.2])
            · split at h
              · cases h
              · simp only [Result.ret.injEq] at h
                exact hsame (by rw [← h.2])

/-- The entries the loop over a container appends are made from names the
container reports. -/
theorem registerVfsFiles_made {cfg : BuildConfig} {host : Host} {vfs : FVirtualFileSystem}
    {names : List CStr} {st st1 : GameFS} {r : Bool}
    (h : registerVfsFiles cfg host vfs names st = .ret r st1) :
    ∃ new, st1.GameFiles = st.GameFiles ++ new
      ∧ ∀ e ∈ new, ∃ name ∈ names,
          MadeFrom cfg st.RootDirectory name (some vfs) (vfs.GetFileSize name) e := by
  induction names generalizing st with
  | nil =>
    simp only [registerVfsFiles, Result.ret.injEq] at h
    exact ⟨[], by simp [h.2], by simp⟩
  | cons n ns ih =>
    simp only [registerVfsFiles] at h
    cases hstep : RegisterGameFileVfs cfg host n vfs st with
    | ret r2 st2 =>
      rw [hstep] at h
      have hroot2 : st2.RootDirectory = st.RootDirectory := (RegisterGameFileVfs_ret hstep).1
      have hfirst : ∃ new, st2.GameFiles = st.GameFiles ++ new
          ∧ ∀ e ∈ new, MadeFrom cfg st.RootDirectory n (some vfs) (vfs.GetFileSize n) e := by
        simp only [RegisterGameFileVfs] at hstep
        split at hstep
        · simp only [Result.ret.injEq] at hstep
          exact ⟨[], by simp [hstep.2], by simp⟩
        · rcases registerEntry_made hstep with hf | ⟨e, hf, hm⟩
          · exact ⟨[], by simp [hf], by simp⟩
          · exact ⟨[e], hf, by
              intro x hx
              simp only [List.mem_singleton] at hx
              rw [hx]; exact hm⟩
      obtain ⟨new, hnew, hall⟩ := hfirst
      cases r2 with
      | true =>
        simp only at h
        obtain ⟨new2, hnew2, hall2⟩ := ih h
        refine ⟨new ++ new2, by rw [hnew2, hnew, List.append_assoc], ?_⟩
        intro e he
        rcases List.mem_append.mp he with he | he
        · exact ⟨n, by simp, hall e he⟩
        · obtain ⟨name, hname, hm⟩ := hall2 e he
          rw [hroot2] at hm
          exact ⟨name, by simp [hname], hm⟩
      | false =>
        simp only [Result.ret.injEq] at h
        obtain ⟨-, rfl⟩ := h
        exact ⟨new, hnew, fun e he => ⟨n, by simp, hall e he⟩⟩
    | appError => rw [hstep] at h; cases h
    | assertFailed => rw [hstep] at h; cases h
    | outOfFuel => rw [hstep] at h; cases h

/-- Every entry a returning call of the registrar appends is made from the
candidate itself or, when the candidate was mounted, from a name the container
reports. -/
theorem RegisterGameFile_made {cfg : BuildConfig} {host : Host} {FullName : CStr}
    {parentVfs : Option FVirtualFileSystem} {st st1 : GameFS} {r : Bool}
    (h : RegisterGameFile cfg host FullName parentVfs st = .ret r st1) :
    ∃ new, st1.GameFiles = st.GameFiles ++ new
      ∧ ∀ e ∈ new, ∃ name pv sz, MadeFrom cfg st.RootDirectory name pv sz e
          ∧ ((name = FullName ∧ pv = parentVfs)
            ∨ (∃ vfs, parentVfs = none ∧ host.attachObb FullName = some vfs
                ∧ pv = some vfs ∧ name ∈ vfs.FileNames)) := by
  have hplain : ∀ {r st1}, registerEntry cfg host FullName parentVfs st = .ret r st1 →
      ∃ new, st1.GameFiles = st.GameFiles ++ new
        ∧ ∀ e ∈ new, ∃ name pv sz, MadeFrom cfg st.RootDirectory name pv sz e
            ∧ ((name = FullName ∧ pv = parentVfs)
              ∨ (∃ vfs, parentVfs = none ∧ host.attachObb FullName = some vfs
                  ∧ pv = some vfs ∧ name ∈ vfs.FileNames)) := by
    intro r st1 h
    rcases registerEntry_made h with hf | ⟨e, hf, hm⟩
    · exact ⟨[], by simp [hf], by simp⟩
    · refine ⟨[e], hf, ?_⟩
      intro x hx
      simp only [List.mem_singleton] at hx
      rw [hx]
      exact ⟨FullName, parentVfs, _, hm, Or.inl ⟨rfl, rfl⟩⟩
  cases parentVfs with
  | some vfs =>
    simp only [RegisterGameFile, RegisterGameFileVfs] at h
    split at h
    · simp only [Result.ret.injEq] at h
      exact ⟨[], by simp [h.2], by simp⟩
    · exact hplain h
  | none =>
    simp only [RegisterGameFile] at h
    split at h
    · simp only [Result.ret.injEq] at h
      exact ⟨[], by simp [h.2], by simp⟩
    · split at h
      · split at h
        · rename_i hobb
          cases hatt : host.attachObb FullName with
          | none =>
            rw [hatt] at h
            simp only [Result.ret.injEq] at h
            exact ⟨[], by simp [h.2], by simp⟩
          | some vfs =>
            rw [hatt] at h
            obtain ⟨new, hnew, hall⟩ := registerVfsFiles_made h
            refine ⟨new, hnew, ?_⟩
            intro e he
            obtain ⟨name, hname, hm⟩ := hall e he
            exact ⟨name, some vfs, _, hm, Or.inr ⟨vfs, rfl, rfl, rfl, hname⟩⟩
        · exact hplain h
      · exact hplain h

/-- Every entry of a reachable registry was made from some candidate. -/
theorem Reachable_made {cfg : BuildConfig} {root : CStr} {st : GameFS}
    (h : Reachable cfg root st) :
    ∀ e ∈ st.GameFiles, ∃ name pv sz, MadeFrom cfg root name pv sz e := by
  induction h with
  | init => intro e he; simp [GameFS.initial] at he
  | call host FullName parentVfs st st1 res hreach hcall ih =>
    obtain ⟨new, hnew, hall⟩ := RegisterGameFile_made hcall
    intro e he
    rw [hnew] at he
    rcases List.mem_append.mp he with he | he
    · exact ih e he
    · obtain ⟨name, pv, sz, hm, -⟩ := hall e he
      rw [(Reachable_bounds hreach).1] at hm
      exact ⟨name, pv, sz, hm⟩

/-- The two names `mkInfo` derives are suffixes of the buffer content. -/
theorem mkInfo_names (cfg : BuildConfig) (name : CStr) (pk : Bool) (sz : Nat)
    (pv : Option FVirtualFileSystem) :
    ShortNameOk (mkInfo cfg name pk sz pv) ∧ ExtensionOk (mkInfo cfg name pk sz pv) := by
  constructor
  · simp only [ShortNameOk, mkInfo, shortFilenameOf]
    cases hs : strrchr (appStrncpyz name cfg.RelativeNameSize) '/' with
    | none => exact Or.inr ⟨strrchr_eq_none.mp hs, rfl⟩
    | some r =>
      obtain ⟨pre, post, h1, h2, h3⟩ := strrchr_eq_some hs
      left
      subst h2
      exact ⟨pre, by simpa using h1, by simpa using h3⟩
  · simp only [ExtensionOk, mkInfo, extensionOf]
    cases hs : strrchr (shortFilenameOf (appStrncpyz name cfg.RelativeNameSize)) '.' with
    | none => exact Or.inr ⟨strrchr_eq_none.mp hs, rfl⟩
    | some r =>
      obtain ⟨pre, post, h1, h2, h3⟩ := strrchr_eq_some hs
      left
      subst h2
      exact ⟨pre, post, h1, h3, by simp⟩

/-! ## C16 -/

/-- C16: every entry a returning call of `RegisterGameFile` appends, and so
every entry of a registry reached from the empty one, has as `ShortFilename`
the part of its `RelativeName` behind the last `/` (all of `RelativeName` when
it has no `/`) and as `Extension` the part of `ShortFilename` behind its last
`.` (the null pointer when `ShortFilename` has no `.`). The last part evaluates
the call that mounts `root/main.obb`, whose container reports
`data/level1.upk`. -/
theorem C16_names_are_suffixes (cfg : BuildConfig) :
    (∀ host FullName parentVfs st r st1,
        RegisterGameFile cfg host FullName parentVfs st = .ret r st1 →
        ∃ new, st1.GameFiles = st.GameFiles ++ new
          ∧ ∀ e ∈ new, ShortNameOk e ∧ ExtensionOk e)
    ∧ (∀ root st, Reachable cfg root st →
        ∀ e ∈ st.GameFiles, ShortNameOk e ∧ ExtensionOk e)
    ∧ (RegisterGameFile fullBuild obbHost "root/main.obb".toList none
          (GameFS.initial "root".toList)).files.map
        (fun e => (e.RelativeName, e.ShortFilename, e.Extension))
        = [("data/level1.upk".toList, "level1.upk".toList, some "upk".toList)] := by
  refine ⟨?_, ?_, by decide⟩
  · intro host FullName parentVfs st r st1 h
    obtain ⟨new, hnew, hall⟩ := RegisterGameFile_made h
    refine ⟨new, hnew, ?_⟩
    intro e he
    obtain ⟨name, pv, sz, ⟨-, -, hm⟩, -⟩ := hall e he
    rw [hm]
    exact mkInfo_names _ _ _ _ _
  · intro root st h e he
    obtain ⟨name, pv, sz, -, -, hm⟩ := Reachable_made h e he
    rw [hm]
    exact mkInfo_names _ _ _ _ _

/-! ## C17 -/

/-- The scan of `stopHost` from a state at capacity: the registrar signals
stop for `a.upk`; the POSIX loop goes on to `sub` and returns what the scan of
`sub` returned, the Win32 loop returns the stop. -/
theorem scan_at_capacity (st : GameFS) (recurse : Bool)
    (hfull : st.GameFiles.length ≥ MAX_GAME_FILES) :
    ScanGameDirectory fullBuild stopHost 2 "root".toList recurse st = .ret true st
    ∧ ScanGameDirectory win32Build stopHost 2 "root".toList recurse st = .ret false st := by
  have hreg : ∀ cfg p, RegisterGameFile cfg stopHost p none st = .ret false st :=
    fun cfg p => RegisterGameFile_full _ _ _ _ _ hfull
  have ho : stopHost.opendir "root".toList
      = some [".".toList, "..".toList, "a.upk".toList, "sub".toList] := by decide
  have ho2 : stopHost.opendir (joinPath "root".toList "sub".toList)
      = some [".".toList, "..".toList] := by decide
  have hf : stopHost.findfirst (("root".toList ++ "/*.*".toList).take 255)
      = some [(".".toList, true), ("..".toList, true), ("a.upk".toList, false),
          ("sub".toList, true)] := by decide
  have hs1 : stopHost.stat64 (joinPath "root".toList "a.upk".toList) = some false := by decide
  have hs2 : stopHost.stat64 (joinPath "root".toList "sub".toList) = some true := by decide
  have hd0 : charAt ".".toList 0 = '.' := by decide
  have hd1 : charAt "..".toList 0 = '.' := by decide
  have hd2 : ¬ charAt "a.upk".toList 0 = '.' := by decide
  have hd3 : ¬ charAt "sub".toList 0 = '.' := by decide
  have hw : fullBuild.WIN32 = false := rfl
  have hw2 : win32Build.WIN32 = true := rfl
  constructor
  · rw [ScanGameDirectory, hw, if_neg (by simp), ho]
    simp only
    rw [posixLoop, if_pos hd0, posixLoop, if_pos hd1, posixLoop, if_neg hd2, hs1]
    simp only [hreg]
    rw [posixLoop, if_neg hd3, hs2]
    cases recurse with
    | false => simp [posixLoop]
    | true =>
      simp only [if_true]
      rw [ScanGameDirectory, hw, if_neg (by simp), ho2]
      simp only
      rw [posixLoop, if_pos hd0, posixLoop, if_pos hd1, posixLoop]
      simp [posixLoop]
  · rw [ScanGameDirectory, hw2, if_pos rfl, hf]
    simp only
    rw [win32Loop, if_pos hd0, win32Loop, if_pos hd1, win32Loop, if_neg hd2]
    simp [hreg]

/-- One more package registered below capacity. -/
theorem registryOf_step (n : Nat) (h : n < MAX_GAME_FILES) :
    RegisterGameFile fullBuild stopHost "root/x.upk".toList none (registryOf n)
      = .ret true (registryOf (n + 1)) := by
  have hs : strrchr "root/x.upk".toList '.' = some ".upk".toList := by decide
  rw [RegisterGameFile_plain _ _ _ _ (by simpa [registryOf] using h)
    (by intro ext hx; rw [hs] at hx; cases hx; decide)]
  have hp : FindExtension "root/x.upk".toList (PackageExtensions fullBuild) = true := by decide
  rw [registerEntry, if_pos hp]
  rw [show "root/x.upk".toList = (registryOf n).RootDirectory ++ '/' :: "x.upk".toList from rfl,
    createEntry_regular]
  have hsz : regularSizeInKb stopHost ((registryOf n).RootDirectory ++ '/' :: "x.upk".toList)
      = 2 := rfl
  rw [hsz]
  simp only [registryOf, if_true, List.replicate_succ']

/-- Every registry of `x.upk` entries up to capacity is reached from the
empty one by calls of the registrar. -/
theorem registryOf_reachable (n : Nat) (h : n ≤ MAX_GAME_FILES) :
    Reachable fullBuild "root".toList (registryOf n) := by
  induction n with
  | zero => exact Reachable.init
  | succ k ih =>
    exact Reachable.call stopHost "root/x.upk".toList none (registryOf k) (registryOf (k + 1))
      true (ih (by omega)) (registryOf_step k (by omega))

/-- C19 at the failing input: `fullRegistry` is reached by 32768 calls of the
registrar and holds `MAX_GAME_FILES` entries; the registrar signals stop for
`root/a.upk` in it; the POSIX scan of `root` (listing `a.upk`, then the
subdirectory `sub`) nevertheless returns `true` (go on), with or without
recursion, where the Win32 scan of the same directory returns the stop. -/
theorem C19_posix_scan_loses_stop :
    Reachable fullBuild "root".toList fullRegistry
    ∧ fullRegistry.GNumGameFiles = MAX_GAME_FILES
    ∧ RegisterGameFile fullBuild stopHost "root/a.upk".toList none fullRegistry
        = .ret false fullRegistry
    ∧ (∀ recurse, ScanGameDirectory fullBuild stopHost 2 "root".toList recurse fullRegistry
        = .ret true fullRegistry)
    ∧ (∀ recurse, ScanGameDirectory win32Build stopHost 2 "root".toList recurse fullRegistry
        = .ret false fullRegistry) := by
  have hlen : fullRegistry.GameFiles.length = MAX_GAME_FILES := by
    simp [fullRegistry, registryOf]
  exact ⟨registryOf_reachable _ (le_refl _), hlen,
    RegisterGameFile_full _ _ _ _ _ (Nat.le_of_eq hlen.symm),
    fun recurse => (scan_at_capacity _ recurse (Nat.le_of_eq hlen.symm)).1,
    fun recurse => (scan_at_capacity _ recurse (Nat.le_of_eq hlen.symm)).2⟩

/-! ## C20 -/

theorem charAt_split {p : CStr} {n : Nat} {c : Char} (hc : c ≠ NUL) (h : charAt p n = c) :
    n < p.length ∧ p = p.take n ++ c :: p.drop (n + 1) := by
  induction p generalizing n with
  | nil => simp [charAt] at h; exact absurd h.symm hc
  | cons x xs ih =>
    cases n with
    | zero =>
      simp only [charAt, List.getD_cons_zero] at h
      simp [h]
    | succ m =>
      simp only [charAt, List.getD_cons_succ] at h
      obtain ⟨h1, h2⟩ := ih h
      refine ⟨by simp only [List.length_cons]; omega, ?_⟩
      simp only [List.take_succ_cons, List.drop_succ_cons, List.cons_append, List.cons.injEq,
        true_and]
      exact h2

/-- An entry whose stored name was not cut has an extension, and this is the
extension the classifier found in a table. -/
theorem MadeFrom_extension {cfg : BuildConfig} {root name : CStr}
    {pv : Option FVirtualFileSystem} {sz : Nat} {e : CGameFileInfo}
    (hm : MadeFrom cfg root name pv sz e)
    (hfit : e.RelativeName.length + 1 < cfg.RelativeNameSize) :
    ∃ ext, e.Extension = some ext ∧ '.' ∈ e.ShortFilename ∧ inTables cfg ext = true := by
  obtain ⟨hcls, hassert, he⟩ := hm
  have hlen : (storedName ⟨root, [], 0, 0⟩ name pv).length < cfg.RelativeNameSize := by
    rw [he] at hfit
    simp only [mkInfo, appStrncpyz, List.length_take] at hfit
    omega
  -- the same stored name seen from the prefix of `name` of the length of `root`
  let st2 : GameFS := ⟨name.take root.length, [], 0, 0⟩
  have hst2 : storedName st2 name pv = storedName ⟨root, [], 0, 0⟩ name pv := by
    cases pv with
    | some vfs => rfl
    | none =>
      have hl := (hassert rfl).1
      simp only [storedName, st2, List.length_take, Nat.min_eq_left hl]
  have hsplit : pv = none → ∃ rel, name = st2.RootDirectory ++ '/' :: rel := by
    intro hnone
    obtain ⟨-, hc⟩ := hassert hnone
    exact ⟨_, (charAt_split (by decide) hc).2⟩
  have key : ∀ T : List CStr, (∀ t ∈ T, '/' ∉ t) → FindExtension name T = true →
      ∃ ext, e.Extension = some ext ∧ T.any (fun t => stricmp ext t) = true := by
    intro T hT hfind
    obtain ⟨ext, hs, hext⟩ := stored_extension cfg st2 name pv
      (FindExtension name (PackageExtensions cfg)) sz T hT hfind hsplit (by rw [hst2]; exact hlen)
    rw [hst2, ← he] at hext
    exact ⟨ext, hext, by rw [← FindExtension_eq_any T hs]; exact hfind⟩
  have hdot : ∀ ext, e.Extension = some ext → '.' ∈ e.ShortFilename := by
    intro ext hext
    have hok : ExtensionOk e := by rw [he]; exact (mkInfo_names _ _ _ _ _).2
    rcases hok with ⟨pre, ext2, h1, -, -⟩ | ⟨-, h2⟩
    · rw [h1]; simp
    · rw [hext] at h2; cases h2
  rcases hcls with hp | hk
  · obtain ⟨ext, hext, hany⟩ := key _ (tables_no_slash cfg).1 hp
    exact ⟨ext, hext, hdot ext hext, by simp only [inTables, hany, Bool.true_or]⟩
  · simp only [Bool.and_eq_true] at hk
    obtain ⟨ext, hext, hany⟩ := key _ (tables_no_slash cfg).2 hk.2
    exact ⟨ext, hext, hdot ext hext, by simp only [inTables, hany, hk.1, Bool.and_self, Bool.or_true]⟩

set_option maxRecDepth 100000 in
/-- C20 at the failing input: the container of `dottedDirHost` reports the
package `pkg.dir/bbb...b.upk` of 262 characters. The scan registers it as a
package, with the name cut to 255 characters: its `ShortFilename` (247 letters
`b`) has no `.` and its `Extension` is the null pointer; the lookup of `pkg`
with the explicit extension `upk` passes the name test on `RelativeName` and
hands the null `Extension` to `stricmp`. On the other hand every entry a
returning call of the registrar appends with a `RelativeName` shorter than
`RelativeNameSize - 1` characters (so that nothing was cut) has an extension
that is in the Package or Support table. -/
theorem C20_entry_without_extension :
    dottedDirFiles.map (fun e => (e.IsPackage, strchr e.ShortFilename '.', e.Extension))
        = [(true, false, none)]
    ∧ dottedDirFiles.map (fun e => e.RelativeName)
        = ["pkg.dir/".toList ++ List.replicate 247 'b']
    ∧ appFindGameFile fullBuild dottedDirFiles "pkg".toList (some "upk".toList)
        = .nullExtension
    ∧ (∀ cfg host FullName parentVfs st r st1,
        RegisterGameFile cfg host FullName parentVfs st = .ret r st1 →
        ∃ new, st1.GameFiles = st.GameFiles ++ new
          ∧ ∀ e ∈ new, e.RelativeName.length + 1 < cfg.RelativeNameSize →
              ∃ ext, e.Extension = some ext ∧ '.' ∈ e.ShortFilename
                ∧ inTables cfg ext = true) := by
  refine ⟨by decide, by decide, by decide, ?_⟩
  intro cfg host FullName parentVfs st r st1 h
  obtain ⟨new, hnew, hall⟩ := RegisterGameFile_made h
  refine ⟨new, hnew, ?_⟩
  intro e he hfit
  obtain ⟨name, pv, sz, hm, -⟩ := hall e he
  exact MadeFrom_extension hm hfit

end UEViewer
